import Mathlib

/-!
Verification development for the matlab-lsp symbol-resolution engine.

This file gives a shallow embedding, in Lean 4, of the parts of the
matlab-lsp server that the checked claims are about:

* the geometric types `Point` and `Range` with the `contains` and
  `fully_contains` predicates of `src/impls/range.rs`;
* a model of tree-sitter syntax trees (the spec treats tree-sitter as a
  black-box parser exposing named nodes with kinds, ranges, fields and
  byte offsets); nodes are addressed by their path from the root;
* the symbol extractor of `src/extractors/symbols.rs` (`ref_to_var`,
  `def_var`, `command_capture_impl`, `fncall_capture_impl`,
  `field_capture_impl`, `is_in_soft_scope`, `analyze_impl`,
  `extract_symbols`); the shared interior-mutable
  `Arc<AtomicRefCell<VariableDefinition>>` cells are modelled as a heap
  (a list of `VarDef`) addressed by index;
* the dispatcher state machine of `src/threads/dispatcher.rs`
  (`handle_db_transaction`, the receive loop branches, the feed phase);
  the `State` struct declaration itself is not part of the sources, so
  its fields are reconstructed from every access `dispatcher.rs` makes;
* `Range::find_bytes` of `src/impls/range.rs` and the DidChange edit
  application of `src/handlers/notifications.rs`;
* `traverse_folder` of `src/extractors/fast.rs` over a model filesystem.

External engines are modelled as parameters: the regex engine used by
the clear and clearvars command handling is a parameter
`regexNew : String -> Option (String -> Bool)` (compilation may fail;
a compiled regex is a match predicate), and tree-sitter point lookups
are modelled by a plain structural descent.
-/

namespace MLSpec

/-- Model of tree_sitter Point: zero-indexed row and column. -/
structure Point where
  row : Nat
  column : Nat
deriving DecidableEq, Repr

/-- Model of the Range type of the server: start and end points.
The end field is named endp because end is a Lean keyword. -/
structure Range where
  start : Point
  endp : Point
deriving DecidableEq, Repr

instance : Inhabited Point := ⟨⟨0, 0⟩⟩

instance : Inhabited Range := ⟨⟨⟨0, 0⟩, ⟨0, 0⟩⟩⟩

/-- Range.contains of src/impls/range.rs (the new-architecture impl):
true when the point is strictly between the rows, or lies on the start
or end row and within the column bounds. -/
def Range.containsB (self : Range) (other : Point) : Bool :=
  (self.start.row < other.row && other.row < self.endp.row)
    || ((self.start.row == other.row || self.endp.row == other.row)
        && self.start.column ≤ other.column
        && other.column ≤ self.endp.column)

/-- Range.fully_contains of src/impls/range.rs: both endpoints contained. -/
def Range.fullyContainsB (self : Range) (other : Range) : Bool :=
  self.containsB other.start && self.containsB other.endp

/-!
Kernel-reducible string helpers. They model the str and String
operations of the source (starts_with, ends_with, strip, replace,
rsplitn, join) over the character list of the Lean string, so that the
concrete counterexamples and witnesses evaluate inside the kernel.
-/

/-- Whether the second list is an initial segment of the first. -/
def listStarts : List Char → List Char → Bool
  | _, [] => true
  | [], _ :: _ => false
  | c :: cs, d :: ds => c == d && listStarts cs ds

/-- str::starts_with. -/
def strStarts (s pre : String) : Bool := listStarts s.data pre.data

/-- str::ends_with. -/
def strEnds (s suf : String) : Bool :=
  listStarts s.data.reverse suf.data.reverse

/-- Drop the first n characters. -/
def strDrop (s : String) (n : Nat) : String := ⟨s.data.drop n⟩

/-- Drop the last n characters. -/
def strDropRight (s : String) (n : Nat) : String :=
  ⟨s.data.take (s.data.length - n)⟩

/-- str::to_lowercase (the sources only lowercase ASCII words). -/
def strLower (s : String) : String := ⟨s.data.map Char.toLower⟩

/-- str::replace of the single character star by dot-star, as the clear
pattern compilation performs it. -/
def starToDotStar (s : String) : String :=
  ⟨(s.data.map (fun d => if d == '*' then ['.', '*'] else [d])).flatten⟩

/-- Split on dots (String::split with a dot separator, empty segments
included). -/
def splitDotAux : List Char → List Char → List String
  | [], acc => [⟨acc.reverse⟩]
  | c :: rest, acc =>
    if c == '.' then ⟨acc.reverse⟩ :: splitDotAux rest []
    else splitDotAux rest (c :: acc)

/-- Split a string on dots. -/
def splitOnDot (s : String) : List String := splitDotAux s.data []

/-- Join strings with dots (the itertools join of the field walk and of
pkg_basename). -/
def joinDot : List String → String
  | [] => ""
  | [x] => x
  | x :: xs => x ++ "." ++ joinDot xs

end MLSpec

namespace MLSpec.Disp

/-!
Model of the dispatcher actor of `src/threads/dispatcher.rs`.

The new-architecture `types.rs` (declaring `State`, `ThreadMessage`,
`DBRequest`, ...) is not among the packaged sources; the fields and
variants below are reconstructed from every use the dispatcher makes of
them, and from the spec of the Store (section 4.4).  Timestamps
(`std::time::Instant`) are modelled as naturals, LSP request ids as
integers.
-/

/-- ParsedFile as the dispatcher sees it: only the fields the dispatcher
reads are modelled (path, basename, open flag, script flag, timestamp). -/
structure PFile where
  path : String
  name : String
  open_ : Bool
  is_script : Bool
  timestamp : Nat
deriving DecidableEq, Repr

/-- FunctionDefinition as the dispatcher sees it: name, package and the
path of the defining file. -/
structure FnDef where
  name : String
  package : String
  path : String
deriving DecidableEq, Repr

/-- The dispatcher-owned Workspace portion used by the Store: functions
keyed by qualified name, and the set of known packages. -/
structure StoreWs where
  functions : List (String × FnDef)
  packages : List String
deriving DecidableEq, Repr

/-- DBOperation of the new-architecture types. -/
inductive DBOp where
  | get | set | delete | fetch
deriving DecidableEq, Repr

/-- DBTarget of the new-architecture types. -/
inductive DBTarget where
  | parsedFile | package | functionDefinition | requestID | script
deriving DecidableEq, Repr

/-- DBArgument of the new-architecture types. -/
inductive DBArg where
  | str (s : String)
  | parsedFile (f : PFile)
  | parsedFiles (fs : List (String × PFile))
  | packages (ps : List String)
  | functionDef (f : FnDef)
  | functionDefs (fs : List (String × FnDef))
  | integer (i : Int)
  | notFound
deriving DecidableEq, Repr

/-- DBRequest of the new-architecture types. -/
structure DBReq where
  operation : DBOp
  target : DBTarget
  argument : DBArg
deriving DecidableEq, Repr

/-- An LSP message as the dispatcher routes it. Requests carry their id
(for cancellation); notification params are reduced to the resolved
cancel id, which is all the dispatcher reads from them. -/
inductive LMsg where
  | request (id : Int) (method : String)
  | response (data : String)
  | notification (method : String) (cancelId : Int)
deriving DecidableEq, Repr

/-- SenderThread of the new-architecture types. -/
inductive Sender where
  | mainT | dispatcher | handler | backgroundWorker
deriving DecidableEq, Repr

/-- MessagePayload of the new-architecture types, reconstructed from the
dispatcher match arms. -/
inductive Payload where
  | lsp (m : LMsg)
  | exitMsg
  | done
  | db (req : DBReq)
  | initPath (files : List PFile) (funcs : List FnDef)
  | scanWorkspace (paths : List String)
  | scanPath (paths : List String)
  | scanOpen
deriving DecidableEq, Repr

/-- ThreadMessage of the new-architecture types. -/
structure TMsg where
  sender : Sender
  payload : Payload
deriving DecidableEq, Repr

/-- The dispatcher State, reconstructed from every field access in
src/threads/dispatcher.rs. Queues are lists (front = next out);
request_id is the i32 counter of db_get_request_id, carried as an Int
whose increment is reduced into the i32 range by wrapI32. -/
structure State where
  lib_path : List String
  ws_path : List String
  requests_queue : List LMsg
  notifications_queue : List LMsg
  responses_queue : List LMsg
  handler_idle : Bool
  bw_idle : Bool
  parsed_files : List (String × PFile)
  workspace : StoreWs
  request_id : Int
  bw_queue : List TMsg
  handler_queue : List TMsg
deriving DecidableEq, Repr

/-- Association-list lookup mirroring HashMap::get. -/
def alookup {α : Type} (l : List (String × α)) (k : String) : Option α :=
  match l.find? (fun kv => kv.1 == k) with
  | some kv => some kv.2
  | none => none

/-- Association-list insert mirroring HashMap::insert (replace the
binding if the key exists, else append). -/
def ainsert {α : Type} (l : List (String × α)) (k : String) (v : α) :
    List (String × α) :=
  if l.any (fun kv => kv.1 == k) then
    l.map (fun kv => if kv.1 == k then (k, v) else kv)
  else
    l ++ [(k, v)]

/-- The qualified-name key for a function definition: package.name with
a leading dot stripped when the package is empty (dispatcher InitPath
and Set FunctionDefinition arms). -/
def qualKey (package name : String) : String :=
  let key := package ++ "." ++ name
  if strStarts key "." then (strDrop key 1) else key

/-- Two's-complement reduction of an integer into the i32 range, the
behaviour of Rust's release-mode i32 addition: the request-id counter
is an i32 (db_get_request_id of src/threads/db.rs returns Option of
i32), so the increment at dispatcher.rs line 206 wraps at the i32
maximum. -/
def wrapI32 (n : Int) : Int :=
  (n + 2 ^ 31) % 2 ^ 32 - 2 ^ 31

/-- Result of a dispatcher step that handles one DB transaction: the new
state and the reply argument sent back (none for the early-return arms). -/
structure DBOut where
  state : State
  reply : Option DBArg
deriving Repr

/-- handle_db_transaction of src/threads/dispatcher.rs. from_handler is
true when the requesting worker is the Handler thread. -/
def handle_db_transaction (state : State) (req : DBReq) (from_handler : Bool) :
    DBOut :=
  match req.operation with
  | .get =>
    match req.target with
    | .parsedFile =>
      match req.argument with
      | .str path =>
        match alookup state.parsed_files path with
        | some file => ⟨state, some (.parsedFile file)⟩
        | none => ⟨state, some .notFound⟩
      | _ => ⟨state, some .notFound⟩
    | .package =>
      match req.argument with
      | .str pkg =>
        ⟨state, some (.packages (state.workspace.packages.filter
          (fun p => strStarts p pkg)))⟩
      | _ => ⟨state, some .notFound⟩
    | .functionDefinition =>
      match req.argument with
      | .str path =>
        match alookup state.workspace.functions path with
        | some f => ⟨state, some (.functionDef f)⟩
        | none => ⟨state, some .notFound⟩
      | _ => ⟨state, some .notFound⟩
    | .requestID =>
      let id := state.request_id
      ⟨{ state with request_id := wrapI32 (state.request_id + 1) },
        some (.integer id)⟩
    | .script =>
      match req.argument with
      | .str name =>
        match (state.parsed_files.map (fun kv => kv.2)).find?
            (fun f => f.is_script && f.name == name) with
        | some file => ⟨state, some (.parsedFile file)⟩
        | none => ⟨state, some .notFound⟩
      | _ => ⟨state, some .notFound⟩
  | .set =>
    match req.target with
    | .parsedFile =>
      match req.argument with
      | .parsedFile file =>
        match alookup state.parsed_files file.path with
        | some stored =>
          if (stored.open_ && !from_handler)
              || stored.timestamp > file.timestamp then
            ⟨state, none⟩
          else
            ⟨{ state with parsed_files :=
                (ainsert state.parsed_files file.path file) }, none⟩
        | none =>
          ⟨{ state with parsed_files :=
              (ainsert state.parsed_files file.path file) }, none⟩
      | _ => ⟨state, some .notFound⟩
    | .package =>
      match req.argument with
      | .packages pkgs =>
        ⟨{ state with workspace :=
            ({ state.workspace with
                packages := state.workspace.packages ++ pkgs }) }, none⟩
      | _ => ⟨state, some .notFound⟩
    | .functionDefinition =>
      match req.argument with
      | .functionDef func =>
        ⟨{ state with workspace :=
            ({ state.workspace with functions :=
                (ainsert state.workspace.functions
                  (qualKey func.package func.name) func) }) }, none⟩
      | _ => ⟨state, some .notFound⟩
    | .requestID => ⟨state, some .notFound⟩
    | .script => ⟨state, some .notFound⟩
  | .delete =>
    match req.target with
    | .parsedFile =>
      match req.argument with
      | .str path =>
        ⟨{ state with parsed_files :=
            (state.parsed_files.filter (fun kv => !(kv.1 == path))) }, none⟩
      | _ => ⟨state, some .notFound⟩
    | .package => ⟨state, some .notFound⟩
    | .script => ⟨state, some .notFound⟩
    | .functionDefinition =>
      match req.argument with
      | .str path =>
        ⟨{ state with workspace :=
            ({ state.workspace with functions :=
                (state.workspace.functions.filter
                  (fun kv => !(kv.2.path == path))) }) }, none⟩
      | _ => ⟨state, some .notFound⟩
    | .requestID => ⟨state, some .notFound⟩
  | .fetch =>
    match req.target with
    | .parsedFile => ⟨state, some (.parsedFiles state.parsed_files)⟩
    | .package => ⟨state, some .notFound⟩
    | .script =>
      ⟨state, some (.parsedFiles (state.parsed_files.filter
        (fun kv => kv.2.is_script)))⟩
    | .functionDefinition =>
      ⟨state, some (.functionDefs state.workspace.functions)⟩
    | .requestID => ⟨state, some .notFound⟩

/-- The LSP method name of textDocument/cancelRequest notifications. -/
def cancelMethod : String := "$/cancelRequest"

/-- The receive branch of the dispatcher loop of
src/threads/dispatcher.rs: the state update performed after recv
returns one message (the queue-feeding phase is feedPhase below). -/
def handleMessage (state : State) (msg : TMsg) : DBOut :=
  match msg.sender with
  | .mainT =>
    match msg.payload with
    | .lsp m =>
      match m with
      | .notification method cancelId =>
        if method == cancelMethod then
          ⟨{ state with requests_queue :=
              (state.requests_queue.filter
                (fun r => match r with
                  | .request id _ => !(id == cancelId)
                  | _ => true)) }, none⟩
        else
          ⟨{ state with notifications_queue :=
              (state.notifications_queue ++ [m]) }, none⟩
      | .request _ _ =>
        ⟨{ state with requests_queue := state.requests_queue ++ [m] }, none⟩
      | .response _ =>
        ⟨{ state with responses_queue := state.responses_queue ++ [m] }, none⟩
    | .exitMsg => ⟨state, none⟩
    | _ => ⟨state, none⟩
  | .dispatcher => ⟨state, none⟩
  | .handler =>
    match msg.payload with
    | .done => ⟨{ state with handler_idle := true }, none⟩
    | .db req => handle_db_transaction state req true
    | .initPath files funcs => ⟨initPathUpdate state files funcs, none⟩
    | .scanWorkspace _ =>
      ⟨{ state with bw_queue :=
          (state.bw_queue ++
            [⟨.dispatcher, .scanWorkspace state.ws_path⟩]) }, none⟩
    | .scanOpen =>
      ⟨{ state with handler_queue :=
          (state.handler_queue ++ [⟨.dispatcher, .scanOpen⟩]) }, none⟩
    | _ => ⟨state, none⟩
  | .backgroundWorker =>
    match msg.payload with
    | .done => ⟨{ state with bw_idle := true }, none⟩
    | .db req => handle_db_transaction state req false
    | .initPath files funcs => ⟨initPathUpdate state files funcs, none⟩
    | .scanWorkspace _ =>
      ⟨{ state with bw_queue :=
          (state.bw_queue ++
            [⟨.dispatcher, .scanWorkspace state.ws_path⟩]) }, none⟩
    | .scanOpen =>
      ⟨{ state with handler_queue :=
          (state.handler_queue ++ [⟨.dispatcher, .scanOpen⟩]) }, none⟩
    | _ => ⟨state, none⟩
where
  /-- The InitPath arm: insert every scanned file and function. -/
  initPathUpdate (state : State) (files : List PFile) (funcs : List FnDef) :
      State :=
    let st1 := { state with parsed_files :=
      (files.foldl (fun acc (f : PFile) => ainsert acc f.path f)
        state.parsed_files) }
    { st1 with workspace := ({ st1.workspace with functions :=
        (funcs.foldl
          (fun acc (f : FnDef) => ainsert acc (qualKey f.package f.name) f)
          st1.workspace.functions) }) }

/-- The queue-feeding phase at the top of each dispatcher loop
iteration: when the Handler is idle, hand it one pending notification,
else response, else request, else handler-queue item; when the
Background Worker is idle, hand it one queued item. Only the state
update is modelled (the sends go to the other actors). -/
def feedPhase (state : State) : State :=
  let st :=
    if state.handler_idle then
      match state.notifications_queue with
      | _ :: rest =>
        { state with handler_idle := false, notifications_queue := rest }
      | [] =>
        match state.responses_queue with
        | _ :: rest =>
          { state with handler_idle := false, responses_queue := rest }
        | [] =>
          match state.requests_queue with
          | _ :: rest =>
            { state with handler_idle := false, requests_queue := rest }
          | [] =>
            match state.handler_queue with
            | _ :: rest =>
              { state with handler_idle := false, handler_queue := rest }
            | [] => state
    else state
  if st.bw_idle then
    match st.bw_queue with
    | _ :: rest => { st with bw_idle := false, bw_queue := rest }
    | [] => st
  else st

/-- One full dispatcher loop iteration: feed the idle workers, then
handle the next received message. -/
def dispatcherStep (state : State) (msg : TMsg) : DBOut :=
  handleMessage (feedPhase state) msg

end MLSpec.Disp

namespace MLSpec.FileModel

open MLSpec

/-!
Model of the range-to-byte mapper `Range::find_bytes` of
`src/impls/range.rs` and of the DidChange edit application of
`src/handlers/notifications.rs` (`handle_text_document_did_change`).
File contents are modelled as lists of unicode characters; byte
positions are computed with the UTF-8 width of each character, exactly
as the source walks `contents.chars()` adding `c.len_utf8()`.
-/

/-- Newline normalization performed by find_bytes: contents.replace
of the two-byte sequence by a newline, then of every lone carriage
return by a newline. -/
def normNewlines : List Char → List Char
  | [] => []
  | '\r' :: '\n' :: rest => '\n' :: normNewlines rest
  | '\r' :: rest => '\n' :: normNewlines rest
  | c :: rest => c :: normNewlines rest

/-- Total UTF-8 byte length of the contents. -/
def byteLen (cs : List Char) : Nat :=
  cs.foldl (fun acc c => acc + c.utf8Size) 0

/-- The loop of Range::find_bytes: walk the characters advancing
(byte, row, column); record the start byte when the position equals the
range start; stop with the current byte as end byte when the position
equals the range end; when the characters run out first, stop with the
end byte still holding its initial value 0. -/
def findBytesLoop (rng : Range) (cs : List Char) (byte row col sb : Nat) :
    Nat × Nat :=
  let sb := if row == rng.start.row && col == rng.start.column then byte
    else sb
  if row == rng.endp.row && col == rng.endp.column then (sb, byte)
  else
    match cs with
    | [] => (sb, 0)
    | c :: rest =>
      if c == '\n' then
        findBytesLoop rng rest (byte + c.utf8Size) (row + 1) 0 sb
      else
        findBytesLoop rng rest (byte + c.utf8Size) row (col + 1) sb

/-- Range::find_bytes of src/impls/range.rs, returning the start and
end bytes of the tree_sitter range it builds. Empty contents return the
default range, which maps to byte range (0, 0). -/
def find_bytes (rng : Range) (contents : List Char) : Nat × Nat :=
  if contents.isEmpty then (0, 0)
  else findBytesLoop rng (normNewlines contents) 0 0 0 0

/-- All (row, column) positions the find_bytes walk visits, including
the final position at end of input. -/
def walkPositions : List Char → Nat → Nat → List (Nat × Nat)
  | [], row, col => [(row, col)]
  | c :: rest, row, col =>
    (row, col) ::
      (if c == '\n' then walkPositions rest (row + 1) 0
       else walkPositions rest row (col + 1))

/-- Characters of the contents whose starting byte offset is below b
(the prefix kept by a byte splice at b). On a char boundary this is
exactly the prefix of the first b bytes; the source would panic on a
non-boundary offset, which the model does not represent. -/
def takeBytes : List Char → Nat → List Char
  | [], _ => []
  | c :: rest, b => if 0 < b then c :: takeBytes rest (b - c.utf8Size) else []

/-- Characters of the contents whose starting byte offset is at least
b (the suffix kept by a byte splice at b). -/
def dropBytes : List Char → Nat → List Char
  | [], _ => []
  | c :: rest, b => if 0 < b then dropBytes rest (b - c.utf8Size) else c :: rest

/-- String::insert_str at byte offset b. -/
def insertStrAt (cs : List Char) (b : Nat) (text : List Char) : List Char :=
  takeBytes cs b ++ text ++ dropBytes cs b

/-- String::replace_range over the byte range s..e. -/
def replaceByteRange (cs : List Char) (s e : Nat) (text : List Char) :
    List Char :=
  takeBytes cs s ++ text ++ dropBytes cs e

/-- One content change of handle_text_document_did_change of
src/handlers/notifications.rs: with no range the whole contents are
replaced; otherwise the range is mapped to bytes by the mapper, the end
byte is clamped to len - 1 (saturating), and the text is inserted at
the start byte when start is at least end, else replaces the byte range
from start to end. The byte mapper is a parameter, instantiated with
find_bytes. -/
def apply_change (mapper : Range → List Char → Nat × Nat)
    (contents : List Char) (range : Option Range) (text : List Char) :
    List Char :=
  match range with
  | none => text
  | some rng =>
    let ts := mapper rng contents
    let start := ts.1
    let endb := min ts.2 (byteLen contents - 1)
    if start ≥ endb then insertStrAt contents start text
    else replaceByteRange contents start endb text

end MLSpec.FileModel

namespace MLSpec.Crawl

/-!
Model of `traverse_folder` of `src/extractors/fast.rs`. A directory
listing is a list of filesystem entries in the order read_dir yields
them; entry paths are composed as folder/name as entry.path does.
-/

/-- A filesystem entry: a plain file or a directory with its listing. -/
inductive FSEntry where
  | file (name : String)
  | dir (name : String) (entries : List FSEntry)
deriving Repr

/-- Strip one leading dot, as the strip_prefix call of the source does
when composing dotted package names. -/
def stripDot (s : String) : String :=
  if MLSpec.strStarts s "." then MLSpec.strDrop s 1 else s

/-- The body of traverse_folder: walk the entries in order, pushing
(package, path) for *.m files and, for directories whose name starts
with a plus sign, pushing the composed package name and recursing;
directories with any other name (including class folders named with a
leading at sign) fall through the if with no effect. The files and
packages accumulators mirror the two vectors of the source. -/
def traverseGo (folder package : String) :
    List FSEntry → List (String × String) → List String →
    List (String × String) × List String
  | [], files, packages => (files, packages)
  | .file name :: rest, files, packages =>
    if MLSpec.strEnds name ".m" then
      traverseGo folder package rest
        (files ++ [(package, folder ++ "/" ++ name)]) packages
    else
      traverseGo folder package rest files packages
  | .dir name es :: rest, files, packages =>
    if MLSpec.strStarts name "+" then
      let stripped := MLSpec.strDrop name 1
      let packageName := stripDot (package ++ "." ++ stripped)
      let sub := traverseGo (folder ++ "/" ++ name) packageName es [] []
      traverseGo folder package rest (files ++ sub.1)
        (packages ++ [packageName] ++ sub.2)
    else
      traverseGo folder package rest files packages

/-- traverse_folder of src/extractors/fast.rs. -/
def traverse_folder (folder package : String) (entries : List FSEntry) :
    List (String × String) × List String :=
  traverseGo folder package entries [] []

end MLSpec.Crawl

namespace MLSpec.Ext

open MLSpec

/-!
Model of the symbol extractor of `src/extractors/symbols.rs`.

Syntax trees are rose trees of named nodes carrying kind, field name,
start byte, range and source text; concrete nodes are addressed by the
path of child indices from the root (paths play the role of the stable
node ids the source keys its per-function workspace map by).  The
query that produces the capture list lives in a query file that is not
among the packaged sources, so the capture list is an input of the
model, as it is an input of `analyze_impl`.
-/

/-- The data of one named syntax node: kind, the field name linking it
to its parent (if any), start byte, range, and the source text the node
spans (node.utf8_text). -/
structure NodeData where
  kind : String
  field : Option String
  startByte : Nat
  range : Range
  text : String
deriving DecidableEq, Repr

instance : Inhabited NodeData := ⟨⟨"", none, 0, default, ""⟩⟩

mutual

/-- A syntax tree: a node and its named children in order. The child
list is a dedicated mutual inductive so that whole-tree recursions
(treeDepth, outputPositionsTree) are mutual structural recursions. -/
inductive STree where
  | mk (data : NodeData) (children : STreeList)
  deriving Repr

/-- The child list of a syntax-tree node. -/
inductive STreeList where
  | nil
  | cons (head : STree) (tail : STreeList)
  deriving Repr

end

/-- The child list as an ordinary list. -/
def STreeList.toList : STreeList → List STree
  | .nil => []
  | .cons h t => h :: t.toList

/-- Build a child list from an ordinary list. -/
def STreeList.ofList : List STree → STreeList
  | [] => .nil
  | h :: t => .cons h (STreeList.ofList t)

/-- The data of the root node. -/
def STree.data : STree → NodeData
  | .mk d _ => d

/-- The children of the root node, as a list. -/
def STree.children : STree → List STree
  | .mk _ cs => cs.toList

instance : Inhabited STree := ⟨.mk default .nil⟩

/-- The subtree addressed by a path of child indices. -/
def subtreeAt (t : STree) : List Nat → Option STree
  | [] => some t
  | i :: p =>
    match t.children.get? i with
    | some c => subtreeAt c p
    | none => none

/-- The node data at a path (defaulted for invalid paths, which the
extractor never produces). -/
def nodeAt (t : STree) (p : List Nat) : NodeData :=
  match subtreeAt t p with
  | some s => s.data
  | none => default

/-- Node kind at a path. -/
def kindAt (t : STree) (p : List Nat) : String := (nodeAt t p).kind

/-- Node range at a path. -/
def rangeAt (t : STree) (p : List Nat) : Range := (nodeAt t p).range

/-- Node text at a path. -/
def textAt (t : STree) (p : List Nat) : String := (nodeAt t p).text

/-- Node start byte at a path. -/
def byteAt (t : STree) (p : List Nat) : Nat := (nodeAt t p).startByte

/-- The parent of a node: drop the last path component. -/
def parentOfPath (p : List Nat) : Option (List Nat) :=
  match p with
  | [] => none
  | _ :: _ => some p.dropLast

/-- The climbing loops of the source (parent_of_kind, parent_function,
soft_scope_parent) all walk node.parent() until a kind in a fixed set
is found. The fuel argument bounds the walk by the path length, which
every climb respects since each parent is one component shorter. -/
def climbAux (t : STree) (ks : List String) : Nat → List Nat → Option (List Nat)
  | 0, _ => none
  | fuel + 1, p =>
    match p with
    | [] => none
    | _ :: _ =>
      let parent := p.dropLast
      if ks.contains (kindAt t parent) then some parent
      else climbAux t ks fuel parent

/-- Climb to the nearest ancestor whose kind is in the list. -/
def climb (t : STree) (ks : List String) (p : List Nat) : Option (List Nat) :=
  climbAux t ks p.length p

/-- parent_of_kind of src/extractors/symbols.rs. -/
def parent_of_kind (t : STree) (kind : String) (p : List Nat) :
    Option (List Nat) :=
  climb t [kind] p

/-- parent_function of src/extractors/symbols.rs: nearest enclosing
function_definition or lambda. -/
def parent_function (t : STree) (p : List Nat) : Option (List Nat) :=
  climb t ["function_definition", "lambda"] p

/-- soft_scope_parent of src/extractors/symbols.rs: nearest enclosing
if, switch, try, for or while statement. -/
def soft_scope_parent (t : STree) (p : List Nat) : Option (List Nat) :=
  climb t ["if_statement", "switch_statement", "try_statement",
    "for_statement", "while_statement"] p

/-- The scopes stack built at the top of the capture loop: all
enclosing function or lambda nodes, innermost first. The fuel bounds
the iterated parent_function walk by the path length. -/
def scopesAux (t : STree) : Nat → List Nat → List (List Nat)
  | 0, _ => []
  | fuel + 1, p =>
    match parent_function t p with
    | none => []
    | some q => q :: scopesAux t fuel q

/-- The scopes stack for the node at path p, innermost first. -/
def scopesOf (t : STree) (p : List Nat) : List (List Nat) :=
  scopesAux t p.length p

/-- Paths of the named children of the node at p, in order. -/
def namedChildrenPaths (t : STree) (p : List Nat) : List (List Nat) :=
  match subtreeAt t p with
  | some n => (List.range n.children.length).map (fun i => p ++ [i])
  | none => []

/-- child_by_field_name: the first child carrying the given field name. -/
def childByField (t : STree) (p : List Nat) (f : String) : Option (List Nat) :=
  match subtreeAt t p with
  | none => none
  | some n =>
    match n.children.findIdx? (fun c => c.data.field == some f) with
    | some i => some (p ++ [i])
    | none => none

/-- children_by_field_name: all children carrying the given field name. -/
def childrenByField (t : STree) (p : List Nat) (f : String) : List (List Nat) :=
  match subtreeAt t p with
  | none => []
  | some n =>
    (n.children.enum.filter (fun ic => ic.2.data.field == some f)).map
      (fun ic => p ++ [ic.1])

/-- Tree-sitter point order: row-major, then column. -/
def pointLeB (a b : Point) : Bool :=
  a.row < b.row || (a.row == b.row && a.column ≤ b.column)

/-- Tree-sitter point containment of a range (both endpoints inclusive
in point order), used by the descendant lookup. -/
def tsContains (r : Range) (pt : Point) : Bool :=
  pointLeB r.start pt && pointLeB pt r.endp

mutual

/-- Height of a syntax tree, bounding any root-to-leaf descent. -/
def treeDepth : STree → Nat
  | .mk _ cs => 1 + treeDepthL cs

/-- Largest height among a list of trees. -/
def treeDepthL : STreeList → Nat
  | .nil => 0
  | .cons c cs => max (treeDepth c) (treeDepthL cs)

end

/-- Structural descent of named_descendant_for_point_range: repeatedly
enter the first child whose range contains the point; stop at a node
with no such child. The fuel (the tree height) bounds the descent. -/
def descendAux (pt : Point) : Nat → STree → List Nat
  | 0, _ => []
  | fuel + 1, t =>
    match t.children.enum.find? (fun ic => tsContains ic.2.data.range pt) with
    | none => []
    | some ic => ic.1 :: descendAux pt fuel ic.2

/-- node_at_pos of src/extractors/symbols.rs: the named descendant of
the root covering the given point, modelling the black-box tree-sitter
lookup by structural descent. -/
def node_at_pos (t : STree) (pt : Point) : Option (List Nat) :=
  if tsContains t.data.range pt then some (descendAux pt (treeDepth t) t)
  else none

end MLSpec.Ext

namespace MLSpec.Ext

open MLSpec
open MLSpec.Disp (ainsert alookup)

/-- The loop of is_in_soft_scope of src/extractors/symbols.rs: climb
the soft-scope parents of the reference node; whenever such a parent
contains both the reference and the definition start positions and one
of its named children contains the definition but not the reference,
the two nodes are in different branches and the answer is false. The
fuel (the reference path length) bounds the climb. -/
def issAux (t : STree) (nref ndef : List Nat) : Nat → List Nat → Bool
  | 0, _ => true
  | fuel + 1, node =>
    match soft_scope_parent t node with
    | none => true
    | some parent =>
      let r := rangeAt t parent
      let bad :=
        if r.containsB (rangeAt t nref).start
            && r.containsB (rangeAt t ndef).start then
          (namedChildrenPaths t parent).any (fun child =>
            let cr := rangeAt t child
            cr.containsB (rangeAt t ndef).start
              && !(cr.containsB (rangeAt t nref).start))
        else false
      if bad then false else issAux t nref ndef fuel parent

/-- is_in_soft_scope of src/extractors/symbols.rs. -/
def is_in_soft_scope (t : STree) (nref ndef : List Nat) : Bool :=
  issAux t nref ndef nref.length nref

/-- VariableDefinition of the new-architecture types, reconstructed
from the extractor accesses: location, name, the row of a clear that
invalidated the binding (0 when live), and the parameter and global
flags. -/
structure VarDef where
  loc : Range
  name : String
  cleared : Nat
  is_parameter : Bool
  is_global : Bool
deriving DecidableEq, Repr

instance : Inhabited VarDef := ⟨⟨default, "", 0, false, false⟩⟩

/-- FunctionDefinition as the extractor builds it; the signature fields
beyond the name and its range are consumed only by the completion and
hover features and are not modelled. -/
structure EFnDef where
  loc : Range
  name : String
  path : String
  package : String
deriving DecidableEq, Repr

/-- ReferenceTarget of the new-architecture types. Variable targets
hold the heap index of the shared cell. -/
inductive RefTarget where
  | unknownVariable
  | unknownFunction
  | ns (name : String)
  | script (path : String)
  | fn (f : EFnDef)
  | var (idx : Nat)
deriving DecidableEq, Repr

/-- Reference of the new-architecture types. -/
structure Ref where
  loc : Range
  name : String
  target : RefTarget
deriving DecidableEq, Repr

instance : Inhabited Ref := ⟨⟨default, "", .unknownVariable⟩⟩

/-- The extractor Workspace: functions by name, variable cells (the
source field named variables, as heap indices in insertion order; the
name vars avoids a Lean keyword), references in creation order. -/
structure Ws where
  functions : List (String × EFnDef)
  vars : List Nat
  references : List Ref
deriving DecidableEq, Repr

/-- The empty workspace. -/
def Ws.empty : Ws := ⟨[], [], []⟩

/-- The extraction state: the heap of shared VariableDefinition cells,
the file-level workspace, and the per-function nested workspaces keyed
by the fndef node path (the stable node id of the source). -/
structure ExtState where
  heap : List VarDef
  workspace : Ws
  functions : List (List Nat × Ws)
deriving DecidableEq, Repr

/-- functions.get of the per-function workspace map: the stored pair
plays the role of the (Node, Workspace) value of the source, the key
path standing for the node. -/
def fnsGet (fns : List (List Nat × Ws)) (p : List Nat) :
    Option (List Nat × Ws) :=
  fns.find? (fun kv => kv.1 == p)

/-- functions.get_mut followed by a workspace update. -/
def fnsSet (fns : List (List Nat × Ws)) (p : List Nat) (ws : Ws) :
    List (List Nat × Ws) :=
  fns.map (fun kv => if kv.1 == p then (kv.1, ws) else kv)

/-- Push one reference into the file-level workspace. -/
def pushRef (st : ExtState) (r : Ref) : ExtState :=
  { st with workspace :=
      { st.workspace with references := st.workspace.references ++ [r] } }

/-- A parsed file in the Store as the extractor DB sees it, for the
script lookup of command handling. -/
structure DBFile where
  name : String
  path : String
  is_script : Bool
deriving DecidableEq, Repr

/-- The Store contents visible to the extractor through the DB channel
round-trips: functions by qualified name, package names and parsed
files. The Store does not change during one extraction in this model. -/
structure EDB where
  functions : List (String × EFnDef)
  packages : List String
  files : List DBFile
deriving DecidableEq, Repr

/-- db_get_script: the first parsed file that is a script with the
given basename (dispatcher Get Script arm). -/
def db_get_script (db : EDB) (name : String) : Option DBFile :=
  db.files.find? (fun f => f.is_script && f.name == name)

/-- db_get_package: all package names starting with the query
(dispatcher Get Package arm). -/
def db_get_package (db : EDB) (pkg : String) : List String :=
  db.packages.filter (fun p => strStarts p pkg)

/-- db_get_function: the function stored under the qualified name
(dispatcher Get FunctionDefinition arm). -/
def db_get_function (db : EDB) (path : String) : Option EFnDef :=
  alookup db.functions path

/-- Iterator::min_by on string lengths: the first string of minimal
length, as Rust min_by keeps the earliest minimum. -/
def minByLen (l : List String) : Option String :=
  l.foldl (fun acc x =>
    match acc with
    | none => some x
    | some a => if x.length < a.length then some x else acc) none

/-- pkg_basename of src/extractors/symbols.rs: split a dotted name at
its last dot into package and basename. -/
def pkg_basename (s : String) : String × String :=
  let parts := splitOnDot s
  if parts.length ≤ 1 then ("", s)
  else (joinDot parts.dropLast, parts.getLastD "")

end MLSpec.Ext

namespace MLSpec.Ext

open MLSpec
open MLSpec.Disp (ainsert alookup)

/-- The assignment context computed at the top of ref_to_var: whether
the node lies under an assignment, and the range of that assignment's
left-hand side. -/
def assignLeftRange (t : STree) (node : List Nat) : Bool × Range :=
  match parent_of_kind t "assignment" node with
  | some parent =>
    match childByField t parent "left" with
    | some l => (true, rangeAt t l)
    | none => (false, default)
  | none => (false, default)

/-- The candidate filter inside both loops of ref_to_var: skip cleared
variables, require the name to match, reject candidates fully inside
the assignment left-hand side, and reject candidates in a different
soft scope; accepted candidates contribute a Variable reference at the
lookup node. -/
def refToVarCheck (t : STree) (heap : List VarDef) (name : String)
    (node : List Nat) (is_assignment : Bool) (p_range : Range)
    (refs : List Ref) (vidx : Nat) : List Ref :=
  let v := heap.getD vidx default
  if v.cleared > 0 then refs
  else if v.name == name then
    if is_assignment && p_range.fullyContainsB v.loc then refs
    else
      match node_at_pos t v.loc.start with
      | some ndef =>
        if !(is_in_soft_scope t node ndef) then refs
        else refs ++ [⟨rangeAt t node, name, .var vidx⟩]
      | none => refs ++ [⟨rangeAt t node, name, .var vidx⟩]
  else refs

/-- ref_to_var of src/extractors/symbols.rs: walk the scope workspaces
in stack order, each variable list in reverse insertion order, then the
file workspace when the scopes stack is empty or holds only lambdas. -/
def ref_to_var (t : STree) (st : ExtState) (scopes : List (List Nat))
    (name : String) (node : List Nat) : List Ref :=
  let ia := assignLeftRange t node
  let refs := (scopes.filterMap (fun s => fnsGet st.functions s)).foldl
    (fun refs kv =>
      kv.2.vars.reverse.foldl
        (refToVarCheck t st.heap name node ia.1 ia.2) refs) []
  if scopes.isEmpty
      || (scopes.filterMap (fun s => fnsGet st.functions s)).all
          (fun kv => kindAt t kv.1 == "lambda") then
    st.workspace.vars.reverse.foldl
      (refToVarCheck t st.heap name node ia.1 ia.2) refs
  else refs

/-- ref_to_fn_in_ws of src/extractors/symbols.rs: matching functions of
the Store whose package is empty unless package-qualified search was
requested. -/
def ref_to_fn_in_ws (db : EDB) (t : STree) (name : String)
    (node : List Nat) (pkg : Bool) : List Ref :=
  db.functions.foldl
    (fun refs kv =>
      if kv.2.name == name && (kv.2.package.isEmpty || pkg) then
        refs ++ [⟨rangeAt t node, name, .fn kv.2⟩]
      else refs) []

/-- ref_to_fn of src/extractors/symbols.rs: scope workspaces first,
then the file workspace, then the Store. -/
def ref_to_fn (t : STree) (db : EDB) (st : ExtState)
    (scopes : List (List Nat)) (name : String) (node : List Nat)
    (pkg : Bool) : List Ref :=
  let refs := (scopes.filterMap (fun s => fnsGet st.functions s)).foldl
    (fun refs kv =>
      kv.2.functions.foldl
        (fun refs f =>
          if f.2.name == name then refs ++ [⟨rangeAt t node, name, .fn f.2⟩]
          else refs) refs) []
  let refs := st.workspace.functions.foldl
    (fun refs f =>
      if f.2.name == name then refs ++ [⟨rangeAt t node, name, .fn f.2⟩]
      else refs) refs
  refs ++ ref_to_fn_in_ws db t name node pkg

/-- The list of start positions of the output arguments of the function
node: the first named function_output child's single identifier, or the
identifiers of its multioutput_variable (the ps vector of def_var). -/
def outputPositionsOf (t : STree) (fnNode : List Nat) : List Point :=
  match (namedChildrenPaths t fnNode).find?
      (fun c => kindAt t c == "function_output") with
  | none => []
  | some output =>
    match (namedChildrenPaths t output).head? with
    | none => []
    | some o1 =>
      if kindAt t o1 == "identifier" then [(rangeAt t o1).start]
      else if kindAt t o1 == "multioutput_variable" then
        (namedChildrenPaths t o1).map (fun c => (rangeAt t c).start)
      else []

/-- The inner candidate search of the def_var output-parameter special
case: the first variable of the innermost scope workspace with the
right name whose location contains the output position. -/
def defVarSpecialCand (st : ExtState) (scopes : List (List Nat))
    (name : String) (p : Point) : Option Nat :=
  match scopes.head? with
  | some scope =>
    match fnsGet st.functions scope with
    | some kv =>
      kv.2.vars.findSome? (fun vidx =>
        let v := st.heap.getD vidx default
        if v.name == name && v.loc.containsB p then some vidx
        else none)
    | none => none
  | none => none

/-- The def_var output-parameter special case: search the enclosing
function's output positions for an already-defined matching variable. -/
def defVarSpecial (t : STree) (st : ExtState) (scopes : List (List Nat))
    (name : String) (node : List Nat) : Option Nat :=
  match parent_function t node with
  | none => none
  | some parent =>
    (outputPositionsOf t parent).findSome?
      (defVarSpecialCand st scopes name)

/-- def_var of src/extractors/symbols.rs. -/
def def_var (t : STree) (st : ExtState) (scopes : List (List Nat))
    (name : String) (node : List Nat) : ExtState :=
  match defVarSpecial t st scopes name node with
  | some vidx => pushRef st ⟨rangeAt t node, name, .var vidx⟩
  | none =>
    let vref := ref_to_var t st scopes name node
    if (parent_of_kind t "function_call" node).isSome && !vref.isEmpty then
      st
    else if (soft_scope_parent t node).isSome && !vref.isEmpty then
      pushRef st (vref.headD default)
    else
      let is_global := (parent_of_kind t "global_operator" node).isSome
      let is_parameter := (parent_of_kind t "function_output" node).isSome
        || (parent_of_kind t "function_arguments" node).isSome
      let definition : VarDef := ⟨rangeAt t node, name, 0, is_parameter,
        is_global⟩
      let idx := st.heap.length
      let st := { st with heap := st.heap ++ [definition] }
      match scopes.head? with
      | some scope =>
        match fnsGet st.functions scope with
        | some kv =>
          { st with functions := (fnsSet st.functions scope
              { kv.2 with vars := kv.2.vars ++ [idx] }) }
        | none => st
      | none =>
        { st with workspace :=
            { st.workspace with vars := st.workspace.vars ++ [idx] } }

/-- Set the cleared row of one heap cell. -/
def setCleared (heap : List VarDef) (vidx row : Nat) : List VarDef :=
  match heap.get? vidx with
  | some v => heap.set vidx { v with cleared := row }
  | none => heap

/-- The no-argument clear sweep: mark every live non-global variable of
the workspace cleared at the given row. -/
def clearAllLive (heap : List VarDef) (vidxs : List Nat) (row : Nat) :
    List VarDef :=
  vidxs.foldl (fun heap vidx =>
    let v := heap.getD vidx default
    if v.cleared == 0 && !v.is_global then setCleared heap vidx row
    else heap) heap

/-- The per-variable body of the no-argument sweep as a named step
(definitionally the fold body of clearAllLive): a live non-global cell
is cleared at the row. -/
def clearLiveStep (row : Nat) (heap : List VarDef) (vidx : Nat) :
    List VarDef :=
  let v := heap.getD vidx default
  if v.cleared == 0 && !v.is_global then setCleared heap vidx row
  else heap

/-- The anchored pattern the source compiles for one clear token: the
token with every star replaced by dot-star, wrapped in anchors. -/
def clearPattern (tok : String) : String :=
  "^" ++ starToDotStar tok ++ "$"

/-- Whether a clear token matches a variable name under the given regex
engine: compilation failures match nothing (the source silently skips
patterns Regex::new rejects). -/
def tokenMatches (regexNew : String → Option (String → Bool))
    (tok name : String) : Bool :=
  match regexNew (clearPattern tok) with
  | some m => m name
  | none => false

/-- The parsed clear and clearvars argument lists: delete patterns,
keep patterns (after -except, clearvars only), and the globals flag. -/
structure ClearArgs where
  delete : List String
  keep : List String
  globals : Bool
deriving DecidableEq, Repr

/-- The argument-parsing loop of the clear and clearvars command arm:
global sets the globals flag, -except (clearvars only) switches to the
keep list, any other dash-led token stops parsing. -/
def parseClearGo (isClearvars : Bool) :
    List String → Bool → Bool → List String → List String → ClearArgs
  | [], _, globals, del, keep => ⟨del, keep, globals⟩
  | tx :: rest, except, globals, del, keep =>
    if MLSpec.strLower tx == "global" then
      parseClearGo isClearvars rest except true del keep
    else if MLSpec.strLower tx == "-except" && isClearvars then
      parseClearGo isClearvars rest true globals del keep
    else if strStarts tx "-" then ⟨del, keep, globals⟩
    else if !except then
      parseClearGo isClearvars rest except globals (del ++ [tx]) keep
    else
      parseClearGo isClearvars rest except globals del (keep ++ [tx])

/-- Parse the clear or clearvars arguments. -/
def parseClearArgs (texts : List String) (isClearvars : Bool) : ClearArgs :=
  parseClearGo isClearvars texts false false [] []

/-- The per-variable body of the pattern-driven clear sweep: the first
delete pattern that matches triggers the keep check; a matching keep
pattern skips the variable, otherwise a live variable (global only when
the globals flag is set) is cleared at the row. -/
def clearMatchStep (regexNew : String → Option (String → Bool))
    (del keep : List String) (globals : Bool) (row : Nat)
    (heap : List VarDef) (vidx : Nat) : List VarDef :=
  let v := heap.getD vidx default
  match del.find? (fun tok => tokenMatches regexNew tok v.name) with
  | none => heap
  | some _ =>
    if keep.any (fun tok => tokenMatches regexNew tok v.name) then heap
    else if v.cleared == 0 && (!v.is_global || globals) then
      setCleared heap vidx row
    else heap

end MLSpec.Ext

namespace MLSpec.Ext

open MLSpec
open MLSpec.Disp (ainsert alookup)

/-- The clear and clearvars arm of command_capture_impl: the
no-argument sweep over the active workspaces (and the file workspace
when the scopes stack is empty), then the pattern-driven sweep with the
parsed delete and keep lists, the delete list defaulting to the
wildcard. -/
def command_clear (regexNew : String → Option (String → Bool)) (t : STree)
    (st : ExtState) (scopes : List (List Nat)) (isClearvars : Bool)
    (node : List Nat) : ExtState :=
  match parentOfPath node with
  | none => st
  | some parent =>
    let args := (namedChildrenPaths t parent).filter
      (fun c => kindAt t c == "command_argument")
    let row := (rangeAt t node).start.row
    let heap1 :=
      if args.isEmpty then
        let h := (scopes.filterMap (fun s => fnsGet st.functions s)).foldl
          (fun heap kv => clearAllLive heap kv.2.vars row) st.heap
        if scopes.isEmpty then clearAllLive h st.workspace.vars row else h
      else st.heap
    let parsed := parseClearArgs (args.map (fun a => textAt t a)) isClearvars
    let del := if parsed.delete.isEmpty then ["*"] else parsed.delete
    let wss := (scopes.filterMap (fun s => fnsGet st.functions s)).map
      (fun kv => kv.2.vars)
    let wss := if wss.isEmpty then [st.workspace.vars] else wss
    let heap2 := wss.foldl (fun heap vl =>
      vl.foldl (clearMatchStep regexNew del parsed.keep parsed.globals row)
        heap) heap1
    { st with heap := heap2 }

/-- import_capture_impl of src/extractors/symbols.rs: copy matching
Store functions into the file workspace under their basename. -/
def cmd_import_impl (t : STree) (db : EDB) (st : ExtState)
    (node : List Nat) : ExtState :=
  let path := textAt t node
  if strEnds path ".*" then
    let p2 := strDropRight path 2
    db.functions.foldl (fun st kv =>
      let pb := pkg_basename kv.1
      if pb.1 == p2 then
        { st with workspace := { st.workspace with functions :=
            (ainsert st.workspace.functions pb.2 kv.2) } }
      else st) st
  else
    match alookup db.functions path with
    | some fdef =>
      let pb := pkg_basename path
      { st with workspace := { st.workspace with functions :=
          (ainsert st.workspace.functions pb.2 fdef) } }
    | none => st

/-- The identifier filter of the syms arm (the anchored ASCII
identifier regex of the source). -/
def isIdentTok (s : String) : Bool :=
  match s.toList with
  | [] => false
  | c :: rest =>
    (c.isAlpha || c == '_')
      && rest.all (fun d => d.isAlpha || d.isDigit || d == '_')

/-- The syms argument loop: a final flag token stops quietly, legal
identifiers define variables, anything else stops. -/
def symsGo (t : STree) (scopes : List (List Nat)) (n : Nat) :
    List (List Nat) → Nat → ExtState → ExtState
  | [], _, st => st
  | arg :: rest, i, st =>
    let text := textAt t arg
    if i == n - 1
        && (text == "matrix" || text == "clear" || text == "real"
            || text == "positive") then st
    else if isIdentTok text then
      symsGo t scopes n rest (i + 1) (def_var t st scopes text arg)
    else st

/-- command_capture_impl of src/extractors/symbols.rs, dispatching on
the lowercased command name. -/
def command_capture_impl (regexNew : String → Option (String → Bool))
    (t : STree) (db : EDB) (st : ExtState) (scopes : List (List Nat))
    (name : String) (node : List Nat) : ExtState :=
  match MLSpec.strLower name with
  | "load" =>
    match parentOfPath node with
    | some parent =>
      (((namedChildrenPaths t parent).filter
          (fun c => kindAt t c == "command_argument")).drop 1).foldl
        (fun st arg => def_var t st scopes (textAt t arg) arg) st
    | none => st
  | "import" =>
    match parentOfPath node with
    | some parent =>
      ((namedChildrenPaths t parent).filter
          (fun c => kindAt t c == "command_argument")).foldl
        (fun st arg => cmd_import_impl t db st arg) st
    | none => st
  | "clear" => command_clear regexNew t st scopes false node
  | "clearvars" => command_clear regexNew t st scopes true node
  | "syms" =>
    match parentOfPath node with
    | some parent =>
      let children := (namedChildrenPaths t parent).filter
        (fun c => kindAt t c == "command_argument")
      symsGo t scopes children.length children 0 st
    | none => st
  | _ =>
    match db_get_script db name with
    | some ms => pushRef st ⟨rangeAt t node, name, .script ms.path⟩
    | none =>
      match (ref_to_fn t db st scopes name node false).head? with
      | some fref => pushRef st fref
      | none => st

/-- fncall_capture_impl of src/extractors/symbols.rs. -/
def fncall_capture_impl (t : STree) (db : EDB) (st : ExtState)
    (scopes : List (List Nat)) (node : List Nat) : ExtState :=
  let underField :=
    match parentOfPath node with
    | some parent => kindAt t parent == "field_expression"
    | none => false
  if underField then st
  else
    match childByField t node "name" with
    | none => st
    | some name_node =>
      if kindAt t name_node == "identifier"
          && !(st.workspace.references.any
              (fun r => r.loc == rangeAt t name_node)) then
        let fname := textAt t name_node
        match (ref_to_var t st scopes fname name_node).head? with
        | some v => pushRef st v
        | none =>
          match (ref_to_fn t db st scopes fname name_node false).head? with
          | some fref => pushRef st fref
          | none =>
            let right_def :=
              match parent_of_kind t "assignment" node with
              | some parent =>
                match childByField t parent "right" with
                | some right => (rangeAt t right).containsB (rangeAt t node).start
                | none => true
              | none => true
            if right_def then
              pushRef st ⟨rangeAt t name_node, fname, .unknownFunction⟩
            else st
      else st

/-- The identifier arm of the capture loop of analyze_impl. -/
def identifier_capture (t : STree) (st : ExtState)
    (scopes : List (List Nat)) (name : String) (node : List Nat) : ExtState :=
  let skipParent :=
    match parentOfPath node with
    | some parent =>
      if kindAt t parent == "field_expression"
          || kindAt t parent == "function_definition"
          || kindAt t parent == "multioutput_variable" then true
      else if kindAt t parent == "function_call" then
        (match parentOfPath parent with
          | some gp => kindAt t gp == "field_expression"
          | none => false)
      else if textAt t node == "end"
          && (kindAt t parent == "arguments" || kindAt t parent == "range") then
        true
      else false
    | none => false
  let skipAssign :=
    match parent_of_kind t "assignment" node with
    | some parent =>
      match childByField t parent "left" with
      | some left => (rangeAt t left).containsB (rangeAt t node).start
      | none => false
    | none => false
  if skipParent || skipAssign then st
  else if st.workspace.references.any (fun r => r.loc == rangeAt t node) then
    st
  else
    let vs := (ref_to_var t st scopes name node).foldl
      (fun acc vref =>
        match vref.target with
        | .var vidx =>
          (match parent_of_kind t "assignment" node with
            | some parent =>
              match childByField t parent "left" with
              | some left =>
                if !((rangeAt t left).fullyContainsB
                    ((st.heap.getD vidx default).loc)) then acc ++ [vref]
                else acc
              | none => acc ++ [vref]
            | none => acc ++ [vref])
        | _ => acc) []
    match vs.head? with
    | some v => pushRef st v
    | none => pushRef st ⟨rangeAt t node, name, .unknownVariable⟩

end MLSpec.Ext

namespace MLSpec.Ext

open MLSpec
open MLSpec.Disp (ainsert alookup)

/-- Strip one leading dot (the strip_prefix call on dotted package
names in the field walk). -/
def stripDotE (s : String) : String :=
  if strStarts s "." then strDrop s 1 else s

/-- The field-node collection loop of field_capture_impl: walk the
children under the field name, stopping at a field on a different row
than the whole expression, and keeping identifier fields and the name
identifiers of function-call fields. -/
def collectFields (t : STree) (nodeRow : Nat) :
    List (List Nat) → List (String × List Nat)
  | [] => []
  | f :: rest =>
    if (rangeAt t f).start.row != nodeRow then []
    else if kindAt t f == "identifier" then
      (textAt t f, f) :: collectFields t nodeRow rest
    else if kindAt t f == "function_call" then
      match childByField t f "name" with
      | some nm => (textAt t nm, nm) :: collectFields t nodeRow rest
      | none => []
    else []

/-- The walk over the dotted chain of field_capture_impl: in
definition mode, record references for resolvable prefixes and define
the first and last prefix; in reference mode, decide at the base
whether the chain is a variable or a package chain and resolve each
prefix accordingly. The current_ns option mirrors the source local of
the same name (take semantics included); early source returns stop the
walk. -/
def fieldLoop (t : STree) (db : EDB) (scopes : List (List Nat))
    (fieldsAll : List (String × List Nat)) (is_def : Bool) :
    List (String × List Nat) → Nat → Bool → Option String → ExtState →
    ExtState
  | [], _, _, _, st => st
  | (name, field) :: rest, i, is_pack0, current_ns, st =>
    let path := joinDot ((fieldsAll.take (i + 1)).map (fun nf => nf.1))
    if is_def then
      match (ref_to_var t st scopes path field).head? with
      | some v =>
        fieldLoop t db scopes fieldsAll is_def rest (i + 1) is_pack0
          current_ns (pushRef st v)
      | none =>
        let st := if i > 0 then
            pushRef st ⟨rangeAt t field, path, .unknownVariable⟩
          else st
        let st := if i == 0 || i == fieldsAll.length - 1 then
            def_var t st scopes path field
          else st
        fieldLoop t db scopes fieldsAll is_def rest (i + 1) is_pack0
          current_ns st
    else
      let is_pack :=
        if i == 0 then ((ref_to_var t st scopes path field).head?).isNone
        else is_pack0
      if is_pack then
        match current_ns with
        | some ns0 =>
          let pkg := stripDotE (ns0 ++ "." ++ name)
          let wsOpt := minByLen (db_get_package db pkg)
          match parentOfPath field with
          | none => st
          | some parent =>
            if kindAt t parent == "function_call" then
              match db_get_function db path with
              | some f_def =>
                fieldLoop t db scopes fieldsAll is_def rest (i + 1) is_pack
                  none (pushRef st ⟨rangeAt t field, path, .fn f_def⟩)
              | none =>
                pushRef st ⟨rangeAt t field, path, .unknownFunction⟩
            else
              match wsOpt with
              | some ws0 =>
                fieldLoop t db scopes fieldsAll is_def rest (i + 1) is_pack
                  (some ws0)
                  (pushRef st ⟨rangeAt t field, path, .ns ws0⟩)
              | none =>
                pushRef st ⟨rangeAt t field, path, .unknownVariable⟩
        | none =>
          match minByLen (db_get_package db name) with
          | some ns0 =>
            fieldLoop t db scopes fieldsAll is_def rest (i + 1) is_pack
              (some ns0) (pushRef st ⟨rangeAt t field, path, .ns ns0⟩)
          | none => st
      else
        match (ref_to_var t st scopes path field).head? with
        | some v =>
          fieldLoop t db scopes fieldsAll is_def rest (i + 1) is_pack
            current_ns (pushRef st v)
        | none =>
          fieldLoop t db scopes fieldsAll is_def rest (i + 1) is_pack
            current_ns
            (pushRef st ⟨rangeAt t field, path, .unknownVariable⟩)

/-- field_capture_impl of src/extractors/symbols.rs. -/
def field_capture_impl (t : STree) (db : EDB) (st : ExtState)
    (scopes : List (List Nat)) (node : List Nat) : ExtState :=
  let is_def :=
    match parentOfPath node with
    | some parent =>
      if kindAt t parent == "multioutput_variable" then true
      else if kindAt t parent == "assignment" then
        (match childByField t parent "left" with
          | some left => left == node
          | none => false)
      else false
    | none => false
  match childByField t node "object" with
  | none => st
  | some object =>
    if kindAt t object == "function_call" then
      match childByField t object "name" with
      | some name_node =>
        if kindAt t name_node == "identifier" then
          let name := textAt t name_node
          let vs := ref_to_var t st scopes name name_node
          let fs := ref_to_fn t db st scopes name name_node false
          let st :=
            match (vs ++ fs).head? with
            | some v => pushRef st v
            | none => st
          if is_def then def_var t st scopes name name_node else st
        else st
      | none => st
    else
      let base_name := textAt t object
      let nodeRow := (rangeAt t node).start.row
      let fields := collectFields t nodeRow (childrenByField t node "field")
      let fieldsAll := (base_name, object) :: fields
      fieldLoop t db scopes fieldsAll is_def fieldsAll 0 false none st

/-- The capture kinds of the defref query (the query file is not among
the packaged sources; the spec lists these six capture names). -/
inductive CapKind where
  | fndef | vardef | command | fncall | identifier | field
deriving DecidableEq, Repr

/-- One query capture: its kind and the captured node. -/
structure Capture where
  kind : CapKind
  path : List Nat
deriving DecidableEq, Repr

/-- One iteration of the capture loop of analyze_impl: build the
scopes stack from the enclosing functions and dispatch on the capture
kind. -/
def processCapture (regexNew : String → Option (String → Bool))
    (t : STree) (db : EDB) (st : ExtState) (c : Capture) : ExtState :=
  match c.kind with
  | .fndef => st
  | .vardef =>
    def_var t st (scopesOf t c.path) (textAt t c.path) c.path
  | .command =>
    command_capture_impl regexNew t db st (scopesOf t c.path)
      (textAt t c.path) c.path
  | .fncall => fncall_capture_impl t db st (scopesOf t c.path) c.path
  | .identifier =>
    identifier_capture t st (scopesOf t c.path) (textAt t c.path) c.path
  | .field => field_capture_impl t db st (scopesOf t c.path) c.path

/-- Parsed-file metadata the extractor reads: path and package. -/
structure PFileE where
  path : String
  package : String
deriving DecidableEq, Repr

/-- The reduced function_signature of src/extractors/fast.rs: the name
identifier and its range (the remaining signature fields feed only the
completion and hover features). A missing name field makes the source
signature extraction fail; such functions are skipped here. -/
def function_signature_name (t : STree) (node : List Nat) :
    Option (String × Range) :=
  match childByField t node "name" with
  | some nm => some (textAt t nm, rangeAt t nm)
  | none => none

/-- public_function of src/extractors/fast.rs: the first non-comment
top-level node, when it is a function definition, yields a function
definition whose loc is the whole node range and whose package is the
package of the file. -/
def public_function (t : STree) (pf : PFileE) : Option EFnDef :=
  match (namedChildrenPaths t []).find?
      (fun c => !(kindAt t c == "comment")) with
  | some node =>
    if kindAt t node == "function_definition" then
      match function_signature_name t node with
      | some nmr => some ⟨rangeAt t node, nmr.1, pf.path, pf.package⟩
      | none => none
    else none
  | none => none

/-- The function-scope map built from the fndef captures before the
capture loop (HashMap keyed by node id; duplicate capture paths
collapse as HashMap reinserts do). -/
def initialFunctions (captures : List Capture) : List (List Nat × Ws) :=
  captures.foldl (fun acc c =>
    if c.kind == CapKind.fndef && !(acc.any (fun kv => kv.1 == c.path)) then
      acc ++ [(c.path, Ws.empty)]
    else acc) []

/-- The signature-collection phase of analyze_impl: for every fndef
node of kind function_definition, compute the signature and attach the
function definition to the enclosing function workspace, or to the file
workspace for top-level functions; the public function of the file
replaces a definition with the same loc. -/
def collectSignatures (t : STree) (pf : PFileE) (publicFn : Option EFnDef)
    (st : ExtState) : ExtState :=
  (st.functions.map (fun kv => kv.1)).foldl (fun st p =>
    if kindAt t p == "function_definition" then
      match function_signature_name t p with
      | none => st
      | some nmr =>
        let definition : EFnDef := ⟨nmr.2, nmr.1, pf.path, ""⟩
        let definition :=
          match publicFn with
          | some pfd => if pfd.loc == definition.loc then pfd else definition
          | none => definition
        match parent_function t p with
        | some parent =>
          (match fnsGet st.functions parent with
            | some kv =>
              { st with functions := (fnsSet st.functions parent
                  { kv.2 with functions :=
                      (ainsert kv.2.functions nmr.1 definition) }) }
            | none => st)
        | none =>
          { st with workspace := { st.workspace with functions :=
              (ainsert st.workspace.functions nmr.1 definition) } }
    else st) st

/-- The final merge of analyze_impl: every nested function workspace is
merged into the file workspace. -/
def mergeFunctions (st : ExtState) : ExtState :=
  { st with workspace :=
      (st.functions.foldl (fun ws kv =>
        { ws with
          functions := kv.2.functions.foldl
            (fun fs nv => ainsert fs nv.1 nv.2) ws.functions,
          references := ws.references ++ kv.2.references,
          vars := ws.vars ++ kv.2.vars }) st.workspace) }

/-- analyze_impl of src/extractors/symbols.rs over an already sorted
capture list: collect the function scopes and signatures, walk the
captures, merge the nested workspaces. The db_set_function send of the
public function mutates the Store, not the file workspace, and is not
part of the returned state. -/
def analyze_impl (regexNew : String → Option (String → Bool)) (t : STree)
    (pf : PFileE) (db : EDB) (captures : List Capture) : ExtState :=
  let st0 : ExtState := ⟨[], Ws.empty, initialFunctions captures⟩
  let publicFn := public_function t pf
  let st1 := collectSignatures t pf publicFn st0
  let st2 := captures.foldl (processCapture regexNew t db) st1
  mergeFunctions st2

/-- Stable insertion by start byte (the sort_by of extract_symbols). -/
def insertByByte (k : Nat) (c : Capture) :
    List (Nat × Capture) → List (Nat × Capture)
  | [] => [(k, c)]
  | (k2, c2) :: rest =>
    if k2 ≤ k then (k2, c2) :: insertByByte k c rest
    else (k, c) :: (k2, c2) :: rest

/-- The capture sort of extract_symbols: stable ascending order of the
start byte of the captured node. -/
def sortByByte (t : STree) (cs : List Capture) : List Capture :=
  (cs.foldl (fun acc c => insertByByte (byteAt t c.path) c acc) []).map
    (fun kc => kc.2)

/-- extract_symbols of src/extractors/symbols.rs: sort the captures by
start byte and analyze. The returned state holds the produced file
workspace together with the heap of variable cells its references point
into. -/
def extract_symbols (regexNew : String → Option (String → Bool))
    (t : STree) (pf : PFileE) (db : EDB) (captures : List Capture) :
    ExtState :=
  analyze_impl regexNew t pf db (sortByByte t captures)

end MLSpec.Ext

namespace MLSpec.Ext

open MLSpec

/-- The output positions one function_output node contributes: the
start of its single identifier child, or the starts of the children of
its multioutput_variable (the ps vector of def_var). -/
def outputPsOfNode (o : STree) : List Point :=
  match o.children.head? with
  | none => []
  | some o1 =>
    if o1.data.kind == "identifier" then [o1.data.range.start]
    else if o1.data.kind == "multioutput_variable" then
      o1.children.map (fun c => c.data.range.start)
    else []

mutual

/-- All output-argument positions of the whole tree: the union of the
contributions of every function_output node. Variable references that
the def_var output-parameter special case creates always target a cell
whose location contains one of these points. -/
def outputPositionsTree : STree → List Point
  | .mk d cs =>
    (if d.kind == "function_output" then outputPsOfNode (.mk d cs) else [])
      ++ outputPositionsTreeL cs

/-- Output-argument positions contributed by a list of trees. -/
def outputPositionsTreeL : STreeList → List Point
  | .nil => []
  | .cons c cs => outputPositionsTree c ++ outputPositionsTreeL cs

end

/-- The command_argument children of the parent of a command node. -/
def cmdArgsOf (t : STree) (p : List Nat) : List (List Nat) :=
  match parentOfPath p with
  | some parent =>
    (namedChildrenPaths t parent).filter
      (fun c => kindAt t c == "command_argument")
  | none => []

/-- The nodes at which processing one capture records references or
definitions or clears variables, in processing order (used to state the
row-coherence hypothesis of the reference-soundness theorem). -/
def actionNodes (t : STree) (c : Capture) : List (List Nat) :=
  match c.kind with
  | .fndef => []
  | .vardef => [c.path]
  | .identifier => [c.path]
  | .fncall =>
    match childByField t c.path "name" with
    | some nm => [nm]
    | none => []
  | .command =>
    match MLSpec.strLower (textAt t c.path) with
    | "load" => c.path :: cmdArgsOf t c.path
    | "syms" => c.path :: cmdArgsOf t c.path
    | "clear" => [c.path]
    | "clearvars" => [c.path]
    | "import" => []
    | _ => [c.path]
  | .field =>
    match childByField t c.path "object" with
    | none => []
    | some object =>
      if kindAt t object == "function_call" then
        match childByField t object "name" with
        | some nm => [nm]
        | none => []
      else
        object :: (collectFields t (rangeAt t c.path).start.row
          (childrenByField t c.path "field")).map (fun nf => nf.2)

/-- The start rows of the action nodes of a capture list, in processing
order. -/
def actionRows (t : STree) (cs : List Capture) : List Nat :=
  cs.flatMap (fun c =>
    (actionNodes t c).map (fun p => (rangeAt t p).start.row))

/-- Soundness of one reference against a heap: a Variable target is a
valid heap index whose cell starts no later than the reference and is
live, cleared no earlier than the reference row, or an output-parameter
cell whose location contains an output position of the tree. -/
def RefOk (t : STree) (heap : List VarDef) (r : Ref) : Prop :=
  ∀ i, r.target = .var i →
    i < heap.length
      ∧ (heap.getD i default).loc.start.row ≤ r.loc.start.row
      ∧ ((heap.getD i default).cleared = 0
          ∨ (heap.getD i default).cleared ≥ r.loc.start.row
          ∨ ∃ q ∈ outputPositionsTree t,
              ((heap.getD i default).loc.containsB q) = true)

/-- The capture-loop invariant, relative to the list R of the start
rows of all action nodes still to be processed: every reference of the
file workspace is sound, reference and cell rows never exceed any
remaining row, workspace variable indices are in the heap, and nested
function workspaces hold no references. -/
def Inv (t : STree) (st : ExtState) (R : List Nat) : Prop :=
  (∀ r ∈ st.workspace.references, RefOk t st.heap r)
    ∧ (∀ r ∈ st.workspace.references, ∀ ρ ∈ R, r.loc.start.row ≤ ρ)
    ∧ (∀ j, j < st.heap.length →
        ∀ ρ ∈ R, (st.heap.getD j default).loc.start.row ≤ ρ)
    ∧ (∀ kv ∈ st.functions, ∀ i ∈ kv.2.vars, i < st.heap.length)
    ∧ (∀ i ∈ st.workspace.vars, i < st.heap.length)
    ∧ (∀ kv ∈ st.functions, kv.2.references = [])

/-- The shape of every heap transformation the clear and clearvars
handling performs: lengths agree and every cell is unchanged or was
live and had its cleared row set to row. -/
def ClearShape (row : Nat) (heap heap2 : List VarDef) : Prop :=
  heap2.length = heap.length
    ∧ ∀ j, heap2.getD j default = heap.getD j default
        ∨ ((heap.getD j default).cleared = 0
            ∧ heap2.getD j default =
              { heap.getD j default with cleared := row })

end MLSpec.Ext

namespace MLSpec.Ext

open MLSpec

/-- The candidate acceptance of ref_to_var as a partial function (used
to state the search-order theorem): the accepted candidate yields the
reference the loop pushes. -/
def refToVarAccept (t : STree) (heap : List VarDef) (name : String)
    (node : List Nat) (is_assignment : Bool) (p_range : Range)
    (vidx : Nat) : Option Ref :=
  let v := heap.getD vidx default
  if v.cleared > 0 then none
  else if v.name == name then
    if is_assignment && p_range.fullyContainsB v.loc then none
    else
      match node_at_pos t v.loc.start with
      | some ndef =>
        if !(is_in_soft_scope t node ndef) then none
        else some ⟨rangeAt t node, name, .var vidx⟩
      | none => some ⟨rangeAt t node, name, .var vidx⟩
  else none

/-- The per-variable clearing condition of the pattern-driven sweep,
as one boolean (used to state the pointwise clear characterization):
some delete pattern matches, no keep pattern matches, the cell is live,
and globals are skipped unless the globals flag is set. -/
def clearCond (regexNew : String → Option (String → Bool))
    (del keep : List String) (globals : Bool) (v : VarDef) : Bool :=
  (del.find? (fun tok => tokenMatches regexNew tok v.name)).isSome
    && !(keep.any (fun tok => tokenMatches regexNew tok v.name))
    && (v.cleared == 0 && (!v.is_global || globals))

/-- The variable indices the clear sweep walks: the variable lists of
the active scope workspaces, the file workspace when no scope
workspace is active. -/
def clearScopeIdxs (st : ExtState) (scopes : List (List Nat)) :
    List Nat :=
  let wss := (scopes.filterMap (fun s => fnsGet st.functions s)).map
    (fun kv => kv.2.vars)
  (if wss.isEmpty then [st.workspace.vars] else wss).flatten

/-- The variable indices the no-argument clear sweep walks: the
variable lists of the active scope workspaces, then the file workspace
variables when the scopes stack is empty. -/
def clearSweepIdxs (st : ExtState) (scopes : List (List Nat)) :
    List Nat :=
  ((scopes.filterMap (fun s => fnsGet st.functions s)).map
      (fun kv => kv.2.vars)).flatten
    ++ (if scopes.isEmpty then st.workspace.vars else [])

/-- The parsed argument lists of a clear or clearvars command node. -/
def clearParsed (t : STree) (isClearvars : Bool) (node : List Nat) :
    ClearArgs :=
  parseClearArgs ((cmdArgsOf t node).map (fun a => textAt t a)) isClearvars

/-- The delete list of a clear or clearvars command node, defaulting to
the wildcard when no pattern token was given. -/
def clearDel (t : STree) (isClearvars : Bool) (node : List Nat) :
    List String :=
  if (clearParsed t isClearvars node).delete.isEmpty then ["*"]
  else (clearParsed t isClearvars node).delete

end MLSpec.Ext

namespace MLSpec.Disp

/-- The freshness condition of the Set ParsedFile arm, written from the
spec sentence: an entry exists and (it is open and the writer is the
background worker) or it is newer than the incoming file. -/
def setDropped (st : State) (file : PFile) (from_handler : Bool) : Bool :=
  match alookup st.parsed_files file.path with
  | some stored =>
    (stored.open_ && !from_handler) || decide (stored.timestamp > file.timestamp)
  | none => false

/-- Run a list of dispatcher loop iterations from a state. -/
def runSteps (st : State) : List TMsg → State
  | [] => st
  | m :: ms => runSteps (dispatcherStep st m).state ms

/-- The DB replies of a list of dispatcher loop iterations, in order. -/
def stepReplies (st : State) : List TMsg → List (Option DBArg)
  | [] => []
  | m :: ms =>
    (dispatcherStep st m).reply :: stepReplies (dispatcherStep st m).state ms

end MLSpec.Disp

namespace MLSpec.FileModel

open MLSpec

/-- The DidChange application as the claim describes it, phrased over
byte-prefix and byte-suffix splices: no range replaces everything; a
range maps to bytes, clamps the end to len - 1, and inserts at start
when start is at least end, else splices the text over start..end. -/
def apply_change_claim (mapper : Range → List Char → Nat × Nat)
    (contents : List Char) (range : Option Range) (text : List Char) :
    List Char :=
  match range with
  | none => text
  | some rng =>
    let s := (mapper rng contents).1
    let e := min (mapper rng contents).2 (byteLen contents - 1)
    if s ≥ e then takeBytes contents s ++ text ++ dropBytes contents s
    else takeBytes contents s ++ text ++ dropBytes contents e

end MLSpec.FileModel

namespace MLSpec.Ex

open MLSpec MLSpec.Ext

/-- Shorthand range constructor for the concrete example trees. -/
def rg (a b c d : Nat) : Range := ⟨⟨a, b⟩, ⟨c, d⟩⟩

/-- Shorthand node constructor for the concrete example trees. -/
def n0 (kind : String) (field : Option String) (byte : Nat) (r : Range)
    (text : String) (children : List STree) : STree :=
  .mk ⟨kind, field, byte, r, text⟩ (STreeList.ofList children)

/-- A regex engine that accepts only the anchored literal patterns the
examples use: the pattern equals the name wrapped in anchors (consistent
with the regex crate on these inputs). -/
def litRegex : String → Option (String → Bool) :=
  fun pat => some (fun s => pat == "^" ++ s ++ "$")

/-- A regex engine for the wildcard example: the dot-star pattern
matches everything, anchored literals match exactly (consistent with
the regex crate on these inputs). -/
def globRegex : String → Option (String → Bool) :=
  fun pat => some (fun s => pat == "^.*$" || pat == "^" ++ s ++ "$")

/-- A regex engine used where no clear command occurs. -/
def noRegex : String → Option (String → Bool) := fun _ => none

/-- The empty Store. -/
def emptyDB : EDB := ⟨[], [], []⟩

/-- Syntax tree of the reference-soundness counterexample file:
function y = f() / y = 1; / clear y; / y = 2; / end. -/
def t1 : STree :=
  n0 "source_file" none 0 (rg 0 0 4 3) "" [
    n0 "function_definition" none 0 (rg 0 0 4 3) "" [
      n0 "function_output" none 9 (rg 0 9 0 10) "y" [
        n0 "identifier" none 9 (rg 0 9 0 10) "y" []],
      n0 "identifier" (some "name") 13 (rg 0 13 0 14) "f" [],
      n0 "block" none 17 (rg 1 0 3 6) "" [
        n0 "assignment" none 17 (rg 1 0 1 5) "y = 1" [
          n0 "identifier" (some "left") 17 (rg 1 0 1 1) "y" [],
          n0 "number" (some "right") 21 (rg 1 4 1 5) "1" []],
        n0 "command" none 24 (rg 2 0 2 7) "clear y" [
          n0 "command_name" none 24 (rg 2 0 2 5) "clear" [],
          n0 "command_argument" none 30 (rg 2 6 2 7) "y" []],
        n0 "assignment" none 33 (rg 3 0 3 5) "y = 2" [
          n0 "identifier" (some "left") 33 (rg 3 0 3 1) "y" [],
          n0 "number" (some "right") 37 (rg 3 4 3 5) "2" []]]]]

/-- Captures of the reference-soundness counterexample file, as the
defref query would yield them: the function, the output identifier,
the two assignment left-hand sides, and the clear command. -/
def caps1 : List Capture := [
  ⟨.fndef, [0]⟩,
  ⟨.vardef, [0, 0, 0]⟩,
  ⟨.vardef, [0, 2, 0, 0]⟩,
  ⟨.command, [0, 2, 1, 0]⟩,
  ⟨.vardef, [0, 2, 2, 0]⟩]

/-- Extraction output of the reference-soundness counterexample. -/
def out1 : ExtState := extract_symbols litRegex t1 ⟨"f.m", ""⟩ emptyDB caps1

/-- Syntax tree of the soft-scope failing input:
if c / x = 1; foobarbaz = 2; / b = 1; / else / y = foobarbaz; / end. -/
def t2 : STree :=
  n0 "source_file" none 0 (rg 0 0 5 3) "" [
    n0 "if_statement" none 0 (rg 0 0 5 3) "" [
      n0 "identifier" (some "condition") 3 (rg 0 3 0 4) "c" [],
      n0 "block" none 7 (rg 1 2 2 7) "" [
        n0 "assignment" none 7 (rg 1 2 1 7) "x = 1" [
          n0 "identifier" (some "left") 7 (rg 1 2 1 3) "x" [],
          n0 "number" (some "right") 11 (rg 1 6 1 7) "1" []],
        n0 "assignment" none 14 (rg 1 9 1 22) "foobarbaz = 2" [
          n0 "identifier" (some "left") 14 (rg 1 9 1 18) "foobarbaz" [],
          n0 "number" (some "right") 26 (rg 1 21 1 22) "2" []],
        n0 "assignment" none 30 (rg 2 2 2 7) "b = 1" [
          n0 "identifier" (some "left") 30 (rg 2 2 2 3) "b" [],
          n0 "number" (some "right") 34 (rg 2 6 2 7) "1" []]],
      n0 "else_clause" none 38 (rg 3 0 4 16) "" [
        n0 "block" none 45 (rg 4 2 4 16) "" [
          n0 "assignment" none 45 (rg 4 2 4 15) "y = foobarbaz" [
            n0 "identifier" (some "left") 45 (rg 4 2 4 3) "y" [],
            n0 "identifier" (some "right") 49 (rg 4 6 4 15) "foobarbaz"
              []]]]]]

/-- Captures of the soft-scope failing input. -/
def caps2 : List Capture := [
  ⟨.identifier, [0, 0]⟩,
  ⟨.vardef, [0, 1, 0, 0]⟩,
  ⟨.vardef, [0, 1, 1, 0]⟩,
  ⟨.vardef, [0, 1, 2, 0]⟩,
  ⟨.vardef, [0, 2, 0, 0, 0]⟩,
  ⟨.identifier, [0, 2, 0, 0, 1]⟩]

/-- Extraction output of the soft-scope failing input. -/
def out2 : ExtState := extract_symbols noRegex t2 ⟨"b.m", ""⟩ emptyDB caps2

/-- Syntax tree of the clear-with-only-option-arguments counterexample:
x = 1; / clear global. -/
def t5 : STree :=
  n0 "source_file" none 0 (rg 0 0 1 12) "" [
    n0 "assignment" none 0 (rg 0 0 0 5) "x = 1" [
      n0 "identifier" (some "left") 0 (rg 0 0 0 1) "x" [],
      n0 "number" (some "right") 4 (rg 0 4 0 5) "1" []],
    n0 "command" none 7 (rg 1 0 1 12) "clear global" [
      n0 "command_name" none 7 (rg 1 0 1 5) "clear" [],
      n0 "command_argument" none 13 (rg 1 6 1 12) "global" []]]

/-- Captures of the clear-global counterexample. -/
def caps5 : List Capture := [
  ⟨.vardef, [0, 0]⟩,
  ⟨.command, [1, 0]⟩]

/-- Extraction output of the clear-global counterexample. -/
def out5 : ExtState := extract_symbols globRegex t5 ⟨"c.m", ""⟩ emptyDB caps5

/-- Syntax tree of the no-argument clear example: x = 1; / clear. -/
def t6 : STree :=
  n0 "source_file" none 0 (rg 0 0 1 5) "" [
    n0 "assignment" none 0 (rg 0 0 0 5) "x = 1" [
      n0 "identifier" (some "left") 0 (rg 0 0 0 1) "x" [],
      n0 "number" (some "right") 4 (rg 0 4 0 5) "1" []],
    n0 "command" none 7 (rg 1 0 1 5) "clear" [
      n0 "command_name" none 7 (rg 1 0 1 5) "clear" []]]

/-- A one-variable state: the live non-global x in the file
workspace. -/
def stx : ExtState :=
  ⟨[⟨⟨⟨0, 0⟩, ⟨0, 1⟩⟩, "x", 0, false, false⟩], ⟨[], [0], []⟩, []⟩

end MLSpec.Ex

namespace MLSpec

open MLSpec.Disp

/-- C3: the Set ParsedFile transaction drops the write, leaving the
state unchanged, exactly when an entry for the path exists and (it is
open and the writer is the background worker) or it is newer than the
incoming file; in every other case the incoming file replaces the
stored entry under its path; no reply is sent either way. -/
theorem c3_store_set_parsedfile (st : State) (file : PFile) (fh : Bool) :
    (handle_db_transaction st ⟨.set, .parsedFile, .parsedFile file⟩ fh).state
      = (if setDropped st file fh then st
         else { st with parsed_files := ainsert st.parsed_files file.path file })
    ∧ (handle_db_transaction st ⟨.set, .parsedFile, .parsedFile file⟩ fh).reply
      = none := by
  have key : ∀ (o : Option PFile), alookup st.parsed_files file.path = o →
      (handle_db_transaction st ⟨.set, .parsedFile, .parsedFile file⟩ fh).state
        = (if setDropped st file fh then st
           else { st with parsed_files :=
              (ainsert st.parsed_files file.path file) })
      ∧ (handle_db_transaction st
          ⟨.set, .parsedFile, .parsedFile file⟩ fh).reply = none := by
    intro o ho
    cases o with
    | none => simp [handle_db_transaction, setDropped, ho]
    | some stored =>
      by_cases hc :
          (stored.open_ && !fh
            || decide (stored.timestamp > file.timestamp)) = true
      · simp [handle_db_transaction, setDropped, ho, hc]
      · simp only [handle_db_transaction, setDropped, ho, hc]
        simp at hc
        simp [hc]
  exact key _ rfl

end MLSpec

namespace MLSpec

open MLSpec.Disp

/-- C9: handling a textDocument/cancelRequest notification with id n
removes every pending request with that id from the requests queue and
changes nothing else: the notifications, responses, handler and
background queues, the parsed-files map, the workspace, the idleness
flags and the request-id counter are unchanged, and no message is sent
back. -/
theorem c9_cancel_frame (st : State) (n : Int) :
    (handleMessage st ⟨.mainT, .lsp (.notification cancelMethod n)⟩).state
      = { st with requests_queue :=
          (st.requests_queue.filter (fun r =>
            match r with
            | .request id _ => !(id == n)
            | _ => true)) }
    ∧ (∀ m, LMsg.request n m ∉
        (handleMessage st
          ⟨.mainT, .lsp (.notification cancelMethod n)⟩).state.requests_queue)
    ∧ (handleMessage st ⟨.mainT, .lsp (.notification cancelMethod n)⟩).reply
      = none := by
  refine ⟨?_, ?_, ?_⟩
  · simp [handleMessage]
  · intro m hm
    simp only [handleMessage, beq_self_eq_true, if_true] at hm
    have := List.of_mem_filter hm
    simp at this
  · simp [handleMessage]

end MLSpec

namespace MLSpec

open MLSpec.Disp

/-- The feed phase never touches the request-id counter. -/
theorem feedPhase_request_id (st : State) :
    (feedPhase st).request_id = st.request_id := by
  unfold feedPhase
  rcases st with ⟨lp, wp, rq, nq, pq, hi, bi, pf, ws, rid, bq, hq⟩
  cases hi <;> cases bi <;> cases nq <;> cases pq <;> cases rq <;> cases hq
    <;> cases bq <;> rfl

/-- wrapI32 is the identity on the i32 range. -/
theorem wrapI32_eq_self (n : Int) (hlo : -(2 ^ 31) ≤ n) (hhi : n < 2 ^ 31) :
    wrapI32 n = n := by
  unfold wrapI32
  omega

/-- A DB transaction leaves the request-id counter unchanged or, in the
Get RequestID arm, stores the wrapped increment. -/
theorem handleDb_request_id_cases (st : State) (req : DBReq) (fh : Bool) :
    (handle_db_transaction st req fh).state.request_id = st.request_id
      ∨ (handle_db_transaction st req fh).state.request_id
          = wrapI32 (st.request_id + 1) := by
  rcases req with ⟨op, tgt, arg⟩
  cases op <;> cases tgt <;> cases arg <;>
    simp [handle_db_transaction] <;>
    (try split) <;> (try split) <;> simp

/-- A DB transaction replies an integer exactly in the Get RequestID
arm: the integer is the current counter and the counter becomes the
wrapped increment. -/
theorem handleDb_integer_reply (st : State) (req : DBReq) (fh : Bool) (a : Int)
    (h : (handle_db_transaction st req fh).reply = some (.integer a)) :
    a = st.request_id
      ∧ (handle_db_transaction st req fh).state.request_id
        = wrapI32 (st.request_id + 1) := by
  rcases req with ⟨op, tgt, arg⟩
  cases op <;> cases tgt <;> cases arg <;>
    simp [handle_db_transaction] at h ⊢ <;>
    (try split at h) <;> (try split at h) <;> simp_all

/-- One received message leaves the request-id counter unchanged or
stores the wrapped increment. -/
theorem handleMessage_request_id_cases (st : State) (m : TMsg) :
    (handleMessage st m).state.request_id = st.request_id
      ∨ (handleMessage st m).state.request_id
          = wrapI32 (st.request_id + 1) := by
  rcases m with ⟨sd, pl⟩
  cases sd <;> cases pl <;>
    simp [handleMessage, handleMessage.initPathUpdate] <;>
    (try exact handleDb_request_id_cases ..) <;>
    (try (rename_i m; cases m <;> simp [handleMessage] <;> split <;> simp))

/-- One received message replies an integer only for Get RequestID,
returning the counter and storing the wrapped increment. -/
theorem handleMessage_integer_reply (st : State) (m : TMsg) (a : Int)
    (h : (handleMessage st m).reply = some (.integer a)) :
    a = st.request_id
      ∧ (handleMessage st m).state.request_id
        = wrapI32 (st.request_id + 1) := by
  rcases m with ⟨sd, pl⟩
  cases sd <;> cases pl <;>
    simp [handleMessage, handleMessage.initPathUpdate] at h <;>
    first
    | exact handleDb_integer_reply _ _ _ _ h
    | (rename_i m; cases m <;> simp [handleMessage] at h <;> split at h
        <;> simp_all)

/-- One dispatcher iteration leaves the request-id counter unchanged or
stores the wrapped increment. -/
theorem dispatcherStep_request_id_cases (st : State) (m : TMsg) :
    (dispatcherStep st m).state.request_id = st.request_id
      ∨ (dispatcherStep st m).state.request_id
          = wrapI32 (st.request_id + 1) := by
  unfold dispatcherStep
  have h := handleMessage_request_id_cases (feedPhase st) m
  rw [feedPhase_request_id] at h
  exact h

/-- One dispatcher iteration replying an integer returns the counter
and stores the wrapped increment. -/
theorem dispatcherStep_integer_reply (st : State) (m : TMsg) (a : Int)
    (h : (dispatcherStep st m).reply = some (.integer a)) :
    a = st.request_id
      ∧ (dispatcherStep st m).state.request_id
        = wrapI32 (st.request_id + 1) := by
  unfold dispatcherStep at h ⊢
  have := handleMessage_integer_reply (feedPhase st) m a h
  rw [feedPhase_request_id] at this
  exact this

/-- Below the i32 maximum the counter cannot wrap: one dispatcher
iteration keeps it between its old value and the increment. -/
theorem dispatcherStep_request_id_bounds (st : State) (m : TMsg)
    (hlo : -(2 ^ 31) ≤ st.request_id) (hhi : st.request_id + 1 < 2 ^ 31) :
    st.request_id ≤ (dispatcherStep st m).state.request_id
      ∧ (dispatcherStep st m).state.request_id ≤ st.request_id + 1 := by
  rcases dispatcherStep_request_id_cases st m with h | h
  · rw [h]
    omega
  · rw [h, wrapI32_eq_self (st.request_id + 1) (by omega) hhi]
    omega

/-- Every integer reply in a wrap-free trace is at least the starting
counter. -/
theorem stepReplies_lower (msgs : List TMsg) :
    ∀ (st : State), -(2 ^ 31) ≤ st.request_id →
      st.request_id + msgs.length < 2 ^ 31 →
      ∀ (j : Nat) (b : Int),
        (stepReplies st msgs).get? j = some (some (.integer b)) →
        st.request_id ≤ b := by
  induction msgs with
  | nil => intro st _ _ j b h; simp [stepReplies] at h
  | cons m ms ih =>
    intro st hlo hhi j b h
    simp only [List.length_cons] at hhi
    cases j with
    | zero =>
      simp [stepReplies] at h
      have := dispatcherStep_integer_reply st m b h
      omega
    | succ j =>
      simp only [stepReplies, List.get?] at h
      have hbd := dispatcherStep_request_id_bounds st m hlo (by omega)
      have h1 := ih (dispatcherStep st m).state (by omega) (by omega) j b h
      omega

/-- C10 (amended): a Get RequestID transaction returns the current
counter and stores the i32-wrapped increment back, and over any
sequence of dispatcher iterations throughout which the i32 counter
cannot wrap (it starts in the i32 range and the start plus the number
of iterations stays below the i32 maximum) the integers returned by
the RequestID transactions (the only integer replies) are strictly
increasing, so no id is returned twice inside such a window. -/
theorem c10_request_id_wrapping :
    (∀ (st : State) (arg : DBArg) (fh : Bool),
      handle_db_transaction st ⟨.get, .requestID, arg⟩ fh
        = ⟨{ st with request_id := wrapI32 (st.request_id + 1) },
            some (.integer st.request_id)⟩)
    ∧ ∀ (st0 : State) (msgs : List TMsg) (i j : Nat) (a b : Int),
        -(2 ^ 31) ≤ st0.request_id →
        st0.request_id + msgs.length < 2 ^ 31 →
        i < j →
        (stepReplies st0 msgs).get? i = some (some (.integer a)) →
        (stepReplies st0 msgs).get? j = some (some (.integer b)) →
        a < b := by
  constructor
  · intro st arg fh
    rfl
  · intro st0 msgs
    induction msgs generalizing st0 with
    | nil => intro i j a b _ _ hij ha hb; simp [stepReplies] at ha
    | cons m ms ih =>
      intro i j a b hlo hhi hij ha hb
      simp only [List.length_cons] at hhi
      cases i with
      | zero =>
        simp [stepReplies] at ha
        obtain ⟨rfl, hbump⟩ := dispatcherStep_integer_reply st0 m a ha
        cases j with
        | zero => omega
        | succ j =>
          simp only [stepReplies, List.get?] at hb
          have hw : wrapI32 (st0.request_id + 1) = st0.request_id + 1 :=
            wrapI32_eq_self (st0.request_id + 1) (by omega) (by omega)
          have hlow := stepReplies_lower ms (dispatcherStep st0 m).state
            (by rw [hbump, hw]; omega) (by rw [hbump, hw]; omega) j b hb
          rw [hbump, hw] at hlow
          omega
      | succ i =>
        cases j with
        | zero => omega
        | succ j =>
          simp only [stepReplies, List.get?] at ha hb
          have hbd := dispatcherStep_request_id_bounds st0 m hlo (by omega)
          exact ih (dispatcherStep st0 m).state i j a b (by omega) (by omega)
            (by omega) ha hb

end MLSpec

namespace MLSpec

open MLSpec.Disp

/-- Witness for the amended C10 statement: starting from a counter at
zero, a two-message trace satisfies the wrap-free window hypotheses,
two RequestID transactions return 0 then 1, and the theorem yields
0 < 1. -/
theorem c10_request_id_wrapping_witness :
    (-(2 ^ 31) : Int) ≤ 0
    ∧ (0 : Int) + 2 < 2 ^ 31
    ∧ (0 : Nat) < 1
    ∧ (stepReplies
        ⟨[], [], [], [], [], true, false, [], ⟨[], []⟩, 0, [], []⟩
        [⟨.handler, .db ⟨.get, .requestID, .notFound⟩⟩,
         ⟨.backgroundWorker, .db ⟨.get, .requestID, .notFound⟩⟩]).get? 0
      = some (some (.integer 0))
    ∧ (stepReplies
        ⟨[], [], [], [], [], true, false, [], ⟨[], []⟩, 0, [], []⟩
        [⟨.handler, .db ⟨.get, .requestID, .notFound⟩⟩,
         ⟨.backgroundWorker, .db ⟨.get, .requestID, .notFound⟩⟩]).get? 1
      = some (some (.integer 1))
    ∧ (0 : Int) < 1 := by
  refine ⟨by decide, by decide, by decide, by rfl, by rfl, ?_⟩
  exact (c10_request_id_wrapping).2
    ⟨[], [], [], [], [], true, false, [], ⟨[], []⟩, 0, [], []⟩
    [⟨.handler, .db ⟨.get, .requestID, .notFound⟩⟩,
     ⟨.backgroundWorker, .db ⟨.get, .requestID, .notFound⟩⟩]
    0 1 0 1 (by decide) (by decide) (by decide) (by rfl) (by rfl)

/-- Counterexample to C10 as stated: with the counter at the i32
maximum 2147483647, two RequestID transactions return 2147483647 and
then the wrapped value -2147483648, so over this trace the returned
ids are not strictly increasing: the program's i32 counter wraps. -/
theorem c10_counterexample_wrap :
    (stepReplies
        ⟨[], [], [], [], [], true, false, [], ⟨[], []⟩, 2147483647, [], []⟩
        [⟨.handler, .db ⟨.get, .requestID, .notFound⟩⟩,
         ⟨.handler, .db ⟨.get, .requestID, .notFound⟩⟩]).get? 0
      = some (some (.integer 2147483647))
    ∧ (stepReplies
        ⟨[], [], [], [], [], true, false, [], ⟨[], []⟩, 2147483647, [], []⟩
        [⟨.handler, .db ⟨.get, .requestID, .notFound⟩⟩,
         ⟨.handler, .db ⟨.get, .requestID, .notFound⟩⟩]).get? 1
      = some (some (.integer (-2147483648)))
    ∧ (0 : Nat) < 1
    ∧ ¬ ((2147483647 : Int) < -2147483648) := by
  refine ⟨by rfl, by rfl, by decide, by decide⟩

end MLSpec

namespace MLSpec

open MLSpec.FileModel

/-- C6: applying one DidChange content change behaves exactly as the
claim describes: no range replaces the whole contents; a range is
mapped to a byte range, the end byte is clamped to len - 1, and the
text is inserted at the start byte when start is at least end, else it
replaces the byte range from start to end. -/
theorem c6_apply_change (mapper : Range → List Char → Nat × Nat)
    (contents : List Char) (range : Option Range) (text : List Char) :
    apply_change mapper contents range text
      = apply_change_claim mapper contents range text := by
  cases range with
  | none => rfl
  | some rng =>
    simp only [apply_change, apply_change_claim, insertStrAt, replaceByteRange]

/-- The end-position check of the find_bytes loop is false when the
current position differs from the range end. -/
theorem endCheckFalse (rng : Range) (row col : Nat)
    (hne : (rng.endp.row, rng.endp.column) ≠ (row, col)) :
    (row == rng.endp.row && col == rng.endp.column) = false := by
  by_contra hcon
  have hT : (row == rng.endp.row && col == rng.endp.column) = true := by
    revert hcon
    cases h : (row == rng.endp.row && col == rng.endp.column) <;> simp
  simp only [Bool.and_eq_true, beq_iff_eq] at hT
  exact hne (by simp [hT.1, hT.2])

/-- The loop of find_bytes leaves the end byte at its initial value 0
whenever the characters run out before the walk lands on the range end
position. -/
theorem findBytesLoop_end_zero (rng : Range) :
    ∀ (l : List Char) (byte row col sb : Nat),
      (rng.endp.row, rng.endp.column) ∉ walkPositions l row col →
      (findBytesLoop rng l byte row col sb).2 = 0 := by
  intro l
  induction l with
  | nil =>
    intro byte row col sb h
    have hne : (rng.endp.row, rng.endp.column) ≠ (row, col) := by
      intro he
      exact h (by simp [walkPositions, he])
    simp only [findBytesLoop, endCheckFalse rng row col hne]
    simp
  | cons c rest ih =>
    intro byte row col sb h
    have hhead : (rng.endp.row, rng.endp.column) ≠ (row, col) := by
      intro he
      exact h (by simp [walkPositions, he])
    have htail : (rng.endp.row, rng.endp.column)
        ∉ (if c == '\n' then walkPositions rest (row + 1) 0
           else walkPositions rest row (col + 1)) := by
      intro hmem
      apply h
      simp only [walkPositions, List.mem_cons]
      right
      exact hmem
    simp only [findBytesLoop, endCheckFalse rng row col hhead]
    simp only [Bool.false_eq_true, if_false]
    by_cases hc : (c == '\n') = true
    · rw [hc]
      simp only [if_true]
      apply ih
      simpa [hc] using htail
    · have hcb : (c == '\n') = false := by
        revert hc; cases (c == '\n') <;> simp
      rw [hcb]
      simp only [Bool.false_eq_true, if_false]
      apply ih
      simpa [hcb] using htail

/-- C7 (amended): when the character walk exhausts the contents before
the range end position is ever reached, find_bytes returns end byte 0,
the initial value of the loop variable (not the byte position reached
at end of input). -/
theorem c7_find_bytes_unmatched_end (rng : Range) (cs : List Char)
    (h : (rng.endp.row, rng.endp.column)
      ∉ walkPositions (normNewlines cs) 0 0) :
    (find_bytes rng cs).2 = 0 := by
  unfold find_bytes
  by_cases he : cs.isEmpty
  · simp [he]
  · simp only [he, Bool.false_eq_true, if_false]
    exact findBytesLoop_end_zero rng (normNewlines cs) 0 0 0 0 h

/-- Witness for the amended C7 statement at a concrete file. -/
theorem c7_find_bytes_unmatched_end_witness :
    ((5, 0) ∉ walkPositions (normNewlines ("ab\n".toList)) 0 0)
    ∧ (find_bytes ⟨⟨0, 0⟩, ⟨5, 0⟩⟩ ("ab\n".toList)).2 = 0 := by
  refine ⟨by decide, ?_⟩
  exact c7_find_bytes_unmatched_end ⟨⟨0, 0⟩, ⟨5, 0⟩⟩ ("ab\n".toList) (by decide)

/-- Counterexample to C7 as stated: on the three-byte contents the walk
exhausts the input without matching the end position (5, 0), yet the
returned end byte is 0, not the byte position 3 reached at end of
input. -/
theorem c7_counterexample :
    ((5, 0) ∉ walkPositions (normNewlines ("ab\n".toList)) 0 0)
    ∧ byteLen (normNewlines ("ab\n".toList)) = 3
    ∧ ¬ ((find_bytes ⟨⟨0, 0⟩, ⟨5, 0⟩⟩ ("ab\n".toList)).2
        = byteLen (normNewlines ("ab\n".toList))) := by
  decide

end MLSpec

namespace MLSpec

open MLSpec.Crawl

/-- The traversal accumulators only collect: the result is the
accumulators followed by the traversal of the entries from empty
accumulators. -/
theorem traverseGo_acc (folder package : String) :
    ∀ (l : List FSEntry) (fs : List (String × String)) (ps : List String),
      traverseGo folder package l fs ps
        = (fs ++ (traverseGo folder package l [] []).1,
           ps ++ (traverseGo folder package l [] []).2) := by
  intro l
  induction l with
  | nil => intro fs ps; simp [traverseGo]
  | cons e rest ih =>
    intro fs ps
    cases e with
    | file name =>
      by_cases hm : MLSpec.strEnds name ".m"
      · have h1 := ih (fs ++ [(package, folder ++ "/" ++ name)]) ps
        have h2 := ih [(package, folder ++ "/" ++ name)] []
        simp only [traverseGo, hm, if_true, List.nil_append]
        rw [h1, h2]
        simp [List.append_assoc]
      · simp only [traverseGo, hm, Bool.false_eq_true, if_false]
        exact ih fs ps
    | dir name es =>
      by_cases hp : MLSpec.strStarts name "+"
      · have h1 := ih
          (fs ++ (traverseGo (folder ++ "/" ++ name)
            (stripDot (package ++ "." ++ MLSpec.strDrop name 1)) es [] []).1)
          (ps ++ [stripDot (package ++ "." ++ MLSpec.strDrop name 1)]
            ++ (traverseGo (folder ++ "/" ++ name)
              (stripDot (package ++ "." ++ MLSpec.strDrop name 1)) es [] []).2)
        have h2 := ih
          ((traverseGo (folder ++ "/" ++ name)
            (stripDot (package ++ "." ++ MLSpec.strDrop name 1)) es [] []).1)
          ([stripDot (package ++ "." ++ MLSpec.strDrop name 1)]
            ++ (traverseGo (folder ++ "/" ++ name)
              (stripDot (package ++ "." ++ MLSpec.strDrop name 1)) es [] []).2)
        simp only [traverseGo, hp, if_true, List.nil_append]
        rw [h1, h2]
        simp [List.append_assoc]
      · simp only [traverseGo, hp, Bool.false_eq_true, if_false]
        exact ih fs ps

/-- Directory entries whose name does not start with a plus sign are
invisible to the traversal, wherever they sit in the listing. -/
theorem traverseGo_skip_dir (folder package : String) (name : String)
    (es : List FSEntry) (hp : ¬ (MLSpec.strStarts name "+" = true)) :
    ∀ (pre rest : List FSEntry) (fs : List (String × String))
      (ps : List String),
      traverseGo folder package (pre ++ FSEntry.dir name es :: rest) fs ps
        = traverseGo folder package (pre ++ rest) fs ps := by
  intro pre
  induction pre with
  | nil =>
    intro rest fs ps
    simp only [List.nil_append, traverseGo, hp, Bool.false_eq_true, if_false]
  | cons e pre ih =>
    intro rest fs ps
    cases e with
    | file nm =>
      by_cases hm : MLSpec.strEnds nm ".m" <;>
        simp only [List.cons_append, traverseGo, hm, if_true,
          Bool.false_eq_true, if_false] <;> exact ih ..
    | dir nm es2 =>
      by_cases hq : MLSpec.strStarts nm "+" <;>
        simp only [List.cons_append, traverseGo, hq, if_true,
          Bool.false_eq_true, if_false] <;> exact ih ..

/-- C8 (amended): in the crawl traversal, a directory named with a
leading plus contributes one package segment composed with dots across
levels and is descended into for its *.m files, while a directory whose
name does not start with a plus (in particular a class folder named
with a leading at sign) contributes nothing and is not descended. -/
theorem c8_traverse_folder_dirs (folder package name : String)
    (es : List FSEntry) :
    (¬ (MLSpec.strStarts name "+" = true) →
      ∀ (pre rest : List FSEntry),
        traverse_folder folder package (pre ++ FSEntry.dir name es :: rest)
          = traverse_folder folder package (pre ++ rest))
    ∧ (MLSpec.strStarts name "+" = true →
      ∀ rest : List FSEntry,
        traverse_folder folder package (FSEntry.dir name es :: rest)
          = ((traverse_folder (folder ++ "/" ++ name)
                (stripDot (package ++ "." ++ MLSpec.strDrop name 1)) es).1
              ++ (traverse_folder folder package rest).1,
             stripDot (package ++ "." ++ MLSpec.strDrop name 1)
              :: ((traverse_folder (folder ++ "/" ++ name)
                    (stripDot (package ++ "." ++ MLSpec.strDrop name 1)) es).2
                  ++ (traverse_folder folder package rest).2))) := by
  constructor
  · intro hp pre rest
    exact traverseGo_skip_dir folder package name es hp pre rest [] []
  · intro hp rest
    unfold traverse_folder
    simp only [traverseGo, hp, if_true]
    rw [traverseGo_acc]
    simp

/-- Witness for the amended C8 statement: a class folder named with a
leading at sign is skipped, and a plus directory is descended. -/
theorem c8_traverse_folder_dirs_witness :
    (¬ ((MLSpec.strStarts "@cls" "+") = true)
      ∧ traverse_folder "lib" ""
          ([] ++ FSEntry.dir "@cls" [FSEntry.file "foo.m"] :: [])
        = traverse_folder "lib" "" ([] ++ []))
    ∧ ((MLSpec.strStarts "+pkg" "+") = true
      ∧ traverse_folder "lib" "" (FSEntry.dir "+pkg" [FSEntry.file "foo.m"] :: [])
        = ([("pkg", "lib/+pkg/foo.m")], ["pkg"])) := by
  constructor
  · exact ⟨by decide,
      (c8_traverse_folder_dirs "lib" "" "@cls" [FSEntry.file "foo.m"]).1
        (by decide) [] []⟩
  · refine ⟨by decide, ?_⟩
    have := (c8_traverse_folder_dirs "lib" "" "+pkg"
      [FSEntry.file "foo.m"]).2 (by decide) []
    rw [this]
    simp [traverse_folder, traverseGo, MLSpec.strStarts, MLSpec.strEnds,
      MLSpec.strDrop, stripDot, MLSpec.listStarts]

/-- Counterexample to C8 as stated: a directory named with a leading at
sign containing foo.m yields no files and no package entry, so class
folders are neither turned into packages nor descended. -/
theorem c8_counterexample :
    traverse_folder "lib" "" [FSEntry.dir "@cls" [FSEntry.file "foo.m"]]
      = ([], [])
    ∧ traverse_folder "lib" "" [FSEntry.dir "+pkg" [FSEntry.file "foo.m"]]
      = ([("pkg", "lib/+pkg/foo.m")], ["pkg"]) := by
  constructor <;>
    simp [traverse_folder, traverseGo, MLSpec.strStarts, MLSpec.strEnds,
      MLSpec.strDrop, stripDot, MLSpec.listStarts]

end MLSpec

namespace MLSpec

open MLSpec.Ext MLSpec.Ex

/-- Counterexample to C1 as stated: extracting the file
function y = f() / y = 1; / clear y; / y = 2; / end records a
reference at row 3 targeting the output variable cell, whose cleared
row is 2, and 2 is neither 0 nor greater than 3. -/
theorem c1_counterexample :
    (⟨⟨⟨3, 0⟩, ⟨3, 1⟩⟩, "y", .var 0⟩ : Ref) ∈ out1.workspace.references
    ∧ out1.heap.getD 0 default = ⟨⟨⟨0, 9⟩, ⟨0, 10⟩⟩, "y", 2, true, false⟩
    ∧ ¬ ((out1.heap.getD 0 default).cleared = 0
          ∨ (out1.heap.getD 0 default).cleared > 3) := by
  decide

/-- C2: the extraction of if c / x = 1; foobarbaz = 2; / b = 1; / else
/ y = foobarbaz; / end records a reference in the else branch targeting
the variable defined only in the then branch: the then-branch block
contains the definition start and not the reference start in point
order while the else-branch block contains the reference, yet
is_in_soft_scope answers true because the quirky Range.contains denies
that the multi-row then-branch block contains the definition start. -/
theorem c2_soft_scope_counterexample :
    (⟨⟨⟨4, 6⟩, ⟨4, 15⟩⟩, "foobarbaz", .var 1⟩ : Ref)
        ∈ out2.workspace.references
    ∧ out2.heap.getD 1 default
        = ⟨⟨⟨1, 9⟩, ⟨1, 18⟩⟩, "foobarbaz", 0, false, false⟩
    ∧ kindAt t2 [0] = "if_statement"
    ∧ [0, 1] ∈ namedChildrenPaths t2 [0]
    ∧ [0, 2] ∈ namedChildrenPaths t2 [0]
    ∧ tsContains (rangeAt t2 [0, 1]) (rangeAt t2 [0, 1, 1, 0]).start = true
    ∧ tsContains (rangeAt t2 [0, 1]) (rangeAt t2 [0, 2, 0, 0, 1]).start = false
    ∧ tsContains (rangeAt t2 [0, 2]) (rangeAt t2 [0, 2, 0, 0, 1]).start = true
    ∧ (rangeAt t2 [0, 1]).containsB (rangeAt t2 [0, 1, 1, 0]).start = false
    ∧ is_in_soft_scope t2 [0, 2, 0, 0, 1] [0, 1, 1, 0] = true := by
  decide

/-- Counterexample to C5 as stated: the command clear global carries
the single option token global and no pattern token, so under the claim
no delete pattern exists and nothing is cleared; the extraction of
x = 1; / clear global nevertheless clears the live non-global x at
row 1, because the source defaults an empty delete list to the
wildcard pattern. -/
theorem c5_counterexample :
    (cmdArgsOf t5 [1, 0]).map (fun a => textAt t5 a) = ["global"]
    ∧ parseClearArgs ["global"] false = ⟨[], [], true⟩
    ∧ out5.heap = [⟨⟨⟨0, 0⟩, ⟨0, 1⟩⟩, "x", 1, false, false⟩]
    ∧ (out5.heap.getD 0 default).is_global = false
    ∧ ¬ (out5.heap.getD 0 default).cleared = 0 := by
  decide

end MLSpec

namespace MLSpec

open MLSpec.Ext

/-- One refToVarCheck step appends exactly what refToVarAccept yields. -/
theorem rtvCheck_eq_accept (t : STree) (heap : List VarDef) (name : String)
    (node : List Nat) (ia : Bool) (pr : Range) (refs : List Ref)
    (vidx : Nat) :
    refToVarCheck t heap name node ia pr refs vidx
      = refs ++ (refToVarAccept t heap name node ia pr vidx).toList := by
  unfold refToVarCheck refToVarAccept
  dsimp only
  repeat' split
  all_goals (try rfl)
  all_goals simp

/-- The inner candidate fold of ref_to_var appends the accepted
candidates in traversal order. -/
theorem foldl_rtvCheck (t : STree) (heap : List VarDef) (name : String)
    (node : List Nat) (ia : Bool) (pr : Range) :
    ∀ (l : List Nat) (refs : List Ref),
      l.foldl (refToVarCheck t heap name node ia pr) refs
        = refs ++ l.filterMap (refToVarAccept t heap name node ia pr) := by
  intro l
  induction l with
  | nil => intro refs; simp
  | cons v rest ih =>
    intro refs
    rw [List.foldl_cons, rtvCheck_eq_accept, ih]
    cases h : refToVarAccept t heap name node ia pr v <;>
      simp [h, List.filterMap_cons, List.append_assoc]

/-- The scope-workspace fold of ref_to_var appends the accepted
candidates of every scope workspace in stack order. -/
theorem foldl_rtvCheck_outer (t : STree) (heap : List VarDef)
    (name : String) (node : List Nat) (ia : Bool) (pr : Range) :
    ∀ (kvs : List (List Nat × Ws)) (refs : List Ref),
      kvs.foldl (fun refs kv =>
          kv.2.vars.reverse.foldl (refToVarCheck t heap name node ia pr) refs)
        refs
        = refs ++ (kvs.flatMap (fun kv => kv.2.vars.reverse)).filterMap
            (refToVarAccept t heap name node ia pr) := by
  intro kvs
  induction kvs with
  | nil => intro refs; simp
  | cons kv rest ih =>
    intro refs
    rw [List.foldl_cons, foldl_rtvCheck, ih]
    simp [List.filterMap_append, List.append_assoc]

/-- Every successful climb lands on a proper ancestor: the result is a
strictly shorter prefix of the start path. -/
theorem climbAux_ancestor (t : STree) (ks : List String) :
    ∀ (fuel : Nat) (p q : List Nat), climbAux t ks fuel p = some q →
      q.length < p.length ∧ q = p.take q.length := by
  intro fuel
  induction fuel with
  | zero => intro p q h; simp [climbAux] at h
  | succ fuel ih =>
    intro p q h
    cases p with
    | nil => simp [climbAux] at h
    | cons a as =>
      simp only [climbAux] at h
      by_cases hk : ks.contains (kindAt t (a :: as).dropLast) = true
      · rw [if_pos hk] at h
        injection h with h
        subst h
        refine ⟨by simp, ?_⟩
        rw [List.dropLast_eq_take]
        simp
      · rw [if_neg hk] at h
        obtain ⟨hlt, htake⟩ := ih _ _ h
        have hdl : (a :: as).dropLast.length = as.length := by simp
        rw [hdl] at hlt
        refine ⟨by simp only [List.length_cons]; omega, ?_⟩
        have hmin : min q.length ((a :: as).length - 1) = q.length := by
          simp only [List.length_cons]
          omega
        nth_rewrite 1 [htake]
        rw [List.dropLast_eq_take, List.take_take, hmin]

/-- The scopes stack is an ancestor chain: each entry is a strictly
shorter prefix of the one before it, the node's own path first. -/
theorem scopesAux_ancestors (t : STree) :
    ∀ (fuel : Nat) (p : List Nat),
      List.Chain' (fun a b => b.length < a.length ∧ b = a.take b.length)
        (p :: scopesAux t fuel p) := by
  intro fuel
  induction fuel with
  | zero => intro p; simp [scopesAux]
  | succ fuel ih =>
    intro p
    simp only [scopesAux]
    have key : ∀ (o : Option (List Nat)), parent_function t p = o →
        List.Chain' (fun a b => b.length < a.length ∧ b = a.take b.length)
          (p :: match o with
            | none => []
            | some q => q :: scopesAux t fuel q) := by
      intro o ho
      cases o with
      | none => simp
      | some q =>
        rw [List.chain'_cons]
        have h1 := climbAux_ancestor t
          ["function_definition", "lambda"] p.length p q ho
        exact ⟨h1, ih q⟩
    exact key _ rfl

/-- C4: variable-reference lookup considers exactly the candidate
sequence of the scope workspaces in stack order, each variable list in
reverse insertion order, followed by the file workspace variables in
reverse insertion order exactly when the scopes stack is empty or holds
only lambda scopes, each candidate passed through the acceptance
filter; the filter skips every candidate whose cell has cleared > 0;
and the scopes stack built for a node path is an ancestor chain,
innermost first. -/
theorem c4_ref_to_var_order (t : STree) (st : ExtState)
    (scopes : List (List Nat)) (name : String) (node : List Nat)
    (p : List Nat) :
    (ref_to_var t st scopes name node
      = ((scopes.filterMap (fun s => fnsGet st.functions s)).flatMap
            (fun kv => kv.2.vars.reverse)
          ++ (if scopes.isEmpty
                || (scopes.filterMap (fun s => fnsGet st.functions s)).all
                    (fun kv => kindAt t kv.1 == "lambda")
              then st.workspace.vars.reverse else [])).filterMap
          (refToVarAccept t st.heap name node (assignLeftRange t node).1
            (assignLeftRange t node).2))
    ∧ (∀ vidx, (st.heap.getD vidx default).cleared > 0 →
        refToVarAccept t st.heap name node (assignLeftRange t node).1
          (assignLeftRange t node).2 vidx = none)
    ∧ List.Chain' (fun a b => b.length < a.length ∧ b = a.take b.length)
        (p :: scopesOf t p) := by
  refine ⟨?_, ?_, scopesAux_ancestors t p.length p⟩
  · simp only [ref_to_var]
    rw [foldl_rtvCheck_outer]
    split
    · rw [foldl_rtvCheck]
      simp [List.filterMap_append]
    · simp
  · intro vidx h
    simp only [refToVarAccept]
    rw [if_pos h]

end MLSpec

namespace MLSpec

open MLSpec.Ext

/-- setCleared keeps the heap length. -/
theorem setCleared_length (heap : List VarDef) (vidx row : Nat) :
    (setCleared heap vidx row).length = heap.length := by
  unfold setCleared
  cases h : heap.get? vidx <;> simp

/-- setCleared leaves every other cell unchanged. -/
theorem setCleared_getD_ne (heap : List VarDef) (vidx row j : Nat)
    (h : j ≠ vidx) :
    (setCleared heap vidx row).getD j default = heap.getD j default := by
  unfold setCleared
  cases hg : heap.get? vidx with
  | none => rfl
  | some v => simp [List.getD, List.getElem?_set_ne (Ne.symm h)]

/-- setCleared writes the cleared row into an in-range cell. -/
theorem setCleared_getD_self (heap : List VarDef) (vidx row : Nat)
    (h : vidx < heap.length) :
    (setCleared heap vidx row).getD vidx default
      = { heap.getD vidx default with cleared := row } := by
  unfold setCleared
  have hg : heap.get? vidx = some (heap.get ⟨vidx, h⟩) := List.get?_eq_get h
  rw [hg]
  simp [List.getD, List.getElem?_set_self, h, List.getElem?_eq_getElem,
    List.get_eq_getElem]

/-- One clear sweep step keeps the heap length. -/
theorem clearMatchStep_length (rn : String → Option (String → Bool))
    (del keep : List String) (g : Bool) (row : Nat) (heap : List VarDef)
    (vidx : Nat) :
    (clearMatchStep rn del keep g row heap vidx).length = heap.length := by
  unfold clearMatchStep
  dsimp only
  repeat' split
  all_goals first
  | rfl
  | simp [setCleared_length]

/-- One clear sweep step leaves every other cell unchanged. -/
theorem clearMatchStep_getD_ne (rn : String → Option (String → Bool))
    (del keep : List String) (g : Bool) (row : Nat) (heap : List VarDef)
    (vidx j : Nat) (h : j ≠ vidx) :
    (clearMatchStep rn del keep g row heap vidx).getD j default
      = heap.getD j default := by
  unfold clearMatchStep
  dsimp only
  repeat' split
  all_goals first
  | rfl
  | exact setCleared_getD_ne heap vidx row j h

/-- One clear sweep step at an in-range index sets the cleared row
exactly when the clearing condition holds of the cell. -/
theorem clearMatchStep_getD_self (rn : String → Option (String → Bool))
    (del keep : List String) (g : Bool) (row : Nat) (heap : List VarDef)
    (vidx : Nat) (h : vidx < heap.length) :
    (clearMatchStep rn del keep g row heap vidx).getD vidx default
      = if clearCond rn del keep g (heap.getD vidx default) = true
        then { heap.getD vidx default with cleared := row }
        else heap.getD vidx default := by
  unfold clearMatchStep
  dsimp only
  cases hf : List.find?
      (fun tok => tokenMatches rn tok (heap.getD vidx default).name) del with
  | none =>
    unfold clearCond
    rw [hf]
    simp
  | some tok0 =>
    by_cases hk : (keep.any
        (fun tok => tokenMatches rn tok (heap.getD vidx default).name)) = true
    · rw [if_pos hk]
      unfold clearCond
      rw [hf]
      have hcond : ¬ (((some tok0).isSome
          && !(keep.any
            (fun tok => tokenMatches rn tok (heap.getD vidx default).name))
          && ((heap.getD vidx default).cleared == 0
            && (!(heap.getD vidx default).is_global || g))) = true) := by
        rw [hk]
        simp
      rw [if_neg hcond]
    · rw [if_neg hk]
      have hk2 : (keep.any
          (fun tok => tokenMatches rn tok (heap.getD vidx default).name))
          = false := by
        revert hk
        cases keep.any
            (fun tok => tokenMatches rn tok (heap.getD vidx default).name) <;>
          simp
      by_cases hl : ((heap.getD vidx default).cleared == 0
          && (!(heap.getD vidx default).is_global || g)) = true
      · rw [if_pos hl, setCleared_getD_self heap vidx row h]
        unfold clearCond
        rw [hf]
        have hcond : (((some tok0).isSome
            && !(keep.any
              (fun tok => tokenMatches rn tok (heap.getD vidx default).name))
            && ((heap.getD vidx default).cleared == 0
              && (!(heap.getD vidx default).is_global || g))) = true) := by
          rw [hk2, hl]
          simp
        rw [if_pos hcond]
      · rw [if_neg hl]
        have hl2 : ((heap.getD vidx default).cleared == 0
            && (!(heap.getD vidx default).is_global || g)) = false := by
          revert hl
          cases ((heap.getD vidx default).cleared == 0
              && (!(heap.getD vidx default).is_global || g)) <;>
            simp
        unfold clearCond
        rw [hf]
        have hcond : ¬ (((some tok0).isSome
            && !(keep.any
              (fun tok => tokenMatches rn tok (heap.getD vidx default).name))
            && ((heap.getD vidx default).cleared == 0
              && (!(heap.getD vidx default).is_global || g))) = true) := by
          rw [hl2]
          simp
        rw [if_neg hcond]

/-- The clear sweep over a duplicate-free list of in-range indices is
pointwise: a cell is rewritten with the cleared row exactly when its
index is walked and the clearing condition holds of it. -/
theorem clearFold_getD (rn : String → Option (String → Bool))
    (del keep : List String) (g : Bool) (row : Nat) :
    ∀ (L : List Nat) (heap : List VarDef), L.Nodup →
      (∀ i ∈ L, i < heap.length) →
      (L.foldl (clearMatchStep rn del keep g row) heap).length = heap.length
      ∧ ∀ j, (L.foldl (clearMatchStep rn del keep g row) heap).getD j default
          = if j ∈ L ∧ clearCond rn del keep g (heap.getD j default) = true
            then { heap.getD j default with cleared := row }
            else heap.getD j default := by
  intro L
  induction L with
  | nil =>
    intro heap _ _
    exact ⟨rfl, by intro j; simp⟩
  | cons i L ih =>
    intro heap hnd hb
    have hi : i < heap.length := hb i (List.mem_cons_self i L)
    have hni : i ∉ L := (List.nodup_cons.mp hnd).1
    have hnd' : L.Nodup := (List.nodup_cons.mp hnd).2
    have hlen' : (clearMatchStep rn del keep g row heap i).length
        = heap.length := clearMatchStep_length rn del keep g row heap i
    have hb' : ∀ i' ∈ L, i' < (clearMatchStep rn del keep g row heap i).length :=
      fun i' hm => by rw [hlen']; exact hb i' (List.mem_cons_of_mem i hm)
    obtain ⟨ihlen, ihget⟩ := ih (clearMatchStep rn del keep g row heap i)
      hnd' hb'
    rw [List.foldl_cons]
    refine ⟨ihlen.trans hlen', ?_⟩
    intro j
    rw [ihget j]
    by_cases hji : j = i
    · subst hji
      rw [clearMatchStep_getD_self rn del keep g row heap j hi]
      rw [if_neg (fun hc => hni hc.1)]
      by_cases hc : clearCond rn del keep g (heap.getD j default) = true
      · rw [if_pos hc, if_pos ⟨List.mem_cons_self j L, hc⟩]
      · rw [if_neg hc, if_neg (fun hcc => hc hcc.2)]
    · rw [clearMatchStep_getD_ne rn del keep g row heap i j hji]
      by_cases hjl : j ∈ L
      · simp [hjl, List.mem_cons]
      · have hjc : j ∉ (i :: L) := by
          intro hm
          rcases List.mem_cons.mp hm with h1 | h2
          · exact hji h1
          · exact hjl h2
        rw [if_neg (fun hc => hjl hc.1), if_neg (fun hc => hjc hc.1)]

/-- Folding over the lists of a list of lists is folding over its
flattening. -/
theorem foldl_flatten_eq {α β : Type} (f : β → α → β) :
    ∀ (ls : List (List α)) (b : β),
      ls.foldl (fun b l => l.foldl f b) b = ls.flatten.foldl f b := by
  intro ls
  induction ls with
  | nil => intro b; rfl
  | cons l ls ih =>
    intro b
    rw [List.foldl_cons, ih, List.flatten_cons, List.foldl_append]

/-- One no-argument sweep step keeps the heap length. -/
theorem clearLiveStep_length (row : Nat) (heap : List VarDef) (vidx : Nat) :
    (clearLiveStep row heap vidx).length = heap.length := by
  unfold clearLiveStep
  dsimp only
  split
  · exact setCleared_length heap vidx row
  · rfl

/-- One no-argument sweep step leaves every other cell unchanged. -/
theorem clearLiveStep_getD_ne (row : Nat) (heap : List VarDef) (vidx j : Nat)
    (h : j ≠ vidx) :
    (clearLiveStep row heap vidx).getD j default = heap.getD j default := by
  unfold clearLiveStep
  dsimp only
  split
  · exact setCleared_getD_ne heap vidx row j h
  · rfl

/-- One no-argument sweep step at an in-range index sets the cleared
row exactly when the cell is live and not global. -/
theorem clearLiveStep_getD_self (row : Nat) (heap : List VarDef) (vidx : Nat)
    (h : vidx < heap.length) :
    (clearLiveStep row heap vidx).getD vidx default
      = if ((heap.getD vidx default).cleared == 0
            && !(heap.getD vidx default).is_global) = true
        then { heap.getD vidx default with cleared := row }
        else heap.getD vidx default := by
  unfold clearLiveStep
  dsimp only
  by_cases hc : ((heap.getD vidx default).cleared == 0
      && !(heap.getD vidx default).is_global) = true
  · rw [if_pos hc, if_pos hc]
    exact setCleared_getD_self heap vidx row h
  · rw [if_neg hc, if_neg hc]

/-- The no-argument sweep over a duplicate-free list of in-range
indices is pointwise: a cell is rewritten with the cleared row exactly
when its index is walked, it is live and it is not global. -/
theorem clearAllLive_getD (row : Nat) :
    ∀ (L : List Nat) (heap : List VarDef), L.Nodup →
      (∀ i ∈ L, i < heap.length) →
      (L.foldl (clearLiveStep row) heap).length = heap.length
      ∧ ∀ j, (L.foldl (clearLiveStep row) heap).getD j default
          = if j ∈ L ∧ ((heap.getD j default).cleared == 0
                && !(heap.getD j default).is_global) = true
            then { heap.getD j default with cleared := row }
            else heap.getD j default := by
  intro L
  induction L with
  | nil =>
    intro heap _ _
    exact ⟨rfl, by intro j; simp⟩
  | cons i L ih =>
    intro heap hnd hb
    have hi : i < heap.length := hb i (List.mem_cons_self i L)
    have hni : i ∉ L := (List.nodup_cons.mp hnd).1
    have hnd' : L.Nodup := (List.nodup_cons.mp hnd).2
    have hlen' : (clearLiveStep row heap i).length = heap.length :=
      clearLiveStep_length row heap i
    have hb' : ∀ i' ∈ L, i' < (clearLiveStep row heap i).length :=
      fun i' hm => by rw [hlen']; exact hb i' (List.mem_cons_of_mem i hm)
    obtain ⟨ihlen, ihget⟩ := ih (clearLiveStep row heap i) hnd' hb'
    rw [List.foldl_cons]
    refine ⟨ihlen.trans hlen', ?_⟩
    intro j
    rw [ihget j]
    by_cases hji : j = i
    · subst hji
      rw [clearLiveStep_getD_self row heap j hi]
      rw [if_neg (fun hc => hni hc.1)]
      by_cases hc : ((heap.getD j default).cleared == 0
          && !(heap.getD j default).is_global) = true
      · rw [if_pos hc, if_pos ⟨List.mem_cons_self j L, hc⟩]
      · rw [if_neg hc, if_neg (fun hcc => hc hcc.2)]
    · rw [clearLiveStep_getD_ne row heap i j hji]
      by_cases hjl : j ∈ L
      · simp [hjl, List.mem_cons]
      · have hjc : j ∉ (i :: L) := by
          intro hm
          rcases List.mem_cons.mp hm with h1 | h2
          · exact hji h1
          · exact hjl h2
        rw [if_neg (fun hc => hjl hc.1), if_neg (fun hc => hjc hc.1)]

/-- The composite no-argument sweep of command_clear (the scope
workspaces, then the file workspace when the scopes stack is empty)
equals one fold of the live step over the sweep index list. -/
theorem clearSweep_eq (st : ExtState) (scopes : List (List Nat)) (row : Nat) :
    (if scopes.isEmpty then
        clearAllLive
          ((scopes.filterMap (fun s => fnsGet st.functions s)).foldl
            (fun heap kv => clearAllLive heap kv.2.vars row) st.heap)
          st.workspace.vars row
      else
        (scopes.filterMap (fun s => fnsGet st.functions s)).foldl
          (fun heap kv => clearAllLive heap kv.2.vars row) st.heap)
      = (clearSweepIdxs st scopes).foldl (clearLiveStep row) st.heap := by
  have hbase : ∀ (h0 : List VarDef) (kvs : List (List Nat × Ws)),
      kvs.foldl (fun heap kv => clearAllLive heap kv.2.vars row) h0
        = ((kvs.map (fun kv => kv.2.vars)).flatten).foldl
            (clearLiveStep row) h0 := by
    intro h0 kvs
    rw [← foldl_flatten_eq, List.foldl_map]
    rfl
  cases scopes with
  | nil =>
    simp only [List.isEmpty_nil, if_true, clearSweepIdxs]
    rw [hbase st.heap]
    rfl
  | cons s rest =>
    simp only [List.isEmpty_cons, Bool.false_eq_true, if_false,
      clearSweepIdxs, List.append_nil]
    exact hbase st.heap _

/-- The pattern sweep cannot change a cell already cleared at the row:
the cell keeps its value. -/
theorem clearFold_fixed (rn : String → Option (String → Bool))
    (del keep : List String) (g : Bool) (row : Nat) (L : List Nat)
    (heap : List VarDef) (hnd : L.Nodup) (hb : ∀ i ∈ L, i < heap.length)
    (j : Nat) (v : VarDef)
    (hj : heap.getD j default = { v with cleared := row }) :
    (L.foldl (clearMatchStep rn del keep g row) heap).getD j default
      = { v with cleared := row } := by
  rw [(clearFold_getD rn del keep g row L heap hnd hb).2 j, hj]
  split
  · rfl
  · rfl

end MLSpec

namespace MLSpec

open MLSpec.Ext

/-- A clear or clearvars command with at least one argument leaves the
workspaces untouched and rewrites the heap pointwise: over
duplicate-free in-range active variable indices, a cell is cleared at
the command row exactly when it is walked, some delete pattern of the
parsed arguments (the non-option tokens, defaulting to the wildcard
star when there are none) matches its name, no keep pattern matches
it, it is live, and it is global only when the token global was
present. -/
theorem command_clear_args_pointwise (regexNew : String → Option (String → Bool))
    (t : STree) (st : ExtState) (scopes : List (List Nat))
    (isClearvars : Bool) (node : List Nat)
    (hargs : ¬ cmdArgsOf t node = [])
    (hnd : (clearScopeIdxs st scopes).Nodup)
    (hbound : ∀ i ∈ clearScopeIdxs st scopes, i < st.heap.length) :
    (command_clear regexNew t st scopes isClearvars node).workspace
        = st.workspace
    ∧ (command_clear regexNew t st scopes isClearvars node).functions
        = st.functions
    ∧ (command_clear regexNew t st scopes isClearvars node).heap.length
        = st.heap.length
    ∧ ∀ j, (command_clear regexNew t st scopes isClearvars node).heap.getD
          j default
        = if j ∈ clearScopeIdxs st scopes
              ∧ clearCond regexNew (clearDel t isClearvars node)
                  (clearParsed t isClearvars node).keep
                  (clearParsed t isClearvars node).globals
                  (st.heap.getD j default) = true
          then { st.heap.getD j default with
                  cleared := (rangeAt t node).start.row }
          else st.heap.getD j default := by
  cases hp : parentOfPath node with
  | none =>
    exfalso
    exact hargs (by simp [cmdArgsOf, hp])
  | some parent =>
    have hargsEq : cmdArgsOf t node
        = (namedChildrenPaths t parent).filter
            (fun c => kindAt t c == "command_argument") := by
      simp [cmdArgsOf, hp]
    have hae : ((namedChildrenPaths t parent).filter
        (fun c => kindAt t c == "command_argument")).isEmpty = false := by
      rw [← hargsEq]
      revert hargs
      cases cmdArgsOf t node <;> simp
    simp only [command_clear, hp]
    rw [hae]
    simp only [Bool.false_eq_true, if_false]
    rw [foldl_flatten_eq]
    have hidx : ((if ((scopes.filterMap (fun s => fnsGet st.functions s)).map
          (fun kv => kv.2.vars)).isEmpty
        then [st.workspace.vars]
        else (scopes.filterMap (fun s => fnsGet st.functions s)).map
          (fun kv => kv.2.vars)).flatten) = clearScopeIdxs st scopes := by
      simp [clearScopeIdxs]
    rw [hidx]
    have hparsed : parseClearArgs
          (((namedChildrenPaths t parent).filter
            (fun c => kindAt t c == "command_argument")).map
              (fun a => textAt t a)) isClearvars
        = clearParsed t isClearvars node := by
      rw [clearParsed, hargsEq]
    rw [hparsed]
    obtain ⟨hlen, hget⟩ := clearFold_getD regexNew
      (if (clearParsed t isClearvars node).delete.isEmpty then ["*"]
        else (clearParsed t isClearvars node).delete)
      (clearParsed t isClearvars node).keep
      (clearParsed t isClearvars node).globals
      (rangeAt t node).start.row
      (clearScopeIdxs st scopes) st.heap hnd hbound
    refine ⟨trivial, trivial, hlen, ?_⟩
    intro j
    rw [hget j, clearDel]

end MLSpec

namespace MLSpec

open MLSpec.Ext

/-- Subtree lookup splits over path concatenation. -/
theorem subtreeAt_append :
    ∀ (p q : List Nat) (t : STree),
      subtreeAt t (p ++ q) = (subtreeAt t p).bind (fun s => subtreeAt s q) := by
  intro p
  induction p with
  | nil => intro q t; rfl
  | cons i p ih =>
    intro q t
    simp only [List.cons_append, subtreeAt]
    cases t.children.get? i with
    | none => rfl
    | some c => exact ih q c

/-- The output positions of a member tree sit in the list contribution. -/
theorem outputsL_sub (cs : STreeList) :
    ∀ x ∈ cs.toList, ∀ q ∈ outputPositionsTree x,
      q ∈ outputPositionsTreeL cs :=
  match cs with
  | .nil => by simp [STreeList.toList]
  | .cons c cs => by
    intro x hx q hq
    simp only [STreeList.toList, List.mem_cons] at hx
    simp only [outputPositionsTreeL, List.mem_append]
    rcases hx with hx | hx
    · subst hx
      exact Or.inl hq
    · exact Or.inr (outputsL_sub cs x hx q hq)

/-- The output positions of a subtree sit in those of the whole tree. -/
theorem outputsTree_sub :
    ∀ (c : List Nat) (t s : STree), subtreeAt t c = some s →
      ∀ q ∈ outputPositionsTree s, q ∈ outputPositionsTree t := by
  intro c
  induction c with
  | nil =>
    intro t s h q hq
    simp only [subtreeAt] at h
    injection h with h
    subst h
    exact hq
  | cons i c ih =>
    intro t s h q hq
    simp only [subtreeAt] at h
    cases hc : t.children.get? i with
    | none => rw [hc] at h; exact absurd h (by simp)
    | some ti =>
      rw [hc] at h
      have hmem : ti ∈ t.children := List.get?_mem hc
      have h1 : q ∈ outputPositionsTree ti := ih ti s h q hq
      cases t with
      | mk d cs =>
        simp only [STree.children] at hmem
        simp only [outputPositionsTree, List.mem_append]
        exact Or.inr (outputsL_sub cs ti hmem q h1)

end MLSpec

namespace MLSpec

open MLSpec.Ext

/-- Extending a path by one child index looks the child up in the
subtree. -/
theorem subtreeAt_child (t : STree) (p : List Nat) (s : STree) (i : Nat)
    (ci : STree) (hs : subtreeAt t p = some s)
    (hc : s.children.get? i = some ci) :
    subtreeAt t (p ++ [i]) = some ci := by
  rw [subtreeAt_append p [i] t, hs]
  have hc2 : s.children[i]? = some ci := by
    simpa [List.get?_eq_getElem?] using hc
  simp [subtreeAt, hc2]

/-- The child paths of a resolved subtree. -/
theorem namedChildrenPaths_of (t : STree) (p : List Nat) (s : STree)
    (hs : subtreeAt t p = some s) :
    namedChildrenPaths t p
      = (List.range s.children.length).map (fun i => p ++ [i]) := by
  simp [namedChildrenPaths, hs]

/-- A node of a non-empty kind resolves to a subtree of that kind. -/
theorem subtree_of_kind (t : STree) (c : List Nat) (k : String)
    (hk : kindAt t c = k) (hne : ¬ k = "") :
    ∃ s, subtreeAt t c = some s ∧ s.data.kind = k := by
  cases hs : subtreeAt t c with
  | none =>
    exfalso
    apply hne
    rw [← hk]
    simp [kindAt, nodeAt, hs]
    rfl
  | some s =>
    refine ⟨s, rfl, ?_⟩
    rw [← hk]
    simp [kindAt, nodeAt, hs]

/-- Mapping the range starts over the child paths of a resolved subtree
is mapping them over its children. -/
theorem range_paths_map (t : STree) (p : List Nat) (s : STree)
    (hs : subtreeAt t p = some s) :
    ((List.range s.children.length).map (fun i => p ++ [i])).map
        (fun c => (rangeAt t c).start)
      = s.children.map (fun c => c.data.range.start) := by
  rw [List.map_map]
  apply List.ext_getElem
  · simp
  · intro i h1 h2
    simp only [List.getElem_map, List.getElem_range, Function.comp]
    have hlen : i < s.children.length := by simpa using h2
    have hci : s.children.get? i = some (s.children.get ⟨i, hlen⟩) :=
      List.get?_eq_get hlen
    rw [rangeAt, nodeAt, subtreeAt_child t p s i _ hs hci]
    simp [List.get_eq_getElem]

/-- The path-level output collection at a resolved function_output node
computes the node-level output contribution. -/
theorem outputsOf_eq_node (t : STree) (output : List Nat) (s : STree)
    (hs : subtreeAt t output = some s) :
    (match (namedChildrenPaths t output).head? with
      | none => []
      | some o1 =>
        if kindAt t o1 == "identifier" then [(rangeAt t o1).start]
        else if kindAt t o1 == "multioutput_variable" then
          (namedChildrenPaths t o1).map (fun c => (rangeAt t c).start)
        else []) = outputPsOfNode s := by
  rw [namedChildrenPaths_of t output s hs]
  unfold outputPsOfNode
  cases hcs : s.children with
  | nil => simp [hcs]
  | cons c0 rest =>
    simp only [List.length_cons, List.range_succ_eq_map, List.map_cons,
      List.head?_cons]
    have hc0 : subtreeAt t (output ++ [0]) = some c0 :=
      subtreeAt_child t output s 0 c0 hs (by rw [hcs]; rfl)
    have hk0 : kindAt t (output ++ [0]) = c0.data.kind := by
      simp [kindAt, nodeAt, hc0]
    have hr0 : rangeAt t (output ++ [0]) = c0.data.range := by
      simp [rangeAt, nodeAt, hc0]
    rw [hk0, hr0]
    by_cases hid : (c0.data.kind == "identifier") = true
    · rw [if_pos hid, if_pos hid]
    · rw [if_neg hid, if_neg hid]
      by_cases hmo : (c0.data.kind == "multioutput_variable") = true
      · rw [if_pos hmo, if_pos hmo]
        rw [namedChildrenPaths_of t (output ++ [0]) c0 hc0]
        exact range_paths_map t (output ++ [0]) c0 hc0
      · rw [if_neg hmo, if_neg hmo]

/-- The head contribution of a function_output node sits in its
output-position list. -/
theorem outputPsOfNode_sub_self (s : STree)
    (hsk : s.data.kind = "function_output") :
    ∀ q ∈ outputPsOfNode s, q ∈ outputPositionsTree s := by
  cases s with
  | mk d cs =>
    intro q hq
    simp only [STree.data] at hsk
    simp only [outputPositionsTree, List.mem_append]
    left
    rw [hsk]
    simpa using hq

/-- Every output position def_var reads off a function node is an
output position of the whole tree. -/
theorem outputsOf_sub (t : STree) (fnNode : List Nat) :
    ∀ p ∈ outputPositionsOf t fnNode, p ∈ outputPositionsTree t := by
  intro p hp
  unfold outputPositionsOf at hp
  cases hf : (namedChildrenPaths t fnNode).find?
      (fun c => kindAt t c == "function_output") with
  | none => rw [hf] at hp; simp at hp
  | some output =>
    rw [hf] at hp
    have hko : kindAt t output = "function_output" := by
      have := List.find?_some hf
      simpa using this
    obtain ⟨s, hs, hsk⟩ := subtree_of_kind t output "function_output" hko
      (by decide)
    rw [outputsOf_eq_node t output s hs] at hp
    exact outputsTree_sub output t s hs p (outputPsOfNode_sub_self s hsk p hp)

end MLSpec

namespace MLSpec

open MLSpec.Ext

/-- An accepted ref_to_var candidate is the Variable reference at the
lookup node to a live cell. -/
theorem refToVarAccept_some (t : STree) (heap : List VarDef)
    (name : String) (node : List Nat) (ia : Bool) (pr : Range)
    (vidx : Nat) (r : Ref)
    (h : refToVarAccept t heap name node ia pr vidx = some r) :
    r = ⟨rangeAt t node, name, .var vidx⟩
      ∧ (heap.getD vidx default).cleared = 0 := by
  unfold refToVarAccept at h
  dsimp only at h
  repeat' split at h
  all_goals (try cases h)
  all_goals exact ⟨rfl, by omega⟩

/-- Membership through a fold whose steps only extend the accumulator
with elements satisfying a predicate of the folded item. -/
theorem foldl_mem_pred {α β : Type} (f : List β → α → List β)
    (P : β → α → Prop)
    (hf : ∀ acc a, ∀ r ∈ f acc a, r ∈ acc ∨ P r a) :
    ∀ (l : List α) (acc : List β), ∀ r ∈ l.foldl f acc,
      r ∈ acc ∨ ∃ a ∈ l, P r a := by
  intro l
  induction l with
  | nil => intro acc r hr; exact Or.inl hr
  | cons a l ih =>
    intro acc r hr
    rw [List.foldl_cons] at hr
    rcases ih (f acc a) r hr with h | hp
    · rcases hf acc a r h with h2 | h2
      · exact Or.inl h2
      · exact Or.inr ⟨a, List.mem_cons_self a l, h2⟩
    · obtain ⟨a2, ha2, hp2⟩ := hp
      exact Or.inr ⟨a2, List.mem_cons_of_mem a ha2, hp2⟩

/-- Every reference ref_to_var produces is the Variable reference at
the lookup node to a live in-range cell. -/
theorem rtv_mem (t : STree) (st : ExtState) (scopes : List (List Nat))
    (name : String) (node : List Nat)
    (h4 : ∀ kv ∈ st.functions, ∀ i ∈ kv.2.vars, i < st.heap.length)
    (h5 : ∀ i ∈ st.workspace.vars, i < st.heap.length) :
    ∀ r ∈ ref_to_var t st scopes name node,
      ∃ vidx, r = ⟨rangeAt t node, name, .var vidx⟩
        ∧ vidx < st.heap.length
        ∧ (st.heap.getD vidx default).cleared = 0 := by
  intro r hr
  have heq : ref_to_var t st scopes name node
      = ((scopes.filterMap (fun s => fnsGet st.functions s)).flatMap
            (fun kv => kv.2.vars.reverse)
          ++ (if scopes.isEmpty
                || (scopes.filterMap (fun s => fnsGet st.functions s)).all
                    (fun kv => kindAt t kv.1 == "lambda")
              then st.workspace.vars.reverse else [])).filterMap
          (refToVarAccept t st.heap name node (assignLeftRange t node).1
            (assignLeftRange t node).2) := by
    simp only [ref_to_var]
    rw [foldl_rtvCheck_outer]
    split
    · rw [foldl_rtvCheck]
      simp [List.filterMap_append]
    · simp
  rw [heq, List.mem_filterMap] at hr
  obtain ⟨vidx, hv, hacc⟩ := hr
  obtain ⟨hshape, hcl⟩ := refToVarAccept_some t st.heap name node _ _ vidx
    r hacc
  refine ⟨vidx, hshape, ?_, hcl⟩
  rcases List.mem_append.mp hv with hv | hv
  · rw [List.mem_flatMap] at hv
    obtain ⟨kv, hkv, hvi⟩ := hv
    rw [List.mem_filterMap] at hkv
    obtain ⟨s, _, hfind⟩ := hkv
    have hkvmem : kv ∈ st.functions := List.mem_of_find?_eq_some hfind
    exact h4 kv hkvmem vidx (List.mem_reverse.mp hvi)
  · split at hv
    · exact h5 vidx (List.mem_reverse.mp hv)
    · exact absurd hv (by simp)

/-- Every reference ref_to_fn produces sits at the lookup node and
targets a function. -/
theorem ref_to_fn_target (t : STree) (db : EDB) (st : ExtState)
    (scopes : List (List Nat)) (name : String) (node : List Nat)
    (pkg : Bool) :
    ∀ r ∈ ref_to_fn t db st scopes name node pkg,
      r.loc = rangeAt t node ∧ ∃ f, r.target = RefTarget.fn f := by
  intro r hr
  unfold ref_to_fn at hr
  rw [List.mem_append] at hr
  rcases hr with hr | hr
  · have h2 := foldl_mem_pred
      (fun refs f =>
        if f.2.name == name then refs ++ [⟨rangeAt t node, name, .fn f.2⟩]
        else refs)
      (fun r _ => r.loc = rangeAt t node ∧ ∃ f, r.target = RefTarget.fn f)
      (by
        intro acc a r2 hr2
        dsimp only at hr2
        by_cases hc : (a.2.name == name) = true
        · rw [if_pos hc] at hr2
          rcases List.mem_append.mp hr2 with h | h
          · exact Or.inl h
          · simp at h
            subst h
            exact Or.inr ⟨rfl, a.2, rfl⟩
        · rw [if_neg hc] at hr2
          exact Or.inl hr2)
      st.workspace.functions _ r hr
    rcases h2 with h2 | h2
    · have h3 := foldl_mem_pred
        (fun refs kv =>
          kv.2.functions.foldl
            (fun refs f =>
              if f.2.name == name then
                refs ++ [⟨rangeAt t node, name, .fn f.2⟩]
              else refs) refs)
        (fun r _ => r.loc = rangeAt t node ∧ ∃ f, r.target = RefTarget.fn f)
        (by
          intro acc a r2 hr2
          have h4 := foldl_mem_pred
            (fun refs f =>
              if f.2.name == name then
                refs ++ [⟨rangeAt t node, name, .fn f.2⟩]
              else refs)
            (fun r _ => r.loc = rangeAt t node
              ∧ ∃ f, r.target = RefTarget.fn f)
            (by
              intro acc2 a2 r3 hr3
              dsimp only at hr3
              by_cases hc : (a2.2.name == name) = true
              · rw [if_pos hc] at hr3
                rcases List.mem_append.mp hr3 with h | h
                · exact Or.inl h
                · simp at h
                  subst h
                  exact Or.inr ⟨rfl, a2.2, rfl⟩
              · rw [if_neg hc] at hr3
                exact Or.inl hr3)
            a.2.functions acc r2 hr2
          rcases h4 with h4 | h4
          · exact Or.inl h4
          · obtain ⟨_, _, h5⟩ := h4
            exact Or.inr h5)
        (scopes.filterMap (fun s => fnsGet st.functions s)) [] r h2
      rcases h3 with h3 | h3
      · exact absurd h3 (by simp)
      · obtain ⟨_, _, h4⟩ := h3
        exact h4
    · obtain ⟨_, _, h3⟩ := h2
      exact h3
  · unfold ref_to_fn_in_ws at hr
    have h2 := foldl_mem_pred
      (fun refs kv =>
        if kv.2.name == name && (kv.2.package.isEmpty || pkg) then
          refs ++ [⟨rangeAt t node, name, .fn kv.2⟩]
        else refs)
      (fun r _ => r.loc = rangeAt t node ∧ ∃ f, r.target = RefTarget.fn f)
      (by
        intro acc a r2 hr2
        dsimp only at hr2
        by_cases hc : (a.2.name == name && (a.2.package.isEmpty || pkg))
            = true
        · rw [if_pos hc] at hr2
          rcases List.mem_append.mp hr2 with h | h
          · exact Or.inl h
          · simp at h
            subst h
            exact Or.inr ⟨rfl, a.2, rfl⟩
        · rw [if_neg hc] at hr2
          exact Or.inl hr2)
      db.functions [] r hr
    rcases h2 with h2 | h2
    · exact absurd h2 (by simp)
    · obtain ⟨_, _, h3⟩ := h2
      exact h3

end MLSpec

namespace MLSpec

open MLSpec.Ext

/-- Forgetting a prefix of the remaining action rows weakens the
invariant. -/
theorem inv_drop_list (t : STree) (st : ExtState) (l R : List Nat)
    (h : Inv t st (l ++ R)) : Inv t st R := by
  obtain ⟨h1, h2, h3, h4, h5, h6⟩ := h
  exact ⟨h1,
    fun r hr ρ hρ => h2 r hr ρ (List.mem_append_right l hρ),
    fun j hj ρ hρ => h3 j hj ρ (List.mem_append_right l hρ),
    h4, h5, h6⟩

/-- Forgetting the head action row weakens the invariant. -/
theorem inv_drop_one (t : STree) (st : ExtState) (ρ : Nat) (R : List Nat)
    (h : Inv t st (ρ :: R)) : Inv t st R :=
  inv_drop_list t st [ρ] R h

/-- Reference soundness survives appending a cell to the heap. -/
theorem refOk_append (t : STree) (heap : List VarDef) (d : VarDef)
    (r : Ref) (h : RefOk t heap r) : RefOk t (heap ++ [d]) r := by
  intro i hi
  obtain ⟨h1, h2, h3⟩ := h i hi
  have hg : (heap ++ [d]).getD i default = heap.getD i default := by
    rw [List.getD_append _ _ _ _ h1]
  refine ⟨?_, ?_, ?_⟩
  · simp only [List.length_append, List.length_singleton]
    omega
  · rw [hg]
    exact h2
  · rw [hg]
    exact h3

/-- Reference soundness survives a clear sweep at a row no earlier than
the reference. -/
theorem refOk_clearShape (t : STree) (heap heap2 : List VarDef)
    (row : Nat) (r : Ref) (hcs : ClearShape row heap heap2)
    (hrow : r.loc.start.row ≤ row) (h : RefOk t heap r) :
    RefOk t heap2 r := by
  intro i hi
  obtain ⟨h1, h2, h3⟩ := h i hi
  obtain ⟨hlen, hptw⟩ := hcs
  have hi2 : i < heap2.length := by omega
  rcases hptw i with he | ⟨hl0, he⟩
  · rw [he]
    exact ⟨hi2, h2, h3⟩
  · refine ⟨hi2, ?_, ?_⟩
    · rw [he]
      exact h2
    · rw [he]
      exact Or.inr (Or.inl hrow)

/-- The clear shape is reflexive. -/
theorem clearShape_refl (row : Nat) (heap : List VarDef) :
    ClearShape row heap heap :=
  ⟨rfl, fun _ => Or.inl rfl⟩

/-- The clear shape composes. -/
theorem clearShape_trans (row : Nat) (h1 h2 h3 : List VarDef)
    (ha : ClearShape row h1 h2) (hb : ClearShape row h2 h3) :
    ClearShape row h1 h3 := by
  obtain ⟨hl1, hp1⟩ := ha
  obtain ⟨hl2, hp2⟩ := hb
  refine ⟨hl2.trans hl1, ?_⟩
  intro j
  rcases hp2 j with he2 | ⟨hc2, he2⟩
  · rw [he2]
    exact hp1 j
  · rcases hp1 j with he1 | ⟨hc1, he1⟩
    · rw [he2, he1]
      rw [he1] at hc2
      exact Or.inr ⟨hc2, rfl⟩
    · rw [he2, he1]
      exact Or.inr ⟨hc1, rfl⟩

/-- Setting the cleared row of a live cell has the clear shape. -/
theorem clearShape_setCleared (row : Nat) (heap : List VarDef)
    (vidx : Nat) (hl : (heap.getD vidx default).cleared = 0) :
    ClearShape row heap (setCleared heap vidx row) := by
  refine ⟨setCleared_length heap vidx row, ?_⟩
  intro j
  by_cases hj : j = vidx
  · subst hj
    by_cases hlt : j < heap.length
    · rw [setCleared_getD_self heap j row hlt]
      exact Or.inr ⟨hl, rfl⟩
    · have : heap.get? j = none := by
        rw [List.get?_eq_getElem?, List.getElem?_eq_none]
        omega
      unfold setCleared
      rw [this]
      exact Or.inl rfl
  · rw [setCleared_getD_ne heap vidx row j hj]
    exact Or.inl rfl

/-- The no-argument sweep has the clear shape. -/
theorem clearShape_clearAllLive (row : Nat) :
    ∀ (vidxs : List Nat) (heap : List VarDef),
      ClearShape row heap (clearAllLive heap vidxs row) := by
  intro vidxs
  induction vidxs with
  | nil => intro heap; exact clearShape_refl row heap
  | cons i rest ih =>
    intro heap
    show ClearShape row heap (clearAllLive _ rest row)
    by_cases hc : ((heap.getD i default).cleared == 0
        && !(heap.getD i default).is_global) = true
    · have h0 : (heap.getD i default).cleared = 0 := by
        have := (Bool.and_eq_true _ _).mp hc
        simpa using this.1
      have hstep : ClearShape row heap (setCleared heap i row) :=
        clearShape_setCleared row heap i h0
      have hrest := ih (setCleared heap i row)
      refine clearShape_trans row _ _ _ hstep ?_
      show ClearShape row (setCleared heap i row)
        (clearAllLive _ rest row)
      unfold clearAllLive at hrest ⊢
      simp only [List.foldl_cons]
      rw [show (if (heap.getD i default).cleared == 0
            && !(heap.getD i default).is_global then setCleared heap i row
          else heap) = setCleared heap i row from by rw [if_pos hc]]
      exact hrest
    · have hrest := ih heap
      unfold clearAllLive at hrest ⊢
      simp only [List.foldl_cons]
      rw [show (if (heap.getD i default).cleared == 0
            && !(heap.getD i default).is_global then setCleared heap i row
          else heap) = heap from by rw [if_neg (by simpa using hc)]]
      exact hrest

end MLSpec

namespace MLSpec

open MLSpec.Ext

/-- One pattern-sweep step has the clear shape. -/
theorem clearShape_clearMatchStep (rn : String → Option (String → Bool))
    (del keep : List String) (g : Bool) (row : Nat) (heap : List VarDef)
    (vidx : Nat) :
    ClearShape row heap (clearMatchStep rn del keep g row heap vidx) := by
  unfold clearMatchStep
  dsimp only
  repeat' split
  all_goals first
  | exact clearShape_refl row heap
  | (rename_i hc
     exact clearShape_setCleared row heap vidx
       (by
         have := (Bool.and_eq_true _ _).mp hc
         simpa using this.1))

/-- The pattern sweep over a list of indices has the clear shape. -/
theorem clearShape_clearMatchFold (rn : String → Option (String → Bool))
    (del keep : List String) (g : Bool) (row : Nat) :
    ∀ (L : List Nat) (heap : List VarDef),
      ClearShape row heap (L.foldl (clearMatchStep rn del keep g row) heap) := by
  intro L
  induction L with
  | nil => intro heap; exact clearShape_refl row heap
  | cons i rest ih =>
    intro heap
    rw [List.foldl_cons]
    exact clearShape_trans row _ _ _
      (clearShape_clearMatchStep rn del keep g row heap i)
      (ih (clearMatchStep rn del keep g row heap i))

/-- The no-argument sweep over the scope workspaces has the clear
shape. -/
theorem clearShape_allLiveFold (row : Nat) :
    ∀ (kvs : List (List Nat × Ws)) (heap : List VarDef),
      ClearShape row heap
        (kvs.foldl (fun heap kv => clearAllLive heap kv.2.vars row) heap) := by
  intro kvs
  induction kvs with
  | nil => intro heap; exact clearShape_refl row heap
  | cons kv rest ih =>
    intro heap
    rw [List.foldl_cons]
    exact clearShape_trans row _ _ _
      (clearShape_clearAllLive row kv.2.vars heap)
      (ih (clearAllLive heap kv.2.vars row))

/-- The clear and clearvars handler only rewrites the heap, in the
clear shape at the command row. -/
theorem command_clear_shape (rn : String → Option (String → Bool))
    (t : STree) (st : ExtState) (scopes : List (List Nat)) (icv : Bool)
    (node : List Nat) :
    ClearShape (rangeAt t node).start.row st.heap
        (command_clear rn t st scopes icv node).heap
    ∧ (command_clear rn t st scopes icv node).workspace = st.workspace
    ∧ (command_clear rn t st scopes icv node).functions = st.functions := by
  unfold command_clear
  cases hp : parentOfPath node with
  | none => exact ⟨clearShape_refl _ _, rfl, rfl⟩
  | some parent =>
    dsimp only
    refine ⟨?_, rfl, rfl⟩
    have s1 : ClearShape (rangeAt t node).start.row st.heap
        (if ((namedChildrenPaths t parent).filter
            (fun c => kindAt t c == "command_argument")).isEmpty then
          (if scopes.isEmpty then
            clearAllLive
              ((scopes.filterMap (fun s => fnsGet st.functions s)).foldl
                (fun heap kv => clearAllLive heap kv.2.vars
                  (rangeAt t node).start.row) st.heap)
              st.workspace.vars (rangeAt t node).start.row
          else
            (scopes.filterMap (fun s => fnsGet st.functions s)).foldl
              (fun heap kv => clearAllLive heap kv.2.vars
                (rangeAt t node).start.row) st.heap)
        else st.heap) := by
      split
      · split
        · exact clearShape_trans _ _ _ _
            (clearShape_allLiveFold _ _ st.heap)
            (clearShape_clearAllLive _ st.workspace.vars _)
        · exact clearShape_allLiveFold _ _ st.heap
      · exact clearShape_refl _ _
    refine clearShape_trans _ _ _ _ s1 ?_
    rw [foldl_flatten_eq]
    exact clearShape_clearMatchFold _ _ _ _ _ _ _

/-- C-preservation of the invariant by the clear and clearvars
handler. -/
theorem inv_command_clear (rn : String → Option (String → Bool))
    (t : STree) (st : ExtState) (scopes : List (List Nat)) (icv : Bool)
    (node : List Nat) (ρ : Nat) (R : List Nat)
    (hinv : Inv t st (ρ :: R)) (hrow : (rangeAt t node).start.row = ρ) :
    Inv t (command_clear rn t st scopes icv node) (ρ :: R) := by
  obtain ⟨hcs, hws, hfns⟩ := command_clear_shape rn t st scopes icv node
  rw [hrow] at hcs
  obtain ⟨h1, h2, h3, h4, h5, h6⟩ := hinv
  have hlen := hcs.1
  refine ⟨?_, ?_, ?_, ?_, ?_, ?_⟩
  · intro r hr
    rw [hws] at hr
    exact refOk_clearShape t st.heap _ ρ r hcs
      (h2 r hr ρ (List.mem_cons_self ρ R)) (h1 r hr)
  · intro r hr
    rw [hws] at hr
    exact h2 r hr
  · intro j hj ρ' hρ'
    have hj2 : j < st.heap.length := by omega
    rcases hcs.2 j with he | ⟨hl0, he⟩
    · rw [he]
      exact h3 j hj2 ρ' hρ'
    · rw [he]
      exact h3 j hj2 ρ' hρ'
  · intro kv hkv
    rw [hfns] at hkv
    intro i hi
    rw [hlen]
    exact h4 kv hkv i hi
  · intro i hi
    rw [hws] at hi
    rw [hlen]
    exact h5 i hi
  · intro kv hkv
    rw [hfns] at hkv
    exact h6 kv hkv

/-- Folding a step that keeps heap, workspace variables, references and
function map keeps all four. -/
theorem foldl_preserves {α : Type} (f : ExtState → α → ExtState)
    (hf : ∀ st a, (f st a).heap = st.heap
      ∧ (f st a).workspace.vars = st.workspace.vars
      ∧ (f st a).workspace.references = st.workspace.references
      ∧ (f st a).functions = st.functions) :
    ∀ (l : List α) (st : ExtState),
      (l.foldl f st).heap = st.heap
      ∧ (l.foldl f st).workspace.vars = st.workspace.vars
      ∧ (l.foldl f st).workspace.references = st.workspace.references
      ∧ (l.foldl f st).functions = st.functions := by
  intro l
  induction l with
  | nil => intro st; exact ⟨rfl, rfl, rfl, rfl⟩
  | cons a l ih =>
    intro st
    rw [List.foldl_cons]
    obtain ⟨i1, i2, i3, i4⟩ := ih (f st a)
    obtain ⟨j1, j2, j3, j4⟩ := hf st a
    exact ⟨i1.trans j1, i2.trans j2, i3.trans j3, i4.trans j4⟩

/-- The import handler only rewrites the file workspace function
map. -/
theorem cmd_import_frame (t : STree) (db : EDB) (st : ExtState)
    (node : List Nat) :
    (cmd_import_impl t db st node).heap = st.heap
    ∧ (cmd_import_impl t db st node).workspace.vars = st.workspace.vars
    ∧ (cmd_import_impl t db st node).workspace.references
        = st.workspace.references
    ∧ (cmd_import_impl t db st node).functions = st.functions := by
  unfold cmd_import_impl
  dsimp only
  split
  · apply foldl_preserves
    intro st a
    dsimp only
    split
    · exact ⟨rfl, rfl, rfl, rfl⟩
    · exact ⟨rfl, rfl, rfl, rfl⟩
  · split
    · exact ⟨rfl, rfl, rfl, rfl⟩
    · exact ⟨rfl, rfl, rfl, rfl⟩

/-- Invariance of the invariant under a step that keeps heap, workspace
variables, references and function map. -/
theorem inv_of_frame (t : STree) (st st2 : ExtState) (R : List Nat)
    (hh : st2.heap = st.heap) (hv : st2.workspace.vars = st.workspace.vars)
    (hr : st2.workspace.references = st.workspace.references)
    (hf : st2.functions = st.functions) (hinv : Inv t st R) :
    Inv t st2 R := by
  obtain ⟨h1, h2, h3, h4, h5, h6⟩ := hinv
  refine ⟨?_, ?_, ?_, ?_, ?_, ?_⟩
  · intro r hrm
    rw [hr] at hrm
    rw [hh]
    exact h1 r hrm
  · intro r hrm
    rw [hr] at hrm
    exact h2 r hrm
  · intro j hj
    rw [hh] at hj ⊢
    exact h3 j hj
  · intro kv hkv
    rw [hf] at hkv
    rw [hh]
    exact h4 kv hkv
  · intro i hi
    rw [hv] at hi
    rw [hh]
    exact h5 i hi
  · intro kv hkv
    rw [hf] at hkv
    exact h6 kv hkv

end MLSpec

namespace MLSpec

open MLSpec.Ext

/-- C5 (amended): a clear or clearvars command leaves the workspaces
untouched, keeps the heap length, and only ever rewrites cells by
setting their cleared row to the command row. With no arguments, every
live non-global variable of the active scope workspaces (the file
workspace when the scopes stack is empty) is cleared at the command
row. With arguments, the heap is rewritten pointwise: over
duplicate-free in-range active variable indices, a cell is cleared at
the command row exactly when it is walked, some delete pattern of the
parsed arguments (the non-option tokens, defaulting to the wildcard
star when there are none) matches its name, no keep pattern matches
it, it is live, and it is global only when the token global was
present. -/
theorem c5_clear_pointwise (regexNew : String → Option (String → Bool))
    (t : STree) (st : ExtState) (scopes : List (List Nat))
    (isClearvars : Bool) (node : List Nat)
    (hpar : (parentOfPath node).isSome = true)
    (hnd1 : (clearSweepIdxs st scopes).Nodup)
    (hb1 : ∀ i ∈ clearSweepIdxs st scopes, i < st.heap.length)
    (hnd2 : (clearScopeIdxs st scopes).Nodup)
    (hb2 : ∀ i ∈ clearScopeIdxs st scopes, i < st.heap.length) :
    (command_clear regexNew t st scopes isClearvars node).workspace
        = st.workspace
    ∧ (command_clear regexNew t st scopes isClearvars node).functions
        = st.functions
    ∧ (command_clear regexNew t st scopes isClearvars node).heap.length
        = st.heap.length
    ∧ ClearShape (rangeAt t node).start.row st.heap
        (command_clear regexNew t st scopes isClearvars node).heap
    ∧ (cmdArgsOf t node = [] →
        ∀ j ∈ clearSweepIdxs st scopes,
          (st.heap.getD j default).cleared = 0 →
          (st.heap.getD j default).is_global = false →
          (command_clear regexNew t st scopes isClearvars node).heap.getD
              j default
            = { st.heap.getD j default with
                cleared := (rangeAt t node).start.row })
    ∧ (¬ cmdArgsOf t node = [] →
        ∀ j, (command_clear regexNew t st scopes isClearvars node).heap.getD
            j default
          = if j ∈ clearScopeIdxs st scopes
                ∧ clearCond regexNew (clearDel t isClearvars node)
                    (clearParsed t isClearvars node).keep
                    (clearParsed t isClearvars node).globals
                    (st.heap.getD j default) = true
            then { st.heap.getD j default with
                    cleared := (rangeAt t node).start.row }
            else st.heap.getD j default) := by
  obtain ⟨hcs, hws, hfns⟩ :=
    command_clear_shape regexNew t st scopes isClearvars node
  refine ⟨hws, hfns, hcs.1, hcs, ?_, ?_⟩
  · intro hargs0 j hj hlive hglob
    cases hp : parentOfPath node with
    | none =>
      rw [hp] at hpar
      simp at hpar
    | some parent =>
      simp only [cmdArgsOf, hp] at hargs0
      simp only [command_clear, hp]
      rw [hargs0]
      simp only [List.isEmpty_nil, eq_self_iff_true, if_true]
      rw [clearSweep_eq st scopes (rangeAt t node).start.row]
      rw [foldl_flatten_eq]
      have hidx : ((if ((scopes.filterMap (fun s => fnsGet st.functions s)).map
            (fun kv => kv.2.vars)).isEmpty
          then [st.workspace.vars]
          else (scopes.filterMap (fun s => fnsGet st.functions s)).map
            (fun kv => kv.2.vars)).flatten) = clearScopeIdxs st scopes := by
        simp [clearScopeIdxs]
      rw [hidx]
      obtain ⟨hlen1, hget1⟩ := clearAllLive_getD (rangeAt t node).start.row
        (clearSweepIdxs st scopes) st.heap hnd1 hb1
      have hb2' : ∀ i ∈ clearScopeIdxs st scopes,
          i < ((clearSweepIdxs st scopes).foldl
            (clearLiveStep (rangeAt t node).start.row) st.heap).length := by
        intro i hi
        rw [hlen1]
        exact hb2 i hi
      refine clearFold_fixed regexNew _ _ _ _ _ _ hnd2 hb2' j
        (st.heap.getD j default) ?_
      rw [hget1 j]
      rw [if_pos ⟨hj, by rw [hlive, hglob]; rfl⟩]
  · intro hargs
    exact (command_clear_args_pointwise regexNew t st scopes isClearvars
      node hargs hnd2 hb2).2.2.2

end MLSpec

namespace MLSpec

open MLSpec.Ext

/-- Witness for the amended C5 statement: on the one-variable state,
the hypotheses hold for both example commands; the no-argument clear
of the file x = 1; clear clears the live non-global x at row 1, and
the clear global of the other example clears it at row 1 through the
defaulted wildcard delete pattern. -/
theorem c5_clear_pointwise_witness :
    (cmdArgsOf Ex.t6 [1, 0] = [])
    ∧ (¬ cmdArgsOf Ex.t5 [1, 0] = [])
    ∧ (parentOfPath [1, 0]).isSome = true
    ∧ (clearSweepIdxs Ex.stx []).Nodup
    ∧ (∀ i ∈ clearSweepIdxs Ex.stx [], i < Ex.stx.heap.length)
    ∧ (clearScopeIdxs Ex.stx []).Nodup
    ∧ (∀ i ∈ clearScopeIdxs Ex.stx [], i < Ex.stx.heap.length)
    ∧ (command_clear Ex.globRegex Ex.t6 Ex.stx [] false [1, 0]).heap.getD
          0 default
        = ⟨⟨⟨0, 0⟩, ⟨0, 1⟩⟩, "x", 1, false, false⟩
    ∧ (command_clear Ex.globRegex Ex.t5 Ex.stx [] false [1, 0]).heap.getD
          0 default
        = ⟨⟨⟨0, 0⟩, ⟨0, 1⟩⟩, "x", 1, false, false⟩ := by
  refine ⟨by decide, by decide, by decide, by decide, by decide, by decide,
    by decide, ?_, ?_⟩
  · have h := (c5_clear_pointwise Ex.globRegex Ex.t6 Ex.stx [] false [1, 0]
      (by decide) (by decide) (by decide) (by decide) (by decide)).2.2.2.2.1
      (by decide) 0 (by decide) (by decide) (by decide)
    rw [h]
    decide
  · have h := (c5_clear_pointwise Ex.globRegex Ex.t5 Ex.stx [] false [1, 0]
      (by decide) (by decide) (by decide) (by decide) (by decide)).2.2.2.2.2
      (by decide) 0
    rw [h]
    decide

end MLSpec

namespace MLSpec

open MLSpec.Ext

/-- Pushing a sound reference at the head action row preserves the
invariant. -/
theorem inv_pushRef (t : STree) (st : ExtState) (ρ : Nat) (R : List Nat)
    (r : Ref) (hinv : Inv t st (ρ :: R))
    (hp : List.Pairwise (· ≤ ·) (ρ :: R))
    (hrow : r.loc.start.row = ρ) (hok : RefOk t st.heap r) :
    Inv t (pushRef st r) (ρ :: R) := by
  obtain ⟨h1, h2, h3, h4, h5, h6⟩ := hinv
  have hple : ∀ ρ' ∈ R, ρ ≤ ρ' := (List.pairwise_cons.mp hp).1
  refine ⟨?_, ?_, h3, h4, h5, h6⟩
  · intro r2 hr2
    simp only [pushRef] at hr2
    rcases List.mem_append.mp hr2 with h | h
    · exact h1 r2 h
    · simp at h
      subst h
      exact hok
  · intro r2 hr2 ρ' hρ'
    simp only [pushRef] at hr2
    rcases List.mem_append.mp hr2 with h | h
    · exact h2 r2 h ρ' hρ'
    · simp at h
      subst h
      rw [hrow]
      rcases List.mem_cons.mp hρ' with h | h
      · omega
      · exact hple ρ' h

/-- Any reference ref_to_var yields at a node is sound for the current
heap when every cell starts no later than the node row. -/
theorem refOk_of_rtv (t : STree) (st : ExtState)
    (scopes : List (List Nat)) (name : String) (node : List Nat) (r : Ref)
    (h3 : ∀ j, j < st.heap.length →
      (st.heap.getD j default).loc.start.row ≤ (rangeAt t node).start.row)
    (h4 : ∀ kv ∈ st.functions, ∀ i ∈ kv.2.vars, i < st.heap.length)
    (h5 : ∀ i ∈ st.workspace.vars, i < st.heap.length)
    (hr : r ∈ ref_to_var t st scopes name node) :
    RefOk t st.heap r := by
  obtain ⟨vidx, hshape, hlt, hcl⟩ := rtv_mem t st scopes name node h4 h5 r hr
  subst hshape
  intro i hi
  injection hi with hi
  subst hi
  exact ⟨hlt, h3 vidx hlt, Or.inl hcl⟩

/-- The output-parameter special case always lands on an in-range cell
whose location contains an output position of the tree. -/
theorem defVarSpecial_some (t : STree) (st : ExtState)
    (scopes : List (List Nat)) (name : String) (node : List Nat)
    (vidx : Nat)
    (h4 : ∀ kv ∈ st.functions, ∀ i ∈ kv.2.vars, i < st.heap.length)
    (hsp : defVarSpecial t st scopes name node = some vidx) :
    vidx < st.heap.length
      ∧ ∃ q ∈ outputPositionsTree t,
          ((st.heap.getD vidx default).loc.containsB q) = true := by
  unfold defVarSpecial at hsp
  cases hpf : parent_function t node with
  | none => rw [hpf] at hsp; cases hsp
  | some parent =>
    rw [hpf] at hsp
    obtain ⟨p, hpmem, hfp⟩ := List.exists_of_findSome?_eq_some hsp
    unfold defVarSpecialCand at hfp
    cases hh : scopes.head? with
    | none => simp [hh] at hfp
    | some scope =>
      simp only [hh] at hfp
      cases hfg : fnsGet st.functions scope with
      | none => simp [hfg] at hfp
      | some kv =>
        simp only [hfg] at hfp
        obtain ⟨i, himem, hgi⟩ := List.exists_of_findSome?_eq_some hfp
        try dsimp only at hgi
        by_cases hc : ((st.heap.getD i default).name == name
            && (st.heap.getD i default).loc.containsB p) = true
        · rw [if_pos hc] at hgi
          injection hgi with hgi
          subst hgi
          have hkv : kv ∈ st.functions := List.mem_of_find?_eq_some hfg
          refine ⟨h4 kv hkv i himem, p, outputsOf_sub t parent p hpmem,
            ?_⟩
          exact ((Bool.and_eq_true _ _).mp hc).2
        · rw [if_neg hc] at hgi
          cases hgi

/-- Appending a fresh cell at the head action row preserves the
invariant. -/
theorem inv_heap_append (t : STree) (st : ExtState) (d : VarDef)
    (ρ : Nat) (R : List Nat) (hinv : Inv t st (ρ :: R))
    (hp : List.Pairwise (· ≤ ·) (ρ :: R))
    (hdrow : d.loc.start.row = ρ) :
    Inv t { st with heap := st.heap ++ [d] } (ρ :: R) := by
  obtain ⟨h1, h2, h3, h4, h5, h6⟩ := hinv
  have hple : ∀ ρ' ∈ R, ρ ≤ ρ' := (List.pairwise_cons.mp hp).1
  refine ⟨?_, h2, ?_, ?_, ?_, h6⟩
  · intro r hr
    exact refOk_append t st.heap d r (h1 r hr)
  · intro j hj ρ' hρ'
    simp only [List.length_append, List.length_singleton] at hj
    by_cases hlt : j < st.heap.length
    · rw [List.getD_append _ _ _ _ hlt]
      exact h3 j hlt ρ' hρ'
    · have hje : j = st.heap.length := by omega
      subst hje
      have hg : (st.heap ++ [d]).getD st.heap.length default = d := by
        simp [List.getD]
      rw [hg, hdrow]
      rcases List.mem_cons.mp hρ' with h | h
      · omega
      · exact hple ρ' h
  · intro kv hkv i hi
    have := h4 kv hkv i hi
    simp only [List.length_append, List.length_singleton]
    omega
  · intro i hi
    have := h5 i hi
    simp only [List.length_append, List.length_singleton]
    omega

/-- Recording a valid index in the file workspace preserves the
invariant. -/
theorem inv_ws_var_append (t : STree) (st : ExtState) (i : Nat)
    (R : List Nat) (hinv : Inv t st R) (hi : i < st.heap.length) :
    Inv t { st with workspace :=
      { st.workspace with vars := st.workspace.vars ++ [i] } } R := by
  obtain ⟨h1, h2, h3, h4, h5, h6⟩ := hinv
  refine ⟨h1, h2, h3, h4, ?_, h6⟩
  intro i2 hi2
  rcases List.mem_append.mp hi2 with h | h
  · exact h5 i2 h
  · simp at h
    subst h
    exact hi

/-- Recording a valid index in a scope workspace preserves the
invariant. -/
theorem inv_fn_var_append (t : STree) (st : ExtState)
    (scope : List Nat) (kv : List Nat × Ws) (i : Nat) (R : List Nat)
    (hinv : Inv t st R) (hfg : fnsGet st.functions scope = some kv)
    (hi : i < st.heap.length) :
    Inv t { st with functions := (fnsSet st.functions scope
      { kv.2 with vars := kv.2.vars ++ [i] }) } R := by
  obtain ⟨h1, h2, h3, h4, h5, h6⟩ := hinv
  have hkv : kv ∈ st.functions := List.mem_of_find?_eq_some hfg
  refine ⟨h1, h2, h3, ?_, h5, ?_⟩
  · intro kv2 hkv2 i2 hi2
    unfold fnsSet at hkv2
    rw [List.mem_map] at hkv2
    obtain ⟨kv0, hkv0, hkv0e⟩ := hkv2
    by_cases hc : (kv0.1 == scope) = true
    · rw [if_pos hc] at hkv0e
      subst hkv0e
      dsimp only at hi2
      rcases List.mem_append.mp hi2 with h | h
      · exact h4 kv hkv i2 h
      · simp at h
        subst h
        exact hi
    · rw [if_neg hc] at hkv0e
      subst hkv0e
      exact h4 kv0 hkv0 i2 hi2
  · intro kv2 hkv2
    unfold fnsSet at hkv2
    rw [List.mem_map] at hkv2
    obtain ⟨kv0, hkv0, hkv0e⟩ := hkv2
    by_cases hc : (kv0.1 == scope) = true
    · rw [if_pos hc] at hkv0e
      subst hkv0e
      exact h6 kv hkv
    · rw [if_neg hc] at hkv0e
      subst hkv0e
      exact h6 kv0 hkv0

end MLSpec

namespace MLSpec

open MLSpec.Ext

/-- def_var preserves the invariant at its node's action row. -/
theorem inv_def_var (t : STree) (st : ExtState)
    (scopes : List (List Nat)) (name : String) (node : List Nat)
    (ρ : Nat) (R : List Nat) (hinv : Inv t st (ρ :: R))
    (hp : List.Pairwise (· ≤ ·) (ρ :: R))
    (hrow : (rangeAt t node).start.row = ρ) :
    Inv t (def_var t st scopes name node) (ρ :: R) := by
  have h3 := hinv.2.2.1
  have h4 := hinv.2.2.2.1
  have h5 := hinv.2.2.2.2.1
  unfold def_var
  cases hsp : defVarSpecial t st scopes name node with
  | some vidx =>
    obtain ⟨hlt, q, hq, hcont⟩ :=
      defVarSpecial_some t st scopes name node vidx h4 hsp
    apply inv_pushRef t st ρ R _ hinv hp hrow
    intro i hi
    injection hi with hi
    subst hi
    refine ⟨hlt, ?_, Or.inr (Or.inr ⟨q, hq, hcont⟩)⟩
    show (st.heap.getD vidx default).loc.start.row
      ≤ (rangeAt t node).start.row
    rw [hrow]
    exact h3 vidx hlt ρ (List.mem_cons_self ρ R)
  | none =>
    dsimp only
    by_cases hfc : ((parent_of_kind t "function_call" node).isSome
        && !(ref_to_var t st scopes name node).isEmpty) = true
    · rw [if_pos hfc]
      exact hinv
    · rw [if_neg hfc]
      by_cases hss : ((soft_scope_parent t node).isSome
          && !(ref_to_var t st scopes name node).isEmpty) = true
      · rw [if_pos hss]
        have hne : ¬ ref_to_var t st scopes name node = [] := by
          intro h0
          rw [h0] at hss
          simp at hss
        have hmem : (ref_to_var t st scopes name node).headD default
            ∈ ref_to_var t st scopes name node := by
          cases hrv : ref_to_var t st scopes name node with
          | nil => exact absurd hrv hne
          | cons a l => simp
        obtain ⟨vidx, hsh, _, _⟩ :=
          rtv_mem t st scopes name node h4 h5 _ hmem
        apply inv_pushRef t st ρ R _ hinv hp
        · rw [hsh]
          exact hrow
        · apply refOk_of_rtv t st scopes name node _ ?_ h4 h5 hmem
          intro j hj
          rw [hrow]
          exact h3 j hj ρ (List.mem_cons_self ρ R)
      · rw [if_neg hss]
        try dsimp only
        have hinv1 := inv_heap_append t st
          ⟨rangeAt t node, name, 0,
            (parent_of_kind t "function_output" node).isSome
              || (parent_of_kind t "function_arguments" node).isSome,
            (parent_of_kind t "global_operator" node).isSome⟩
          ρ R hinv hp hrow
        cases hh : scopes.head? with
        | none =>
          simp only [hh]
          exact inv_ws_var_append t _ st.heap.length (ρ :: R) hinv1
            (by simp)
        | some scope =>
          simp only [hh]
          cases hfg : fnsGet st.functions scope with
          | none =>
            simp only [hfg]
            exact hinv1
          | some kv =>
            simp only [hfg]
            exact inv_fn_var_append t _ scope kv st.heap.length (ρ :: R)
              hinv1 hfg (by simp)

end MLSpec

namespace MLSpec

open MLSpec.Ext

/-- A reference that does not target a variable is vacuously sound. -/
theorem refOk_nonvar (t : STree) (heap : List VarDef) (r : Ref)
    (h : ∀ i, ¬ r.target = RefTarget.var i) : RefOk t heap r :=
  fun i hi => absurd hi (h i)

/-- The head of a list is a member. -/
theorem head?_mem {α : Type} {l : List α} {a : α} (h : l.head? = some a) :
    a ∈ l := by
  cases l with
  | nil => cases h
  | cons x xs =>
    injection h with h
    subst h
    exact List.mem_cons_self x xs

/-- The identifier handler preserves the invariant at its node's
action row. -/
theorem inv_identifier (t : STree) (st : ExtState)
    (scopes : List (List Nat)) (name : String) (node : List Nat)
    (ρ : Nat) (R : List Nat) (hinv : Inv t st (ρ :: R))
    (hp : List.Pairwise (· ≤ ·) (ρ :: R))
    (hrow : (rangeAt t node).start.row = ρ) :
    Inv t (identifier_capture t st scopes name node) (ρ :: R) := by
  have h3 := hinv.2.2.1
  have h4 := hinv.2.2.2.1
  have h5 := hinv.2.2.2.2.1
  unfold identifier_capture
  dsimp only
  split
  · exact hinv
  · split
    · exact hinv
    · split
      · rename_i v heq
        have hv := head?_mem heq
        have hstep := foldl_mem_pred _ (fun (r a : Ref) => r = a)
          (by
            intro acc a r2 hr2
            try dsimp only at hr2
            repeat' split at hr2
            all_goals first
            | exact Or.inl hr2
            | (rcases List.mem_append.mp hr2 with h | h
               · exact Or.inl h
               · simp at h
                 subst h
                 exact Or.inr rfl))
          (ref_to_var t st scopes name node) [] v hv
        have hvr : v ∈ ref_to_var t st scopes name node := by
          rcases hstep with h | ⟨a, ha, he⟩
          · exact absurd h (by simp)
          · subst he
            exact ha
        obtain ⟨vidx, hsh, _, _⟩ :=
          rtv_mem t st scopes name node h4 h5 v hvr
        apply inv_pushRef t st ρ R v hinv hp
        · rw [hsh]
          exact hrow
        · apply refOk_of_rtv t st scopes name node v ?_ h4 h5 hvr
          intro j hj
          rw [hrow]
          exact h3 j hj ρ (List.mem_cons_self ρ R)
      · apply inv_pushRef t st ρ R _ hinv hp hrow
        exact refOk_nonvar t st.heap _ (fun i => by simp)

/-- The function-call handler preserves the invariant at its name
node's action row. -/
theorem inv_fncall (t : STree) (db : EDB) (st : ExtState)
    (scopes : List (List Nat)) (node : List Nat) (R : List Nat)
    (hinv : Inv t st
      (((actionNodes t ⟨.fncall, node⟩).map
        (fun p => (rangeAt t p).start.row)) ++ R))
    (hp : List.Pairwise (· ≤ ·)
      (((actionNodes t ⟨.fncall, node⟩).map
        (fun p => (rangeAt t p).start.row)) ++ R)) :
    Inv t (fncall_capture_impl t db st scopes node) R := by
  unfold fncall_capture_impl
  dsimp only
  split
  · exact inv_drop_list t st _ R hinv
  · cases hcb : childByField t node "name" with
    | none =>
      simp only [hcb]
      exact inv_drop_list t st _ R hinv
    | some name_node =>
      simp only [hcb]
      have hrows : (actionNodes t ⟨.fncall, node⟩).map
          (fun p => (rangeAt t p).start.row)
          = [(rangeAt t name_node).start.row] := by
        simp [actionNodes, hcb]
      rw [hrows] at hinv hp
      have hinv2 : Inv t st ((rangeAt t name_node).start.row :: R) := hinv
      have hp2 : List.Pairwise (· ≤ ·)
          ((rangeAt t name_node).start.row :: R) := hp
      have h3 := hinv2.2.2.1
      have h4 := hinv2.2.2.2.1
      have h5 := hinv2.2.2.2.2.1
      split
      · split
        · rename_i v heq
          have hv := head?_mem heq
          obtain ⟨vidx, hsh, _, _⟩ :=
            rtv_mem t st scopes (textAt t name_node) name_node h4 h5 v hv
          apply inv_drop_one t _ _ R
          apply inv_pushRef t st _ R v hinv2 hp2
          · rw [hsh]
          · apply refOk_of_rtv t st scopes (textAt t name_node) name_node
              v ?_ h4 h5 hv
            intro j hj
            exact h3 j hj _ (List.mem_cons_self _ R)
        · split
          · rename_i fref heq
            have hf := head?_mem heq
            obtain ⟨hloc, f, hft⟩ := ref_to_fn_target t db st scopes
              (textAt t name_node) name_node false fref hf
            apply inv_drop_one t _ _ R
            apply inv_pushRef t st _ R fref hinv2 hp2
            · rw [hloc]
            · exact refOk_nonvar t st.heap fref
                (fun i => by rw [hft]; simp)
          · split
            · apply inv_drop_one t _ _ R
              apply inv_pushRef t st _ R _ hinv2 hp2 rfl
              exact refOk_nonvar t st.heap _ (fun i => by simp)
            · exact inv_drop_one t st _ R hinv2
      · exact inv_drop_one t st _ R hinv2

end MLSpec

namespace MLSpec

open MLSpec.Ext

/-- Defining a variable at each node of a list, in row order,
preserves the invariant. -/
theorem inv_defVar_fold (t : STree) (scopes : List (List Nat))
    (f : List Nat → String) :
    ∀ (nodes : List (List Nat)) (st : ExtState) (R : List Nat),
      Inv t st ((nodes.map (fun a => (rangeAt t a).start.row)) ++ R) →
      List.Pairwise (· ≤ ·)
        ((nodes.map (fun a => (rangeAt t a).start.row)) ++ R) →
      Inv t (nodes.foldl (fun st arg => def_var t st scopes (f arg) arg) st)
        R := by
  intro nodes
  induction nodes with
  | nil => intro st R hinv _; exact hinv
  | cons arg rest ih =>
    intro st R hinv hp
    rw [List.foldl_cons]
    apply ih (def_var t st scopes (f arg) arg) R
    · exact inv_drop_one t _ _ _
        (inv_def_var t st scopes (f arg) arg _ _ hinv hp rfl)
    · exact hp.of_cons
  
/-- The syms argument walk preserves the invariant. -/
theorem inv_symsGo (t : STree) (scopes : List (List Nat)) (n : Nat) :
    ∀ (args : List (List Nat)) (i : Nat) (st : ExtState) (R : List Nat),
      Inv t st ((args.map (fun a => (rangeAt t a).start.row)) ++ R) →
      List.Pairwise (· ≤ ·)
        ((args.map (fun a => (rangeAt t a).start.row)) ++ R) →
      Inv t (symsGo t scopes n args i st) R := by
  intro args
  induction args with
  | nil => intro i st R hinv _; exact hinv
  | cons arg rest ih =>
    intro i st R hinv hp
    unfold symsGo
    dsimp only
    split
    · exact inv_drop_list t st _ R hinv
    · split
      · apply ih (i + 1) (def_var t st scopes (textAt t arg) arg) R
        · exact inv_drop_one t _ _ _
            (inv_def_var t st scopes (textAt t arg) arg _ _ hinv hp rfl)
        · exact hp.of_cons
      · exact inv_drop_list t st _ R hinv

/-- The command handler preserves the invariant over its action
rows. -/
theorem inv_command (rn : String → Option (String → Bool)) (t : STree)
    (db : EDB) (st : ExtState) (scopes : List (List Nat))
    (node : List Nat) (R : List Nat)
    (hinv : Inv t st
      (((actionNodes t ⟨.command, node⟩).map
        (fun p => (rangeAt t p).start.row)) ++ R))
    (hp : List.Pairwise (· ≤ ·)
      (((actionNodes t ⟨.command, node⟩).map
        (fun p => (rangeAt t p).start.row)) ++ R)) :
    Inv t (command_capture_impl rn t db st scopes (textAt t node) node)
      R := by
  unfold command_capture_impl
  split
  · rename_i heq
    have hrows : actionNodes t ⟨.command, node⟩ = node :: cmdArgsOf t node
        := by simp [actionNodes, heq]
    rw [hrows] at hinv hp
    cases hpp : parentOfPath node with
    | none => exact inv_drop_list t st _ R hinv
    | some parent =>
      have hargs : (namedChildrenPaths t parent).filter
          (fun c => kindAt t c == "command_argument") = cmdArgsOf t node
          := by simp [cmdArgsOf, hpp]
      dsimp only
      rw [hargs]
      have hinv1 : Inv t st
          (((cmdArgsOf t node).map (fun a => (rangeAt t a).start.row))
            ++ R) := inv_drop_one t st _ _ hinv
      have hp1 := hp.of_cons
      have hinv2 : Inv t st ((((cmdArgsOf t node).take 1).map
            (fun a => (rangeAt t a).start.row))
          ++ ((((cmdArgsOf t node).drop 1).map
            (fun a => (rangeAt t a).start.row)) ++ R)) := by
        rw [← List.append_assoc, ← List.map_append, List.take_append_drop]
        exact hinv1
      have hp2 : List.Pairwise (· ≤ ·)
          ((((cmdArgsOf t node).take 1).map
            (fun a => (rangeAt t a).start.row))
          ++ ((((cmdArgsOf t node).drop 1).map
            (fun a => (rangeAt t a).start.row)) ++ R)) := by
        rw [← List.append_assoc, ← List.map_append, List.take_append_drop]
        exact hp1
      exact inv_defVar_fold t scopes (fun a => textAt t a)
        ((cmdArgsOf t node).drop 1) st R
        (inv_drop_list t st _ _ hinv2)
        (hp2.sublist (List.sublist_append_right _ _))
  · rename_i heq
    cases hpp : parentOfPath node with
    | none => exact inv_drop_list t st _ R hinv
    | some parent =>
      have hfr := foldl_preserves (fun st arg => cmd_import_impl t db st arg)
        (fun st a => cmd_import_frame t db st a)
        ((namedChildrenPaths t parent).filter
          (fun c => kindAt t c == "command_argument")) st
      exact inv_of_frame t st _ R hfr.1 hfr.2.1 hfr.2.2.1 hfr.2.2.2
        (inv_drop_list t st _ R hinv)
  · rename_i heq
    have hrows : actionNodes t ⟨.command, node⟩ = [node] := by
      simp [actionNodes, heq]
    rw [hrows] at hinv hp
    exact inv_drop_one t _ _ R
      (inv_command_clear rn t st scopes false node _ R hinv rfl)
  · rename_i heq
    have hrows : actionNodes t ⟨.command, node⟩ = [node] := by
      simp [actionNodes, heq]
    rw [hrows] at hinv hp
    exact inv_drop_one t _ _ R
      (inv_command_clear rn t st scopes true node _ R hinv rfl)
  · rename_i heq
    have hrows : actionNodes t ⟨.command, node⟩ = node :: cmdArgsOf t node
        := by simp [actionNodes, heq]
    rw [hrows] at hinv hp
    cases hpp : parentOfPath node with
    | none => exact inv_drop_list t st _ R hinv
    | some parent =>
      have hargs : (namedChildrenPaths t parent).filter
          (fun c => kindAt t c == "command_argument") = cmdArgsOf t node
          := by simp [cmdArgsOf, hpp]
      dsimp only
      rw [hargs]
      exact inv_symsGo t scopes (cmdArgsOf t node).length
        (cmdArgsOf t node) 0 st R (inv_drop_one t st _ _ hinv) hp.of_cons
  · rename_i h1 h2 h3 h4 h5
    have hrows : actionNodes t ⟨.command, node⟩ = [node] := by
      simp [actionNodes, h1, h2, h3, h4, h5]
    rw [hrows] at hinv hp
    split
    · exact inv_drop_one t _ _ R
        (inv_pushRef t st _ R _ hinv hp rfl
          (refOk_nonvar t st.heap _ (fun i => by simp)))
    · split
      · rename_i fref heq2
        have hf := head?_mem heq2
        obtain ⟨hloc, f, hft⟩ := ref_to_fn_target t db st scopes
          (textAt t node) node false fref hf
        apply inv_drop_one t _ _ R
        apply inv_pushRef t st _ R fref hinv hp
        · rw [hloc]
        · exact refOk_nonvar t st.heap fref (fun i => by rw [hft]; simp)
      · exact inv_drop_one t st _ R hinv

end MLSpec

namespace MLSpec

open MLSpec.Ext

/-- The dotted-chain walk of the field handler preserves the invariant
over the rows of the remaining chain nodes. -/
theorem inv_fieldLoop (t : STree) (db : EDB) (scopes : List (List Nat))
    (fieldsAll : List (String × List Nat)) (is_def : Bool) :
    ∀ (rest : List (String × List Nat)) (i : Nat) (ip : Bool)
      (cns : Option String) (st : ExtState) (R : List Nat),
      Inv t st ((rest.map (fun nf => (rangeAt t nf.2).start.row)) ++ R) →
      List.Pairwise (· ≤ ·)
        ((rest.map (fun nf => (rangeAt t nf.2).start.row)) ++ R) →
      Inv t (fieldLoop t db scopes fieldsAll is_def rest i ip cns st) R := by
  intro rest
  induction rest with
  | nil => intro i ip cns st R hinv hp; exact hinv
  | cons nf rest ih =>
    obtain ⟨name, field⟩ := nf
    intro i ip cns st R hinv hp
    have hinvc : Inv t st ((rangeAt t field).start.row
        :: ((rest.map (fun nf => (rangeAt t nf.2).start.row)) ++ R)) := hinv
    have hpc : List.Pairwise (· ≤ ·) ((rangeAt t field).start.row
        :: ((rest.map (fun nf => (rangeAt t nf.2).start.row)) ++ R)) := hp
    have h3 := hinvc.2.2.1
    have h4 := hinvc.2.2.2.1
    have h5 := hinvc.2.2.2.2.1
    have hRecur : ∀ (ip' : Bool) (cns' : Option String) st',
        Inv t st' ((rangeAt t field).start.row
          :: ((rest.map (fun nf => (rangeAt t nf.2).start.row)) ++ R)) →
        Inv t (fieldLoop t db scopes fieldsAll is_def rest (i + 1) ip' cns'
          st') R :=
      fun ip' cns' st' h => ih (i + 1) ip' cns' st' R
        (inv_drop_one t st' _ _ h) hpc.of_cons
    have hStop : ∀ st', Inv t st' ((rangeAt t field).start.row
        :: ((rest.map (fun nf => (rangeAt t nf.2).start.row)) ++ R)) →
        Inv t st' R :=
      fun st' h => inv_drop_list t st'
        ((rangeAt t field).start.row
          :: (rest.map (fun (nf : String × List Nat) =>
            (rangeAt t nf.2).start.row))) R h
    have hPushVar : ∀ (p : String) (v : Ref),
        (ref_to_var t st scopes p field).head? = some v →
        Inv t (pushRef st v) ((rangeAt t field).start.row
          :: ((rest.map (fun nf => (rangeAt t nf.2).start.row)) ++ R)) := by
      intro p v heq
      have hv := head?_mem heq
      obtain ⟨vidx, hsh, _, _⟩ := rtv_mem t st scopes p field h4 h5 v hv
      apply inv_pushRef t st _ _ v hinvc hpc
      · rw [hsh]
      · apply refOk_of_rtv t st scopes p field v ?_ h4 h5 hv
        intro j hj
        exact h3 j hj _ (List.mem_cons_self _ _)
    have hPushOther : ∀ (p : String) (tg : RefTarget),
        (∀ idx, ¬ tg = RefTarget.var idx) →
        Inv t (pushRef st ⟨rangeAt t field, p, tg⟩)
          ((rangeAt t field).start.row
            :: ((rest.map (fun nf => (rangeAt t nf.2).start.row)) ++ R)) := by
      intro p tg htg
      apply inv_pushRef t st _ _ _ hinvc hpc rfl
      exact refOk_nonvar t st.heap _ htg
    unfold fieldLoop
    dsimp only
    generalize joinDot (List.map (fun nf => nf.1)
      (List.take (i + 1) fieldsAll)) = pathv
    by_cases hdef : is_def = true
    · rw [if_pos hdef]
      cases hh : (ref_to_var t st scopes pathv field).head? with
      | some v =>
        simp only [hh]
        exact hRecur _ _ _ (hPushVar pathv v hh)
      | none =>
        simp only [hh]
        have hst1 : Inv t
            (if i > 0 then
              pushRef st ⟨rangeAt t field, pathv, RefTarget.unknownVariable⟩
            else st)
            ((rangeAt t field).start.row
              :: ((rest.map (fun nf => (rangeAt t nf.2).start.row)) ++ R))
            := by
          split
          · exact hPushOther pathv RefTarget.unknownVariable
              (fun idx => by simp)
          · exact hinvc
        apply hRecur
        split
        · exact inv_def_var t _ scopes pathv field _ _ hst1 hpc rfl
        · exact hst1
    · rw [if_neg hdef]
      generalize (if (i == 0) = true then
          ((ref_to_var t st scopes pathv field).head?).isNone
        else ip) = ipk
      by_cases hpk : ipk = true
      · rw [if_pos hpk]
        cases hcns : cns with
        | some ns0 =>
          cases hpp : parentOfPath field with
          | none => exact hStop st hinvc
          | some parent =>
            dsimp only
            by_cases hkind : (kindAt t parent == "function_call") = true
            · rw [if_pos hkind]
              cases hdbf : db_get_function db pathv with
              | some f_def =>
                simp only [hdbf]
                exact hRecur _ _ _ (hPushOther pathv (RefTarget.fn f_def)
                  (fun idx => by simp))
              | none =>
                simp only [hdbf]
                exact hStop _ (hPushOther pathv RefTarget.unknownFunction
                  (fun idx => by simp))
            · rw [if_neg hkind]
              cases hws : minByLen (db_get_package db
                  (stripDotE (ns0 ++ "." ++ name))) with
              | some ws0 =>
                simp only [hws]
                exact hRecur _ _ _ (hPushOther pathv (RefTarget.ns ws0)
                  (fun idx => by simp))
              | none =>
                simp only [hws]
                exact hStop _ (hPushOther pathv RefTarget.unknownVariable
                  (fun idx => by simp))
        | none =>
          cases hmin : minByLen (db_get_package db name) with
          | some ns0 =>
            simp only [hmin]
            exact hRecur _ _ _ (hPushOther pathv (RefTarget.ns ns0)
              (fun idx => by simp))
          | none =>
            simp only [hmin]
            exact hStop st hinvc
      · rw [if_neg hpk]
        cases hh : (ref_to_var t st scopes pathv field).head? with
        | some v =>
          simp only [hh]
          exact hRecur _ _ _ (hPushVar pathv v hh)
        | none =>
          simp only [hh]
          exact hRecur _ _ _
            (hPushOther pathv RefTarget.unknownVariable
              (fun idx => by simp))

end MLSpec

namespace MLSpec

open MLSpec.Ext

/-- The field handler preserves the invariant over its action rows. -/
theorem inv_field (t : STree) (db : EDB) (st : ExtState)
    (scopes : List (List Nat)) (node : List Nat) (R : List Nat)
    (hinv : Inv t st
      (((actionNodes t ⟨.field, node⟩).map
        (fun p => (rangeAt t p).start.row)) ++ R))
    (hp : List.Pairwise (· ≤ ·)
      (((actionNodes t ⟨.field, node⟩).map
        (fun p => (rangeAt t p).start.row)) ++ R)) :
    Inv t (field_capture_impl t db st scopes node) R := by
  unfold field_capture_impl
  dsimp only
  cases hob : childByField t node "object" with
  | none =>
    simp only [hob]
    exact inv_drop_list t st _ R hinv
  | some object =>
    simp only [hob]
    by_cases hkind : (kindAt t object == "function_call") = true
    · rw [if_pos hkind]
      cases hnm : childByField t object "name" with
      | none =>
        simp only [hnm]
        exact inv_drop_list t st _ R hinv
      | some name_node =>
        simp only [hnm]
        have hrows : actionNodes t ⟨.field, node⟩ = [name_node] := by
          simp [actionNodes, hob, hkind, hnm]
        rw [hrows] at hinv hp
        by_cases hid : (kindAt t name_node == "identifier") = true
        · rw [if_pos hid]
          have h3 := hinv.2.2.1
          have h4 := hinv.2.2.2.1
          have h5 := hinv.2.2.2.2.1
          have hpush : Inv t
              (match (ref_to_var t st scopes (textAt t name_node) name_node
                  ++ ref_to_fn t db st scopes (textAt t name_node)
                    name_node false).head? with
                | some v => pushRef st v
                | none => st)
              ((rangeAt t name_node).start.row :: R) := by
            cases hhd : (ref_to_var t st scopes (textAt t name_node)
                name_node
                ++ ref_to_fn t db st scopes (textAt t name_node)
                  name_node false).head? with
            | none =>
              simp only [hhd]
              exact hinv
            | some v =>
              simp only [hhd]
              have hv := head?_mem hhd
              rcases List.mem_append.mp hv with hvv | hvf
              · obtain ⟨vidx, hsh, _, _⟩ := rtv_mem t st scopes
                  (textAt t name_node) name_node h4 h5 v hvv
                apply inv_pushRef t st _ R v hinv hp
                · rw [hsh]
                · apply refOk_of_rtv t st scopes (textAt t name_node)
                    name_node v ?_ h4 h5 hvv
                  intro j hj
                  exact h3 j hj _ (List.mem_cons_self _ _)
              · obtain ⟨hloc, f, hft⟩ := ref_to_fn_target t db st scopes
                  (textAt t name_node) name_node false v hvf
                apply inv_pushRef t st _ R v hinv hp
                · rw [hloc]
                · exact refOk_nonvar t st.heap v
                    (fun i => by rw [hft]; simp)
          split
          · exact inv_drop_one t _ _ R
              (inv_def_var t _ scopes (textAt t name_node) name_node _ R
                hpush hp rfl)
          · exact inv_drop_one t _ _ R hpush
        · rw [if_neg hid]
          exact inv_drop_one t st _ R hinv
    · rw [if_neg hkind]
      have hrows : actionNodes t ⟨.field, node⟩
          = object :: (collectFields t (rangeAt t node).start.row
              (childrenByField t node "field")).map (fun nf => nf.2) := by
        simp [actionNodes, hob, hkind]
      rw [hrows] at hinv hp
      apply inv_fieldLoop t db scopes _ _ _ 0 false none st R
      · have hmapeq : (((textAt t object, object)
            :: collectFields t (rangeAt t node).start.row
              (childrenByField t node "field")).map
              (fun nf => (rangeAt t nf.2).start.row))
            = ((object :: (collectFields t (rangeAt t node).start.row
                (childrenByField t node "field")).map (fun nf => nf.2)).map
              (fun p => (rangeAt t p).start.row)) := by
          simp [List.map_map, Function.comp]
        rw [hmapeq]
        exact hinv
      · have hmapeq : (((textAt t object, object)
            :: collectFields t (rangeAt t node).start.row
              (childrenByField t node "field")).map
              (fun nf => (rangeAt t nf.2).start.row))
            = ((object :: (collectFields t (rangeAt t node).start.row
                (childrenByField t node "field")).map (fun nf => nf.2)).map
              (fun p => (rangeAt t p).start.row)) := by
          simp [List.map_map, Function.comp]
        rw [hmapeq]
        exact hp

end MLSpec

namespace MLSpec

open MLSpec.Ext
open MLSpec.Disp (ainsert alookup)

/-- One capture-loop iteration preserves the invariant over the
capture's action rows. -/
theorem inv_processCapture (rn : String → Option (String → Bool))
    (t : STree) (db : EDB) (c : Capture) (st : ExtState) (R : List Nat)
    (hinv : Inv t st
      (((actionNodes t c).map (fun p => (rangeAt t p).start.row)) ++ R))
    (hp : List.Pairwise (· ≤ ·)
      (((actionNodes t c).map (fun p => (rangeAt t p).start.row)) ++ R)) :
    Inv t (processCapture rn t db st c) R := by
  cases c with
  | mk kind path =>
    cases kind with
    | fndef => exact hinv
    | vardef =>
      exact inv_drop_one t _ _ R
        (inv_def_var t st (scopesOf t path) (textAt t path) path _ R hinv
          hp rfl)
    | command =>
      exact inv_command rn t db st (scopesOf t path) path R hinv hp
    | fncall =>
      exact inv_fncall t db st (scopesOf t path) path R hinv hp
    | identifier =>
      exact inv_drop_one t _ _ R
        (inv_identifier t st (scopesOf t path) (textAt t path) path _ R
          hinv hp rfl)
    | field =>
      exact inv_field t db st (scopesOf t path) path R hinv hp

/-- The capture loop carries the invariant from the full action-row
list down to the empty one. -/
theorem inv_loop (rn : String → Option (String → Bool)) (t : STree)
    (db : EDB) :
    ∀ (cs : List Capture) (st : ExtState),
      Inv t st (actionRows t cs) →
      List.Pairwise (· ≤ ·) (actionRows t cs) →
      Inv t (cs.foldl (processCapture rn t db) st) [] := by
  intro cs
  induction cs with
  | nil => intro st h _; exact h
  | cons c cs ih =>
    intro st hinv hp
    rw [List.foldl_cons]
    have hdec : actionRows t (c :: cs)
        = ((actionNodes t c).map (fun p => (rangeAt t p).start.row))
          ++ actionRows t cs := by
      simp [actionRows]
    rw [hdec] at hinv hp
    exact ih (processCapture rn t db st c)
      (inv_processCapture rn t db c st (actionRows t cs) hinv hp)
      (hp.sublist (List.sublist_append_right _ _))

/-- Folding a step that keeps heap, references and workspace variables
and rewrites function-map entries without touching their variable lists
or references keeps all of that. -/
theorem foldl_preserves_entries {α : Type} (f : ExtState → α → ExtState)
    (hf : ∀ st a, (f st a).heap = st.heap
      ∧ (f st a).workspace.references = st.workspace.references
      ∧ (f st a).workspace.vars = st.workspace.vars
      ∧ ∀ kv ∈ (f st a).functions, ∃ kv0 ∈ st.functions,
          kv.2.vars = kv0.2.vars ∧ kv.2.references = kv0.2.references) :
    ∀ (l : List α) (st : ExtState),
      (l.foldl f st).heap = st.heap
      ∧ (l.foldl f st).workspace.references = st.workspace.references
      ∧ (l.foldl f st).workspace.vars = st.workspace.vars
      ∧ ∀ kv ∈ (l.foldl f st).functions, ∃ kv0 ∈ st.functions,
          kv.2.vars = kv0.2.vars ∧ kv.2.references = kv0.2.references := by
  intro l
  induction l with
  | nil =>
    intro st
    exact ⟨rfl, rfl, rfl, fun kv hkv => ⟨kv, hkv, rfl, rfl⟩⟩
  | cons a l ih =>
    intro st
    rw [List.foldl_cons]
    obtain ⟨i1, i2, i3, i4⟩ := ih (f st a)
    obtain ⟨j1, j2, j3, j4⟩ := hf st a
    refine ⟨i1.trans j1, i2.trans j2, i3.trans j3, ?_⟩
    intro kv hkv
    obtain ⟨kv1, hkv1, hv1, hr1⟩ := i4 kv hkv
    obtain ⟨kv0, hkv0, hv0, hr0⟩ := j4 kv1 hkv1
    exact ⟨kv0, hkv0, hv1.trans hv0, hr1.trans hr0⟩

/-- One signature-collection step keeps heap, references and variables
and rewrites only function-map function lists. -/
theorem collectSignatures_step (t : STree) (pf : PFileE)
    (pub : Option EFnDef) (st : ExtState) (p : List Nat) :
    ∀ kvp : ExtState,
      kvp = (fun st (p : List Nat) =>
        if kindAt t p == "function_definition" then
          match function_signature_name t p with
          | none => st
          | some nmr =>
            let definition : EFnDef := ⟨nmr.2, nmr.1, pf.path, ""⟩
            let definition :=
              match pub with
              | some pfd => if pfd.loc == definition.loc then pfd
                else definition
              | none => definition
            match parent_function t p with
            | some parent =>
              (match fnsGet st.functions parent with
                | some kv =>
                  { st with functions := (fnsSet st.functions parent
                      { kv.2 with functions :=
                          (ainsert kv.2.functions nmr.1 definition) }) }
                | none => st)
            | none =>
              { st with workspace := { st.workspace with functions :=
                  (ainsert st.workspace.functions nmr.1 definition) } }
        else st) st p →
      kvp.heap = st.heap
      ∧ kvp.workspace.references = st.workspace.references
      ∧ kvp.workspace.vars = st.workspace.vars
      ∧ ∀ kv ∈ kvp.functions, ∃ kv0 ∈ st.functions,
          kv.2.vars = kv0.2.vars ∧ kv.2.references = kv0.2.references := by
  intro kvp hkvp
  subst hkvp
  dsimp only
  by_cases hk : (kindAt t p == "function_definition") = true
  · rw [if_pos hk]
    cases hsig : function_signature_name t p with
    | none => exact ⟨rfl, rfl, rfl, fun kv hkv => ⟨kv, hkv, rfl, rfl⟩⟩
    | some nmr =>
      dsimp only
      cases hpf : parent_function t p with
      | none => exact ⟨rfl, rfl, rfl, fun kv hkv => ⟨kv, hkv, rfl, rfl⟩⟩
      | some parent =>
        dsimp only
        cases hfg : fnsGet st.functions parent with
        | none => exact ⟨rfl, rfl, rfl, fun kv hkv => ⟨kv, hkv, rfl, rfl⟩⟩
        | some kvF =>
          dsimp only
          refine ⟨rfl, rfl, rfl, ?_⟩
          intro kv hkv
          simp only [fnsSet, List.mem_map] at hkv
          obtain ⟨kv0, hkv0, hkv0e⟩ := hkv
          by_cases hc : (kv0.1 == parent) = true
          · rw [if_pos hc] at hkv0e
            subst hkv0e
            exact ⟨kvF, List.mem_of_find?_eq_some hfg, rfl, rfl⟩
          · rw [if_neg hc] at hkv0e
            subst hkv0e
            exact ⟨kv0, hkv0, rfl, rfl⟩
  · rw [if_neg hk]
    exact ⟨rfl, rfl, rfl, fun kv hkv => ⟨kv, hkv, rfl, rfl⟩⟩

end MLSpec

namespace MLSpec

open MLSpec.Ext
open MLSpec.Disp (ainsert alookup)

/-- Every entry of the initial function-scope map is the empty
workspace. -/
theorem initialFunctions_empty (captures : List Capture) :
    ∀ kv ∈ initialFunctions captures, kv.2 = Ws.empty := by
  intro kv hkv
  have hm := foldl_mem_pred _
    (fun (kv : List Nat × Ws) (_ : Capture) => kv.2 = Ws.empty)
    (by
      intro acc a r2 hr2
      try dsimp only at hr2
      split at hr2
      · rcases List.mem_append.mp hr2 with h | h
        · exact Or.inl h
        · simp at h
          subst h
          exact Or.inr rfl
      · exact Or.inl hr2)
    captures [] kv hkv
  rcases hm with h | ⟨_, _, h⟩
  · exact absurd h (by simp)
  · exact h

/-- The state after signature collection satisfies the invariant for
any remaining action-row list. -/
theorem inv_initial (t : STree) (pf : PFileE) (pub : Option EFnDef)
    (captures : List Capture) (R : List Nat) :
    Inv t (collectSignatures t pf pub
      ⟨[], Ws.empty, initialFunctions captures⟩) R := by
  have hframe := foldl_preserves_entries _
    (fun st a => collectSignatures_step t pf pub st a _ rfl)
    ((⟨[], Ws.empty, initialFunctions captures⟩ : ExtState).functions.map
      (fun kv => kv.1))
    ⟨[], Ws.empty, initialFunctions captures⟩
  obtain ⟨hh, hr, hv, hfn⟩ := hframe
  unfold collectSignatures
  refine ⟨?_, ?_, ?_, ?_, ?_, ?_⟩
  · intro r hrm
    rw [hr] at hrm
    simp [Ws.empty] at hrm
  · intro r hrm
    rw [hr] at hrm
    simp [Ws.empty] at hrm
  · intro j hj
    rw [hh] at hj
    simp at hj
  · intro kv hkv i hi
    obtain ⟨kv0, hkv0, hveq, _⟩ := hfn kv hkv
    rw [initialFunctions_empty captures kv0 hkv0] at hveq
    rw [hveq] at hi
    simp [Ws.empty] at hi
  · intro i hi
    rw [hv] at hi
    simp [Ws.empty] at hi
  · intro kv hkv
    obtain ⟨kv0, hkv0, _, hreq⟩ := hfn kv hkv
    rw [hreq, initialFunctions_empty captures kv0 hkv0]
    rfl

/-- When no nested workspace holds references, the merge keeps the heap
and the reference list. -/
theorem mergeFunctions_out (st : ExtState)
    (h6 : ∀ kv ∈ st.functions, kv.2.references = []) :
    (mergeFunctions st).heap = st.heap
    ∧ (mergeFunctions st).workspace.references
        = st.workspace.references := by
  refine ⟨rfl, ?_⟩
  unfold mergeFunctions
  try dsimp only
  have key : ∀ (l : List (List Nat × Ws)) (ws : Ws),
      (∀ kv ∈ l, kv.2.references = []) →
      (l.foldl (fun ws kv =>
        { ws with
          functions := kv.2.functions.foldl
            (fun fs nv => ainsert fs nv.1 nv.2) ws.functions,
          references := ws.references ++ kv.2.references,
          vars := ws.vars ++ kv.2.vars }) ws).references
        = ws.references := by
    intro l
    induction l with
    | nil => intro ws _; rfl
    | cons kv l ih =>
      intro ws hl
      rw [List.foldl_cons]
      rw [ih _ (fun kv2 h2 => hl kv2 (List.mem_cons_of_mem kv h2))]
      dsimp only
      rw [hl kv (List.mem_cons_self kv l), List.append_nil]
  exact key st.functions st.workspace h6

/-- C1 (amended): after symbol extraction of a file whose action nodes
appear in non-decreasing row order (as byte-sorted captures of a parse
tree do), every Variable reference of the produced workspace points at
a valid heap cell whose location starts no later than the reference and
that is live, cleared no earlier than the reference row, or an
output-parameter cell whose location holds an output position of the
tree. -/
theorem c1_reference_soundness_amended
    (regexNew : String → Option (String → Bool)) (t : STree)
    (pf : PFileE) (db : EDB) (captures : List Capture)
    (hmono : List.Pairwise (· ≤ ·)
      (actionRows t (sortByByte t captures))) :
    ∀ r ∈ (extract_symbols regexNew t pf db captures).workspace.references,
      RefOk t (extract_symbols regexNew t pf db captures).heap r := by
  intro r hr
  unfold extract_symbols analyze_impl at hr ⊢
  dsimp only at hr ⊢
  have hinv1 := inv_initial t pf (public_function t pf)
    (sortByByte t captures) (actionRows t (sortByByte t captures))
  have hloop := inv_loop regexNew t db (sortByByte t captures) _ hinv1
    hmono
  obtain ⟨f1, f2, f3, f4, f5, f6⟩ := hloop
  obtain ⟨mh, mr⟩ := mergeFunctions_out _ f6
  rw [mr] at hr
  rw [mh]
  exact f1 r hr

end MLSpec

namespace MLSpec

open MLSpec.Ext

/-- Witness for the amended C1 statement: the action rows of the
counterexample file are non-decreasing, and the theorem yields
soundness of every reference the extraction of that file produces. -/
theorem c1_reference_soundness_amended_witness :
    List.Pairwise (· ≤ ·) (actionRows Ex.t1 (sortByByte Ex.t1 Ex.caps1))
    ∧ ∀ r ∈ Ex.out1.workspace.references, RefOk Ex.t1 Ex.out1.heap r := by
  refine ⟨by decide, ?_⟩
  exact c1_reference_soundness_amended Ex.litRegex Ex.t1 ⟨"f.m", ""⟩
    Ex.emptyDB Ex.caps1 (by decide)

end MLSpec
